import Mathlib

/-!
# go-taskqueue: task sets and the dependency-aware scheduler

A shallow embedding of `tasks.go` (task-set constructors) and `scheduler.go`
(the scheduling loop started by `Start`), followed by the properties proved
about them.

Modelling conventions.

* A Go `map[K]V` is a list of bindings; the map it denotes sends a key to its
  first binding. Every list denotes a map, so no well-formedness side
  condition is needed.
* `for k := range m` visits the keys of `m` in an unspecified order. Each
  `range` over a map therefore takes a priority function `prio : K → Nat` and
  visits the keys sorted by it; all functions are total in `prio` and the
  theorems hold for every `prio`.
* Go `int` is `Int` (the counters are bounded by the number of tasks).
* The goroutine inside `Start` is a transition system: `step` performs one
  `select`/receive of the loop, the environment's part (what the done channel
  delivers, which ready `select` case wins) being supplied by an `Oracle`.
-/

namespace Taskqueue

/-! ## Go maps -/

/-- A Go map: a list of bindings, a key being bound to its first binding. -/
abbrev GoMap (K V : Type) := List (K × V)

section GoMapOps

variable {K V : Type} [DecidableEq K]

/-- The comma-ok lookup `v, ok := m[k]`. -/
def mapLookup (m : GoMap K V) (k : K) : Option V :=
  match m with
  | [] => none
  | (k', v) :: rest => if k' = k then some v else mapLookup rest k

/-- Source: `mapHas` in scheduler.go, also the idiom `_, ok := m[k]`. -/
def mapHas (m : GoMap K V) (k : K) : Bool :=
  (mapLookup m k).isSome

/-- The plain lookup `m[k]`, yielding the zero value when the key is absent. -/
def mapGet [Inhabited V] (m : GoMap K V) (k : K) : V :=
  (mapLookup m k).getD default

/-- The builtin `delete(m, k)`. -/
def mapDelete (m : GoMap K V) (k : K) : GoMap K V :=
  m.filter (fun p => decide (p.1 ≠ k))

/-- The assignment `m[k] = v`. -/
def mapSet (m : GoMap K V) (k : K) (v : V) : GoMap K V :=
  (k, v) :: mapDelete m k

/-- The keys of the map, each once. -/
def mapKeys (m : GoMap K V) : List K :=
  (m.map Prod.fst).dedup

/-- The builtin `len(m)`. -/
def mapLen (m : GoMap K V) : Nat :=
  (mapKeys m).length

/-- The order in which one `range` statement visits the keys of `m`. -/
def rangeOrder (prio : K → Nat) (m : GoMap K V) : List K :=
  (mapKeys m).insertionSort (fun a b => prio a ≤ prio b)

end GoMapOps

/-! ## tasks.go -/

/-- Source: `type Task struct`. -/
structure Task where
  Name : String
  Deps : List String
  Group : String
deriving DecidableEq, Repr

/-- The zero value of `Task`. -/
instance : Inhabited Task := ⟨⟨"", [], ""⟩⟩

/-- Source: `type TaskSet struct`. -/
structure TaskSet where
  tasks : GoMap String Task
deriving DecidableEq, Repr

/-- The zero value `TaskSet{}` (a nil map). -/
instance : Inhabited TaskSet := ⟨⟨[]⟩⟩

/-- The four sentinel errors of tasks.go; the formatted message is not modelled. -/
inductive TaskError where
  | ErrDuplicateName
  | ErrUnknownDep
  | ErrNameMismatch
  | ErrEmptyName
deriving DecidableEq, Repr

/-- Source: `FromMapUnchecked`. -/
def FromMapUnchecked (tasks : GoMap String Task) : TaskSet :=
  { tasks := tasks }

/-- The inner loop `for _, dep := range task.Deps` of the constructors:
the first dependency that is not a key of `set`, if any. -/
def unknownDep (set : GoMap String Task) (deps : List String) : Option String :=
  deps.find? (fun dep => !mapHas set dep)

/-- The dependency check `for name, task := range set` shared by the
constructors: `true` when the loop returns `ErrUnknownDep`. -/
def depsCheckFails (prio : String → Nat) (set : GoMap String Task) : Bool :=
  (rangeOrder prio set).any (fun name => (unknownDep set (mapGet set name).Deps).isSome)

/-- The first loop of `FromList`: fill `set`, rejecting empty and repeated names. -/
def fromListFill (set : GoMap String Task) : List Task → Except TaskError (GoMap String Task)
  | [] => .ok set
  | task :: rest =>
    if task.Name = "" then .error .ErrEmptyName
    else if mapHas set task.Name then .error .ErrDuplicateName
    else fromListFill (mapSet set task.Name task) rest

/-- Source: `FromList`. The result is the Go pair `(TaskSet, error)`. -/
def FromList (tasks : List Task) (prio : String → Nat) : TaskSet × Option TaskError :=
  match fromListFill [] tasks with
  | .error e => (default, some e)
  | .ok set =>
    if depsCheckFails prio set then (default, some .ErrUnknownDep)
    else ({ tasks := set }, none)

/-- The first loop of `FromMapper`. The task `t` is built from the item but
never stored: the source has no `set[name] = t`, so `set` is passed on
unchanged. -/
def fromMapperFill {T : Type} (namer : T → String) (deps : Option (T → List String))
    (grouper : Option (T → String)) (set : GoMap String Task) :
    List T → Except TaskError (GoMap String Task)
  | [] => .ok set
  | item :: rest =>
    let name := namer item
    if name = "" then .error .ErrEmptyName
    else if mapHas set name then .error .ErrDuplicateName
    else
      let t : Task := { Name := name, Deps := [], Group := "" }
      let t := match deps with
        | some f => { t with Deps := f item }
        | none => t
      let _t := match grouper with
        | some g => { t with Group := g item }
        | none => t
      fromMapperFill namer deps grouper set rest

/-- Source: `FromMapper`. A nil extractor is `none`. -/
def FromMapper {T : Type} (items : List T) (namer : T → String)
    (deps : Option (T → List String)) (grouper : Option (T → String))
    (prio : String → Nat) : TaskSet × Option TaskError :=
  match fromMapperFill namer deps grouper [] items with
  | .error e => (default, some e)
  | .ok set =>
    if depsCheckFails prio set then (default, some .ErrUnknownDep)
    else ({ tasks := set }, none)

/-! ## scheduler.go -/

/-- Source: `maxByValue`. The two `range` loops each have their own order. -/
def maxByValue {K V : Type} [DecidableEq K] [Inhabited K] [Inhabited V] [LT V]
    [DecidableRel (fun a b : V => a < b)] (m : GoMap K V) (prio1 prio2 : K → Nat) : K × V :=
  let first : K × V :=
    match rangeOrder prio1 m with
    | [] => (default, default)
    | k :: _ => (k, mapGet m k)
  (rangeOrder prio2 m).foldl
    (fun acc k => if acc.2 < mapGet m k then (k, mapGet m k) else acc) first

/-- The local variables of the goroutine in `Start`. `peeked` is the channel of
capacity one: empty, or holding one name. -/
structure Sched where
  currentGroup : String
  groupTasksStarted : Int
  readyTasks : GoMap String Unit
  groupReadyCount : GoMap String Int
  startedTasks : GoMap String Unit
  completedTasks : GoMap String Unit
  peeked : Option String
deriving DecidableEq, Repr

/-- The variables as declared before the loop. -/
def Sched.init : Sched :=
  { currentGroup := "", groupTasksStarted := 0, readyTasks := [], groupReadyCount := [],
    startedTasks := [], completedTasks := [], peeked := none }

/-- Lines 54-62: mark the received task as completed. -/
def markCompleted (s : Sched) (completed : String) : Sched :=
  let s := { s with completedTasks := mapSet s.completedTasks completed () }
  if !mapHas s.startedTasks completed then s
  else { s with startedTasks := mapDelete s.startedTasks completed,
                groupTasksStarted := s.groupTasksStarted - 1 }

/-- Lines 71-80: whether some dependency that is a task of the set is not
completed. -/
def isBlocked (tasks : TaskSet) (completedTasks : GoMap String Unit) : List String → Bool
  | [] => false
  | dep :: deps =>
    if !mapHas tasks.tasks dep then isBlocked tasks completedTasks deps
    else if !mapHas completedTasks dep then true
    else isBlocked tasks completedTasks deps

/-- Lines 67-86: the body of the readiness scan for one task. -/
def scanTask (tasks : TaskSet) (s : Sched) (name : String) : Sched :=
  let task := mapGet tasks.tasks name
  if mapHas s.completedTasks name || mapHas s.readyTasks name || mapHas s.startedTasks name then s
  else if isBlocked tasks s.completedTasks task.Deps then s
  else { s with readyTasks := mapSet s.readyTasks name (),
                groupReadyCount := mapSet s.groupReadyCount task.Group
                  (mapGet s.groupReadyCount task.Group + 1) }

/-- Lines 65-87: scan for newly ready tasks. -/
def scanReady (tasks : TaskSet) (prio : String → Nat) (s : Sched) : Sched :=
  (rangeOrder prio tasks.tasks).foldl (scanTask tasks) s

/-- Lines 89-92: switch group when nothing of the current group is started. -/
def selectGroup (s : Sched) (prio1 prio2 : String → Nat) : Sched :=
  if s.groupTasksStarted = 0 then
    { s with currentGroup := (maxByValue s.groupReadyCount prio1 prio2).1 }
  else s

/-- Lines 95-101: the first ready task, in range order, of the current group;
the empty string when there is none. -/
def pickNext (tasks : TaskSet) (s : Sched) (prio : String → Nat) : String :=
  match (rangeOrder prio s.readyTasks).find?
      (fun name => decide ((mapGet tasks.tasks name).Group = s.currentGroup)) with
  | some name => name
  | none => ""

/-- Lines 112-115: the bookkeeping after `nextTask` was sent. -/
def markStarted (s : Sched) (nextTask : String) : Sched :=
  { s with startedTasks := mapSet s.startedTasks nextTask (),
           readyTasks := mapDelete s.readyTasks nextTask,
           groupReadyCount := mapSet s.groupReadyCount s.currentGroup
             (mapGet s.groupReadyCount s.currentGroup - 1),
           groupTasksStarted := s.groupTasksStarted + 1 }

/-- Where the goroutine stands between two communications. -/
inductive Loc where
  /-- At the `select` of the drain loop (line 42). -/
  | drain
  /-- Past the drain loop, before the readiness scan (line 65). -/
  | body
  /-- Returned; the deferred `close(startEvents)` has run. -/
  | exited
  /-- Blocked for ever in `peeked <- completed` on a full buffer. -/
  | stuck
deriving DecidableEq, Repr

/-- A control point together with the variables. -/
structure Config where
  loc : Loc
  sched : Sched
deriving DecidableEq, Repr

/-- The goroutine at its start. -/
def Config.init : Config :=
  { loc := .drain, sched := Sched.init }

/-- Which communication a `select` or receive performs. -/
inductive Choice where
  /-- The case `completed = <-peeked` of the drain `select`. -/
  | peek
  /-- A receive from `doneEvents` delivering `v`. -/
  | recv (v : String)
  /-- A receive from `doneEvents` finding it closed. -/
  | closed
  /-- The `default` case of the drain `select`. -/
  | dflt
  /-- The case `startEvents <- nextTask` of the dispatch `select`. -/
  | send
deriving DecidableEq, Repr

/-- What the environment and the runtime decide in one step. -/
structure Oracle where
  choice : Choice
  scanPrio : String → Nat
  groupPrio1 : String → Nat
  groupPrio2 : String → Nat
  readyPrio : String → Nat

/-- What the outside can observe of the goroutine. -/
inductive Event where
  /-- A name sent on the start channel. -/
  | start (name : String)
  /-- A name received from the done channel. -/
  | done (name : String)
  /-- The done channel was found closed. -/
  | doneClosed
  /-- The start channel was closed (the goroutine returned). -/
  | startClosed
deriving DecidableEq, Repr

/-- Lines 51-62: what the drain loop does with a value it received. -/
def afterReceive (s : Sched) (completed : String) : Config :=
  if completed = "" then { loc := .body, sched := s }
  else { loc := .drain, sched := markCompleted s completed }

/-- Lines 42-50: one `select` of the drain loop. `default` is taken only when
no case is ready, so not while `peeked` holds a value. -/
def drainSelect (s : Sched) : Choice → Option (Config × List Event)
  | .peek =>
    match s.peeked with
    | none => none
    | some completed => some (afterReceive { s with peeked := none } completed, [])
  | .recv completed => some (afterReceive s completed, [.done completed])
  | .closed => some ({ loc := .exited, sched := s }, [.doneClosed, .startClosed])
  | .dflt => if s.peeked.isSome then none else some ({ loc := .body, sched := s }, [])
  | .send => none

/-- The send `peeked <- completed` (lines 109 and 128). -/
def stash (s : Sched) (completed : String) : Config :=
  match s.peeked with
  | none => { loc := .drain, sched := { s with peeked := some completed } }
  | some _ => { loc := .stuck, sched := s }

/-- Lines 65-133: the loop body after the drain loop, up to and including its
one communication. The send on `startEvents` never blocks: the buffer has room
for every task. -/
def loopBody (tasks : TaskSet) (s : Sched) (o : Oracle) : Option (Config × List Event) :=
  let s := scanReady tasks o.scanPrio s
  let s := selectGroup s o.groupPrio1 o.groupPrio2
  let nextTask := pickNext tasks s o.readyPrio
  if nextTask ≠ "" then
    match o.choice with
    | .recv completed => some (stash s completed, [.done completed])
    | .closed => some ({ loc := .exited, sched := s }, [.doneClosed, .startClosed])
    | .send => some ({ loc := .drain, sched := markStarted s nextTask }, [.start nextTask])
    | _ => none
  else if mapLen s.startedTasks > 0 then
    match o.choice with
    | .recv completed => some (stash s completed, [.done completed])
    | .closed => some ({ loc := .exited, sched := s }, [.doneClosed, .startClosed])
    | _ => none
  else some ({ loc := .exited, sched := s }, [.startClosed])

/-- One step of the goroutine of `Start`; `none` when the oracle asks for a
communication that is not possible in this configuration. -/
def step (tasks : TaskSet) (c : Config) (o : Oracle) : Option (Config × List Event) :=
  match c.loc with
  | .drain => drainSelect c.sched o.choice
  | .body => loopBody tasks c.sched o
  | .exited => none
  | .stuck => none

/-- Run the goroutine from `c` along a list of oracles, collecting the events. -/
def runFrom (tasks : TaskSet) (c : Config) : List Oracle → Option (Config × List Event)
  | [] => some (c, [])
  | o :: os =>
    match step tasks c o with
    | none => none
    | some (c', ev) =>
      match runFrom tasks c' os with
      | none => none
      | some (c'', tr) => some (c'', ev ++ tr)

/-- Source: `Start`: the goroutine run from its initial configuration. -/
def Start (tasks : TaskSet) (os : List Oracle) : Option (Config × List Event) :=
  runFrom tasks Config.init os

/-- An oracle making the given choice, every `range` in key order. -/
def Oracle.plain (c : Choice) : Oracle :=
  { choice := c, scanPrio := fun _ => 0, groupPrio1 := fun _ => 0,
    groupPrio2 := fun _ => 0, readyPrio := fun _ => 0 }

/-- The names sent on the start channel, in order. -/
def starts : List Event → List String
  | [] => []
  | .start n :: tr => n :: starts tr
  | _ :: tr => starts tr

/-- The names received from the done channel, in order. -/
def dones : List Event → List String
  | [] => []
  | .done n :: tr => n :: dones tr
  | _ :: tr => dones tr

/-- The task set of `TestStartsTaskInOrder`. -/
def twoTasks : TaskSet :=
  FromMapUnchecked [("task1", default), ("task2", { Name := "", Deps := ["task1"], Group := "" })]

end Taskqueue

namespace Taskqueue

/-! ## Facts about Go maps -/

section GoMapFacts

variable {K V : Type} [DecidableEq K]

theorem mapLookup_delete (m : GoMap K V) (k k' : K) :
    mapLookup (mapDelete m k) k' = if k = k' then none else mapLookup m k' := by
  induction m with
  | nil => simp [mapDelete, mapLookup]
  | cons p rest ih =>
    obtain ⟨a, b⟩ := p
    by_cases hak : a = k
    · subst hak
      have : mapDelete ((a, b) :: rest) a = mapDelete rest a := by
        simp [mapDelete]
      rw [this, ih]
      by_cases h : a = k'
      · simp [h]
      · simp [h, mapLookup]
    · have : mapDelete ((a, b) :: rest) k = (a, b) :: mapDelete rest k := by
        simp [mapDelete, hak]
      rw [this]
      by_cases h : k = k'
      · subst h
        simp [mapLookup, hak, ih]
      · simp only [mapLookup, ih, h, if_false]

theorem mapLookup_set (m : GoMap K V) (k k' : K) (v : V) :
    mapLookup (mapSet m k v) k' = if k = k' then some v else mapLookup m k' := by
  by_cases h : k = k'
  · simp [mapSet, mapLookup, h]
  · simp [mapSet, mapLookup, h, mapLookup_delete]

theorem mapHas_set (m : GoMap K V) (k k' : K) (v : V) :
    mapHas (mapSet m k v) k' = true ↔ k = k' ∨ mapHas m k' = true := by
  unfold mapHas
  rw [mapLookup_set]
  by_cases h : k = k' <;> simp [h]

theorem mapHas_delete (m : GoMap K V) (k k' : K) :
    mapHas (mapDelete m k) k' = true ↔ k ≠ k' ∧ mapHas m k' = true := by
  unfold mapHas
  rw [mapLookup_delete]
  by_cases h : k = k' <;> simp [h]

theorem mapGet_set [Inhabited V] (m : GoMap K V) (k k' : K) (v : V) :
    mapGet (mapSet m k v) k' = if k = k' then v else mapGet m k' := by
  unfold mapGet
  rw [mapLookup_set]
  by_cases h : k = k' <;> simp [h]

theorem mapGet_of_not_has [Inhabited V] (m : GoMap K V) (k : K) (h : mapHas m k = false) :
    mapGet m k = default := by
  unfold mapHas at h
  unfold mapGet
  cases hl : mapLookup m k with
  | none => rfl
  | some v => rw [hl] at h; exact Bool.noConfusion h

theorem mapHas_nil (k : K) : mapHas ([] : GoMap K V) k = false := rfl

theorem mapHas_iff_mem (m : GoMap K V) (k : K) :
    mapHas m k = true ↔ k ∈ m.map Prod.fst := by
  induction m with
  | nil => simp [mapHas, mapLookup]
  | cons p rest ih =>
    obtain ⟨a, b⟩ := p
    by_cases h : a = k
    · simp [mapHas, mapLookup, h]
    · have h' : k ≠ a := fun e => h e.symm
      simp only [mapHas, mapLookup, h, if_false, List.map_cons, List.mem_cons, h', false_or]
      exact ih

theorem mem_mapKeys (m : GoMap K V) (k : K) : k ∈ mapKeys m ↔ mapHas m k = true := by
  rw [mapHas_iff_mem, mapKeys, List.mem_dedup]

theorem nodup_mapKeys (m : GoMap K V) : (mapKeys m).Nodup :=
  List.nodup_dedup _

theorem mem_rangeOrder (prio : K → Nat) (m : GoMap K V) (k : K) :
    k ∈ rangeOrder prio m ↔ mapHas m k = true := by
  rw [rangeOrder, List.mem_insertionSort, mem_mapKeys]

theorem rangeOrder_perm (prio : K → Nat) (m : GoMap K V) :
    (rangeOrder prio m).Perm (mapKeys m) :=
  List.perm_insertionSort _ _

theorem nodup_rangeOrder (prio : K → Nat) (m : GoMap K V) : (rangeOrder prio m).Nodup :=
  (rangeOrder_perm prio m).nodup_iff.mpr (nodup_mapKeys m)

theorem mapLookup_isSome_of_has {m : GoMap K V} {k : K} (h : mapHas m k = true) :
    ∃ v, mapLookup m k = some v := by
  unfold mapHas at h
  exact Option.isSome_iff_exists.mp h

theorem mapLookup_mem {m : GoMap K V} {k : K} {v : V} (h : mapLookup m k = some v) :
    (k, v) ∈ m := by
  induction m with
  | nil => simp [mapLookup] at h
  | cons p rest ih =>
    obtain ⟨a, b⟩ := p
    by_cases hak : a = k
    · simp [mapLookup, hak] at h
      simp [hak, h]
    · simp only [mapLookup, hak, if_false] at h
      exact List.mem_cons_of_mem _ (ih h)

/-- Adding a fresh key puts exactly that key in front of the keys. -/
theorem mapKeys_set_perm (m : GoMap K V) (k : K) (v : V) (h : mapHas m k = false) :
    (mapKeys (mapSet m k v)).Perm (k :: mapKeys m) := by
  rw [List.perm_ext_iff_of_nodup (nodup_mapKeys _)]
  · intro a
    rw [mem_mapKeys, mapHas_set, List.mem_cons, mem_mapKeys]
    constructor
    · rintro (e | e)
      · exact Or.inl e.symm
      · exact Or.inr e
    · rintro (e | e)
      · exact Or.inl e.symm
      · exact Or.inr e
  · refine List.nodup_cons.mpr ⟨?_, nodup_mapKeys m⟩
    rw [mem_mapKeys, h]
    simp

/-- Deleting a present key removes exactly that key from the keys. -/
theorem mapKeys_delete_perm (m : GoMap K V) (k : K) (h : mapHas m k = true) :
    (mapKeys m).Perm (k :: mapKeys (mapDelete m k)) := by
  rw [List.perm_ext_iff_of_nodup (nodup_mapKeys _)]
  · intro a
    rw [mem_mapKeys, List.mem_cons, mem_mapKeys, mapHas_delete]
    constructor
    · intro ha
      by_cases e : a = k
      · exact Or.inl e
      · exact Or.inr ⟨fun e' => e e'.symm, ha⟩
    · rintro (e | e)
      · rw [e]; exact h
      · exact e.2
  · refine List.nodup_cons.mpr ⟨?_, nodup_mapKeys _⟩
    rw [mem_mapKeys, mapHas_delete]
    simp

/-- Setting a key that is already present leaves the key set unchanged. -/
theorem mapKeys_set_perm_of_has (m : GoMap K V) (k : K) (v : V) (h : mapHas m k = true) :
    (mapKeys (mapSet m k v)).Perm (mapKeys m) := by
  rw [List.perm_ext_iff_of_nodup (nodup_mapKeys _) (nodup_mapKeys _)]
  intro a
  rw [mem_mapKeys, mapHas_set, mem_mapKeys]
  constructor
  · rintro (e | e)
    · rw [← e]; exact h
    · exact e
  · exact Or.inr

theorem mapLen_eq_zero_iff (m : GoMap K V) : mapLen m = 0 ↔ ∀ k, mapHas m k = false := by
  unfold mapLen
  rw [List.length_eq_zero]
  constructor
  · intro h k
    have := mem_mapKeys m k
    rw [h] at this
    cases hk : mapHas m k
    · rfl
    · exact absurd (this.mpr hk) (List.not_mem_nil _)
  · intro h
    apply List.eq_nil_iff_forall_not_mem.mpr
    intro a ha
    rw [mem_mapKeys, h a] at ha
    exact Bool.noConfusion ha

theorem mapLen_set_new (m : GoMap K V) (k : K) (v : V) (h : mapHas m k = false) :
    mapLen (mapSet m k v) = mapLen m + 1 := by
  unfold mapLen
  rw [(mapKeys_set_perm m k v h).length_eq]
  rfl

theorem mapLen_delete (m : GoMap K V) (k : K) (h : mapHas m k = true) :
    mapLen m = mapLen (mapDelete m k) + 1 := by
  unfold mapLen
  rw [(mapKeys_delete_perm m k h).length_eq]
  rfl

/-- The number of keys of `m` that satisfy `p`. -/
def keysCount (p : K → Bool) (m : GoMap K V) : Nat :=
  ((mapKeys m).filter p).length

theorem keysCount_set_new (p : K → Bool) (m : GoMap K V) (k : K) (v : V)
    (h : mapHas m k = false) :
    keysCount p (mapSet m k v) = keysCount p m + (if p k then 1 else 0) := by
  unfold keysCount
  rw [((mapKeys_set_perm m k v h).filter p).length_eq]
  by_cases hp : p k = true
  · simp [List.filter_cons, hp]
  · simp [List.filter_cons, hp]

theorem keysCount_delete (p : K → Bool) (m : GoMap K V) (k : K) (h : mapHas m k = true) :
    keysCount p m = keysCount p (mapDelete m k) + (if p k then 1 else 0) := by
  unfold keysCount
  rw [((mapKeys_delete_perm m k h).filter p).length_eq]
  by_cases hp : p k = true
  · simp [List.filter_cons, hp]
  · simp [List.filter_cons, hp]

theorem keysCount_pos_iff (p : K → Bool) (m : GoMap K V) :
    0 < keysCount p m ↔ ∃ k, mapHas m k = true ∧ p k = true := by
  unfold keysCount
  rw [List.length_pos_iff_exists_mem]
  constructor
  · rintro ⟨a, ha⟩
    rw [List.mem_filter, mem_mapKeys] at ha
    exact ⟨a, ha⟩
  · rintro ⟨a, ha⟩
    exact ⟨a, by rw [List.mem_filter, mem_mapKeys]; exact ha⟩

end GoMapFacts

end Taskqueue

namespace Taskqueue

/-! ## Every iteration order is a range order -/

/-- Every enumeration of the keys of a map, each key once, is the order of some
`range` over the map: the priority functions cover all iteration orders. -/
theorem rangeOrder_any {K V : Type} [DecidableEq K] (m : GoMap K V) (l : List K)
    (hl : l.Perm (mapKeys m)) : ∃ prio : K → Nat, rangeOrder prio m = l := by
  have hnd : l.Nodup := hl.nodup_iff.mpr (nodup_mapKeys m)
  refine ⟨fun k => l.indexOf k, ?_⟩
  unfold rangeOrder
  haveI : IsTotal K (fun a b => l.indexOf a ≤ l.indexOf b) := ⟨fun a b => Nat.le_total _ _⟩
  haveI : IsTrans K (fun a b => l.indexOf a ≤ l.indexOf b) :=
    ⟨fun a b c h1 h2 => Nat.le_trans h1 h2⟩
  have h1 : ∀ a b, a ∈ (mapKeys m).insertionSort (fun a b => l.indexOf a ≤ l.indexOf b) →
      b ∈ l → l.indexOf a ≤ l.indexOf b → l.indexOf b ≤ l.indexOf a → a = b := by
    intro a b ha hb h1 h2
    have ha' : a ∈ l := hl.mem_iff.mpr ((List.perm_insertionSort _ _).mem_iff.mp ha)
    exact (List.indexOf_inj ha' hb).mp (Nat.le_antisymm h1 h2)
  have h2 : ((mapKeys m).insertionSort (fun a b => l.indexOf a ≤ l.indexOf b)).Pairwise
      (fun a b => l.indexOf a ≤ l.indexOf b) := List.sorted_insertionSort _ _
  have h3 : l.Pairwise (fun a b => l.indexOf a ≤ l.indexOf b) := by
    rw [List.pairwise_iff_getElem]
    intro i j hi hj hij
    rw [List.indexOf_getElem hnd i hi, List.indexOf_getElem hnd j hj]
    exact Nat.le_of_lt hij
  exact List.Perm.eq_of_sorted h1 h2 h3 ((List.perm_insertionSort _ _).trans hl.symm)

end Taskqueue

namespace Taskqueue

/-! ## The state invariant of the scheduling loop -/

/-- The group label of the task stored under `name` (the empty label when
there is none): `tasks.tasks[name].Group`. -/
def taskGroup (tasks : TaskSet) (name : String) : String :=
  (mapGet tasks.tasks name).Group

/-- The dependencies of the task stored under `name`. -/
def taskDeps (tasks : TaskSet) (name : String) : List String :=
  (mapGet tasks.tasks name).Deps

/-- What holds of the loop variables whenever the goroutine is between two
communications. -/
structure SchedInv (tasks : TaskSet) (s : Sched) : Prop where
  ready_task : ∀ n, mapHas s.readyTasks n = true → mapHas tasks.tasks n = true
  ready_not_started : ∀ n, mapHas s.readyTasks n = true → mapHas s.startedTasks n = false
  started_task : ∀ n, mapHas s.startedTasks n = true → mapHas tasks.tasks n = true
  started_group : ∀ n, mapHas s.startedTasks n = true → taskGroup tasks n = s.currentGroup
  started_count : s.groupTasksStarted = (mapLen s.startedTasks : Int)
  ready_count : ∀ g, mapGet s.groupReadyCount g
      = (keysCount (fun n => decide (taskGroup tasks n = g)) s.readyTasks : Int)
  ready_deps : ∀ n, mapHas s.readyTasks n = true → ∀ dep ∈ taskDeps tasks n,
      mapHas tasks.tasks dep = true → mapHas s.completedTasks dep = true

theorem schedInv_init (tasks : TaskSet) : SchedInv tasks Sched.init := by
  constructor <;> intros <;> simp_all [Sched.init, mapHas, mapLookup, mapLen, mapKeys, mapGet,
    keysCount]

theorem isBlocked_eq_false_iff (tasks : TaskSet) (completedTasks : GoMap String Unit)
    (deps : List String) :
    isBlocked tasks completedTasks deps = false ↔
      ∀ dep ∈ deps, mapHas tasks.tasks dep = true → mapHas completedTasks dep = true := by
  induction deps with
  | nil => simp [isBlocked]
  | cons d rest ih =>
    unfold isBlocked
    by_cases h1 : mapHas tasks.tasks d = true
    · by_cases h2 : mapHas completedTasks d = true
      · simp [h1, h2, ih]
      · simp [h1, h2]
    · simp [h1, ih]

theorem isBlocked_eq_true_iff (tasks : TaskSet) (completedTasks : GoMap String Unit)
    (deps : List String) :
    isBlocked tasks completedTasks deps = true ↔
      ∃ dep ∈ deps, mapHas tasks.tasks dep = true ∧ mapHas completedTasks dep = false := by
  rw [← Bool.not_eq_false, isBlocked_eq_false_iff]
  push_neg
  constructor
  · rintro ⟨d, hd, h1, h2⟩
    exact ⟨d, hd, h1, by simpa using h2⟩
  · rintro ⟨d, hd, h1, h2⟩
    exact ⟨d, hd, h1, by simp [h2]⟩

/-! ### markCompleted -/

theorem markCompleted_completed (s : Sched) (v n : String) :
    mapHas (markCompleted s v).completedTasks n = true ↔
      v = n ∨ mapHas s.completedTasks n = true := by
  unfold markCompleted
  dsimp only
  split <;> exact mapHas_set _ _ _ _

theorem markCompleted_ready (s : Sched) (v : String) :
    (markCompleted s v).readyTasks = s.readyTasks := by
  unfold markCompleted
  dsimp only
  split <;> rfl

theorem markCompleted_groupReadyCount (s : Sched) (v : String) :
    (markCompleted s v).groupReadyCount = s.groupReadyCount := by
  unfold markCompleted
  dsimp only
  split <;> rfl

theorem markCompleted_currentGroup (s : Sched) (v : String) :
    (markCompleted s v).currentGroup = s.currentGroup := by
  unfold markCompleted
  dsimp only
  split <;> rfl

theorem markCompleted_peeked (s : Sched) (v : String) :
    (markCompleted s v).peeked = s.peeked := by
  unfold markCompleted
  dsimp only
  split <;> rfl

theorem markCompleted_started (s : Sched) (v n : String) :
    mapHas (markCompleted s v).startedTasks n = true ↔
      v ≠ n ∧ mapHas s.startedTasks n = true := by
  unfold markCompleted
  dsimp only
  split
  · rename_i h
    simp only [Bool.not_eq_true', ] at h
    constructor
    · intro hn
      refine ⟨?_, hn⟩
      rintro rfl
      rw [h] at hn
      exact Bool.noConfusion hn
    · exact fun hn => hn.2
  · exact mapHas_delete _ _ _

theorem markCompleted_inv {tasks : TaskSet} {s : Sched} (v : String) (h : SchedInv tasks s) :
    SchedInv tasks (markCompleted s v) := by
  have hst := markCompleted_started s v
  constructor
  · intro n hn
    rw [markCompleted_ready] at hn
    exact h.ready_task n hn
  · intro n hn
    rw [markCompleted_ready] at hn
    have := h.ready_not_started n hn
    cases hc : mapHas (markCompleted s v).startedTasks n
    · rfl
    · rw [((hst n).mp hc).2] at this
      exact Bool.noConfusion this
  · intro n hn
    exact h.started_task n ((hst n).mp hn).2
  · intro n hn
    rw [markCompleted_currentGroup]
    exact h.started_group n ((hst n).mp hn).2
  · unfold markCompleted
    dsimp only
    split
    · exact h.started_count
    · rename_i hv
      have hv' : mapHas s.startedTasks v = true := by simpa using hv
      dsimp only
      rw [h.started_count, mapLen_delete _ _ hv']
      push_cast
      ring
  · intro g
    rw [markCompleted_groupReadyCount, markCompleted_ready]
    exact h.ready_count g
  · intro n hn dep hdep hd
    rw [markCompleted_ready] at hn
    exact (markCompleted_completed s v dep).mpr (Or.inr (h.ready_deps n hn dep hdep hd))

/-! ### scanReady -/

theorem foldl_preserves {α β : Type} (f : α → β → α) (P : α → Prop)
    (hf : ∀ a b, P a → P (f a b)) (l : List β) (a : α) (ha : P a) : P (l.foldl f a) := by
  induction l generalizing a with
  | nil => exact ha
  | cons b rest ih => exact ih (f a b) (hf a b ha)

theorem foldl_preserves_mem {α β : Type} (f : α → β → α) (P : α → Prop) (l : List β)
    (hf : ∀ a, ∀ b ∈ l, P a → P (f a b)) (a : α) (ha : P a) : P (l.foldl f a) := by
  induction l generalizing a with
  | nil => exact ha
  | cons b rest ih =>
    exact ih (fun a' b' hb' => hf a' b' (List.mem_cons_of_mem _ hb')) (f a b)
      (hf a b (List.mem_cons_self _ _) ha)

theorem foldl_establishes {α β : Type} (f : α → β → α) (P : α → Prop)
    (hf : ∀ a b, P a → P (f a b)) (b : β) (hb : ∀ a, P (f a b)) (l : List β) (hl : b ∈ l)
    (a : α) : P (l.foldl f a) := by
  induction l generalizing a with
  | nil => exact absurd hl (List.not_mem_nil _)
  | cons c rest ih =>
    rcases List.mem_cons.mp hl with e | e
    · subst e
      exact foldl_preserves f P hf rest _ (hb a)
    · exact ih e (f a c)

/-- The readiness scan changes nothing but `readyTasks` and `groupReadyCount`. -/
structure ScanFrame (s s' : Sched) : Prop where
  currentGroup : s'.currentGroup = s.currentGroup
  groupTasksStarted : s'.groupTasksStarted = s.groupTasksStarted
  startedTasks : s'.startedTasks = s.startedTasks
  completedTasks : s'.completedTasks = s.completedTasks
  peeked : s'.peeked = s.peeked
  ready_mono : ∀ n, mapHas s.readyTasks n = true → mapHas s'.readyTasks n = true

theorem ScanFrame.refl (s : Sched) : ScanFrame s s :=
  ⟨rfl, rfl, rfl, rfl, rfl, fun _ h => h⟩

theorem ScanFrame.trans {a b c : Sched} (h1 : ScanFrame a b) (h2 : ScanFrame b c) :
    ScanFrame a c :=
  ⟨h2.currentGroup.trans h1.currentGroup, h2.groupTasksStarted.trans h1.groupTasksStarted,
    h2.startedTasks.trans h1.startedTasks, h2.completedTasks.trans h1.completedTasks,
    h2.peeked.trans h1.peeked, fun n h => h2.ready_mono n (h1.ready_mono n h)⟩

theorem scanTask_frame (tasks : TaskSet) (s : Sched) (name : String) :
    ScanFrame s (scanTask tasks s name) := by
  unfold scanTask
  dsimp only
  split
  · exact ScanFrame.refl s
  · split
    · exact ScanFrame.refl s
    · exact ⟨rfl, rfl, rfl, rfl, rfl, fun n h => (mapHas_set _ _ _ _).mpr (Or.inr h)⟩

theorem scanReady_frame (tasks : TaskSet) (prio : String → Nat) (s : Sched) :
    ScanFrame s (scanReady tasks prio s) := by
  unfold scanReady
  exact foldl_preserves (scanTask tasks) (fun x => ScanFrame s x)
    (fun a b h => h.trans (scanTask_frame tasks a b)) _ s (ScanFrame.refl s)

theorem scanTask_inv {tasks : TaskSet} {s : Sched} (name : String)
    (hname : mapHas tasks.tasks name = true) (h : SchedInv tasks s) :
    SchedInv tasks (scanTask tasks s name) := by
  unfold scanTask
  dsimp only
  split
  · exact h
  · rename_i hnot
    simp only [Bool.or_eq_true, not_or, Bool.not_eq_true] at hnot
    obtain ⟨⟨hc, hr⟩, hs⟩ := hnot
    split
    · exact h
    · rename_i hb
      have hb' := (isBlocked_eq_false_iff _ _ _).mp (by simpa using hb)
      constructor
      · intro n hn
        rcases (mapHas_set _ _ _ _).mp hn with e | e
        · rw [← e]; exact hname
        · exact h.ready_task n e
      · intro n hn
        rcases (mapHas_set _ _ _ _).mp hn with e | e
        · rw [← e]; exact hs
        · exact h.ready_not_started n e
      · exact h.started_task
      · exact h.started_group
      · exact h.started_count
      · intro g
        dsimp only
        rw [mapGet_set, keysCount_set_new _ _ _ _ hr, h.ready_count, h.ready_count]
        by_cases hg : (mapGet tasks.tasks name).Group = g
        · subst hg
          simp [taskGroup]
        · simp [taskGroup, hg]
      · intro n hn dep hdep hd
        rcases (mapHas_set _ _ _ _).mp hn with e | e
        · subst e
          exact hb' dep hdep hd
        · exact h.ready_deps n e dep hdep hd

theorem scanReady_inv {tasks : TaskSet} {s : Sched} (prio : String → Nat)
    (h : SchedInv tasks s) : SchedInv tasks (scanReady tasks prio s) := by
  unfold scanReady
  exact foldl_preserves_mem (scanTask tasks) (SchedInv tasks) _
    (fun a b hb ha => scanTask_inv b ((mem_rangeOrder _ _ _).mp hb) ha) s h

/-- After its scan step a task is completed, ready, started or blocked. -/
def Scanned (tasks : TaskSet) (name : String) (s : Sched) : Prop :=
  mapHas s.completedTasks name = true ∨ mapHas s.readyTasks name = true ∨
    mapHas s.startedTasks name = true ∨
    isBlocked tasks s.completedTasks (taskDeps tasks name) = true

theorem scanned_scanTask (tasks : TaskSet) (name : String) (s : Sched) :
    Scanned tasks name (scanTask tasks s name) := by
  unfold scanTask Scanned
  dsimp only
  split
  · rename_i h
    simp only [Bool.or_eq_true] at h
    rcases h with (h | h) | h
    · exact Or.inl h
    · exact Or.inr (Or.inl h)
    · exact Or.inr (Or.inr (Or.inl h))
  · split
    · rename_i h
      exact Or.inr (Or.inr (Or.inr h))
    · exact Or.inr (Or.inl ((mapHas_set _ _ _ _).mpr (Or.inl rfl)))

theorem scanned_mono (tasks : TaskSet) (name : String) (s : Sched) (m : String)
    (h : Scanned tasks name s) : Scanned tasks name (scanTask tasks s m) := by
  have fr := scanTask_frame tasks s m
  unfold Scanned at *
  rw [fr.completedTasks, fr.startedTasks]
  rcases h with h | h | h | h
  · exact Or.inl h
  · exact Or.inr (Or.inl (fr.ready_mono _ h))
  · exact Or.inr (Or.inr (Or.inl h))
  · exact Or.inr (Or.inr (Or.inr h))

theorem scanReady_scanned (tasks : TaskSet) (prio : String → Nat) (s : Sched) (name : String)
    (hname : mapHas tasks.tasks name = true) : Scanned tasks name (scanReady tasks prio s) := by
  unfold scanReady
  exact foldl_establishes (scanTask tasks) (Scanned tasks name)
    (fun a b h => scanned_mono tasks name a b h) name (fun a => scanned_scanTask tasks name a)
    _ ((mem_rangeOrder _ _ _).mpr hname) s

end Taskqueue

namespace Taskqueue

/-! ### maxByValue -/

section MaxByValue

variable {K V : Type} [DecidableEq K] [Inhabited V] [LinearOrder V]

/-- The update of the second loop of `maxByValue`. -/
def maxStep (m : GoMap K V) (acc : K × V) (k : K) : K × V :=
  if acc.2 < mapGet m k then (k, mapGet m k) else acc

theorem maxStep_snd (m : GoMap K V) (acc : K × V) (k : K) (h : acc.2 = mapGet m acc.1) :
    (maxStep m acc k).2 = mapGet m (maxStep m acc k).1 := by
  unfold maxStep
  split
  · rfl
  · exact h

theorem maxStep_le (m : GoMap K V) (acc : K × V) (k : K) : acc.2 ≤ (maxStep m acc k).2 := by
  unfold maxStep
  split
  · rename_i h
    exact le_of_lt h
  · exact le_refl _

theorem maxStep_ge (m : GoMap K V) (acc : K × V) (k : K) : mapGet m k ≤ (maxStep m acc k).2 := by
  unfold maxStep
  split
  · exact le_refl _
  · rename_i h
    exact not_lt.mp h

theorem foldl_maxStep_le (m : GoMap K V) (l : List K) (acc : K × V) :
    acc.2 ≤ (l.foldl (maxStep m) acc).2 := by
  induction l generalizing acc with
  | nil => exact le_refl _
  | cons c rest ih => exact le_trans (maxStep_le m acc c) (ih _)

theorem foldl_maxStep_ge (m : GoMap K V) (l : List K) (acc : K × V) (k : K) (hk : k ∈ l) :
    mapGet m k ≤ (l.foldl (maxStep m) acc).2 := by
  induction l generalizing acc with
  | nil => exact absurd hk (List.not_mem_nil _)
  | cons c rest ih =>
    rcases List.mem_cons.mp hk with e | e
    · subst e
      exact le_trans (maxStep_ge m acc k) (foldl_maxStep_le m rest _)
    · exact ih _ e

theorem maxByValue_eq [Inhabited K] (m : GoMap K V) (prio1 prio2 : K → Nat) :
    maxByValue m prio1 prio2 = (rangeOrder prio2 m).foldl (maxStep m)
      (match rangeOrder prio1 m with
        | [] => (default, default)
        | k :: _ => (k, mapGet m k)) := rfl

/-- The value returned by `maxByValue` is the one stored under the returned key. -/
theorem maxByValue_snd [Inhabited K] (m : GoMap K V) (prio1 prio2 : K → Nat) :
    (maxByValue m prio1 prio2).2 = mapGet m (maxByValue m prio1 prio2).1 := by
  rw [maxByValue_eq]
  apply foldl_preserves (maxStep m) (fun acc => acc.2 = mapGet m acc.1)
    (fun a b h => maxStep_snd m a b h)
  cases hl : rangeOrder prio1 m with
  | nil =>
    dsimp only
    symm
    apply mapGet_of_not_has
    cases hh : mapHas m (default : K)
    · rfl
    · have := (mem_rangeOrder prio1 m default).mpr hh
      rw [hl] at this
      exact absurd this (List.not_mem_nil _)
  | cons k rest => rfl

/-- No value of the map exceeds the value returned by `maxByValue`. -/
theorem maxByValue_ge [Inhabited K] (m : GoMap K V) (prio1 prio2 : K → Nat) (k : K)
    (hk : mapHas m k = true) : mapGet m k ≤ (maxByValue m prio1 prio2).2 := by
  rw [maxByValue_eq]
  exact foldl_maxStep_ge m _ _ k ((mem_rangeOrder prio2 m k).mpr hk)

end MaxByValue

/-! ### selectGroup, pickNext, markStarted -/

theorem selectGroup_frame (s : Sched) (p1 p2 : String → Nat) :
    (selectGroup s p1 p2).groupTasksStarted = s.groupTasksStarted ∧
    (selectGroup s p1 p2).readyTasks = s.readyTasks ∧
    (selectGroup s p1 p2).groupReadyCount = s.groupReadyCount ∧
    (selectGroup s p1 p2).startedTasks = s.startedTasks ∧
    (selectGroup s p1 p2).completedTasks = s.completedTasks ∧
    (selectGroup s p1 p2).peeked = s.peeked := by
  unfold selectGroup
  split <;> exact ⟨rfl, rfl, rfl, rfl, rfl, rfl⟩

theorem selectGroup_currentGroup (s : Sched) (p1 p2 : String → Nat) :
    (selectGroup s p1 p2).currentGroup =
      if s.groupTasksStarted = 0 then (maxByValue s.groupReadyCount p1 p2).1
      else s.currentGroup := by
  unfold selectGroup
  split <;> rfl

theorem selectGroup_inv {tasks : TaskSet} {s : Sched} (p1 p2 : String → Nat)
    (h : SchedInv tasks s) : SchedInv tasks (selectGroup s p1 p2) := by
  unfold selectGroup
  split
  · rename_i h0
    have hlen : mapLen s.startedTasks = 0 := by
      have := h.started_count
      rw [h0] at this
      exact_mod_cast this.symm
    have hnone := (mapLen_eq_zero_iff _).mp hlen
    refine ⟨h.ready_task, h.ready_not_started, h.started_task, ?_, h.started_count,
      h.ready_count, h.ready_deps⟩
    intro n hn
    dsimp only at hn
    rw [hnone n] at hn
    exact Bool.noConfusion hn
  · exact h

theorem pickNext_cases (tasks : TaskSet) (s : Sched) (prio : String → Nat) :
    (mapHas s.readyTasks (pickNext tasks s prio) = true ∧
      taskGroup tasks (pickNext tasks s prio) = s.currentGroup) ∨
    (pickNext tasks s prio = "" ∧
      ∀ n, mapHas s.readyTasks n = true → taskGroup tasks n ≠ s.currentGroup) := by
  unfold pickNext
  split
  · rename_i name hfind
    left
    have h1 := List.mem_of_find?_eq_some hfind
    have h2 := List.find?_some hfind
    exact ⟨(mem_rangeOrder _ _ _).mp h1, by simpa [taskGroup] using h2⟩
  · rename_i hfind
    right
    refine ⟨rfl, ?_⟩
    intro n hn
    have := List.find?_eq_none.mp hfind n ((mem_rangeOrder _ _ _).mpr hn)
    simpa [taskGroup] using this

theorem pickNext_ne_empty {tasks : TaskSet} {s : Sched} {prio : String → Nat}
    (h : pickNext tasks s prio ≠ "") :
    mapHas s.readyTasks (pickNext tasks s prio) = true ∧
      taskGroup tasks (pickNext tasks s prio) = s.currentGroup := by
  rcases pickNext_cases tasks s prio with h1 | h1
  · exact h1
  · exact absurd h1.1 h

theorem markStarted_inv {tasks : TaskSet} {s : Sched} {n : String} (h : SchedInv tasks s)
    (hr : mapHas s.readyTasks n = true) (hg : taskGroup tasks n = s.currentGroup) :
    SchedInv tasks (markStarted s n) := by
  have hns := h.ready_not_started n hr
  unfold markStarted
  constructor
  · intro m hm
    exact h.ready_task m ((mapHas_delete _ _ _).mp hm).2
  · intro m hm
    have hm' := (mapHas_delete _ _ _).mp hm
    cases hc : mapHas (mapSet s.startedTasks n ()) m
    · rfl
    · rcases (mapHas_set _ _ _ _).mp hc with e | e
      · exact absurd e hm'.1
      · rw [h.ready_not_started m hm'.2] at e
        exact Bool.noConfusion e
  · intro m hm
    rcases (mapHas_set _ _ _ _).mp hm with e | e
    · rw [← e]; exact h.ready_task n hr
    · exact h.started_task m e
  · intro m hm
    rcases (mapHas_set _ _ _ _).mp hm with e | e
    · rw [← e]; exact hg
    · exact h.started_group m e
  · dsimp only
    rw [mapLen_set_new _ _ _ hns, h.started_count]
    push_cast
    ring
  · intro g
    dsimp only
    rw [mapGet_set]
    by_cases e : s.currentGroup = g
    · subst e
      rw [if_pos rfl, h.ready_count, keysCount_delete _ _ n hr]
      simp [hg]
    · have : ¬ taskGroup tasks n = g := by rw [hg]; exact e
      rw [if_neg e, h.ready_count, keysCount_delete _ _ n hr]
      simp [this]
  · intro m hm dep hdep hd
    exact h.ready_deps m ((mapHas_delete _ _ _).mp hm).2 dep hdep hd

/-! ### The steps of the goroutine, case by case -/

/-- The variables after the readiness scan and the group selection. -/
def prepare (tasks : TaskSet) (s : Sched) (o : Oracle) : Sched :=
  selectGroup (scanReady tasks o.scanPrio s) o.groupPrio1 o.groupPrio2

/-- The steps that `step` can take, one constructor per case of the source. -/
inductive Step (tasks : TaskSet) : Config → Config → List Event → Prop where
  | drainPeek (s : Sched) (v : String) (hp : s.peeked = some v) :
      Step tasks ⟨.drain, s⟩ (afterReceive { s with peeked := none } v) []
  | drainRecv (s : Sched) (v : String) :
      Step tasks ⟨.drain, s⟩ (afterReceive s v) [.done v]
  | drainClosed (s : Sched) :
      Step tasks ⟨.drain, s⟩ ⟨.exited, s⟩ [.doneClosed, .startClosed]
  | drainDefault (s : Sched) (hp : s.peeked = none) :
      Step tasks ⟨.drain, s⟩ ⟨.body, s⟩ []
  | bodyRecv (s : Sched) (o : Oracle) (v : String)
      (h : pickNext tasks (prepare tasks s o) o.readyPrio ≠ "" ∨
        mapLen (prepare tasks s o).startedTasks > 0) :
      Step tasks ⟨.body, s⟩ (stash (prepare tasks s o) v) [.done v]
  | bodyClosed (s : Sched) (o : Oracle)
      (h : pickNext tasks (prepare tasks s o) o.readyPrio ≠ "" ∨
        mapLen (prepare tasks s o).startedTasks > 0) :
      Step tasks ⟨.body, s⟩ ⟨.exited, prepare tasks s o⟩ [.doneClosed, .startClosed]
  | bodySend (s : Sched) (o : Oracle)
      (h : pickNext tasks (prepare tasks s o) o.readyPrio ≠ "") :
      Step tasks ⟨.body, s⟩
        ⟨.drain, markStarted (prepare tasks s o) (pickNext tasks (prepare tasks s o) o.readyPrio)⟩
        [.start (pickNext tasks (prepare tasks s o) o.readyPrio)]
  | bodyExit (s : Sched) (o : Oracle)
      (h1 : pickNext tasks (prepare tasks s o) o.readyPrio = "")
      (h2 : mapLen (prepare tasks s o).startedTasks = 0) :
      Step tasks ⟨.body, s⟩ ⟨.exited, prepare tasks s o⟩ [.startClosed]

theorem step_sound {tasks : TaskSet} {c c' : Config} {o : Oracle} {ev : List Event}
    (h : step tasks c o = some (c', ev)) : Step tasks c c' ev := by
  obtain ⟨loc, s⟩ := c
  cases loc with
  | drain =>
    simp only [step, drainSelect] at h
    cases hc : o.choice with
    | peek =>
      rw [hc] at h
      dsimp only at h
      cases hp : s.peeked with
      | none => rw [hp] at h; exact Option.noConfusion h
      | some v =>
        rw [hp] at h
        simp only [Option.some.injEq, Prod.mk.injEq] at h
        obtain ⟨rfl, rfl⟩ := h
        exact Step.drainPeek s v hp
    | recv v =>
      rw [hc] at h
      simp only [Option.some.injEq, Prod.mk.injEq] at h
      obtain ⟨rfl, rfl⟩ := h
      exact Step.drainRecv s v
    | closed =>
      rw [hc] at h
      simp only [Option.some.injEq, Prod.mk.injEq] at h
      obtain ⟨rfl, rfl⟩ := h
      exact Step.drainClosed s
    | dflt =>
      rw [hc] at h
      dsimp only at h
      cases hp : s.peeked with
      | none =>
        rw [hp] at h
        simp only [Option.isSome_none, Bool.false_eq_true, if_false, Option.some.injEq,
          Prod.mk.injEq] at h
        obtain ⟨rfl, rfl⟩ := h
        exact Step.drainDefault s hp
      | some v =>
        rw [hp] at h
        simp at h
    | send =>
      rw [hc] at h
      exact Option.noConfusion h
  | body =>
    simp only [step, loopBody] at h
    change (if pickNext tasks (prepare tasks s o) o.readyPrio ≠ "" then _ else _) = _ at h
    by_cases hn : pickNext tasks (prepare tasks s o) o.readyPrio ≠ ""
    · rw [if_pos hn] at h
      cases hc : o.choice with
      | peek => rw [hc] at h; exact Option.noConfusion h
      | dflt => rw [hc] at h; exact Option.noConfusion h
      | recv v =>
        rw [hc] at h
        simp only [Option.some.injEq, Prod.mk.injEq] at h
        obtain ⟨rfl, rfl⟩ := h
        exact Step.bodyRecv s o v (Or.inl hn)
      | closed =>
        rw [hc] at h
        simp only [Option.some.injEq, Prod.mk.injEq] at h
        obtain ⟨rfl, rfl⟩ := h
        exact Step.bodyClosed s o (Or.inl hn)
      | send =>
        rw [hc] at h
        simp only [Option.some.injEq, Prod.mk.injEq] at h
        obtain ⟨rfl, rfl⟩ := h
        exact Step.bodySend s o hn
    · rw [if_neg hn] at h
      have hn' : pickNext tasks (prepare tasks s o) o.readyPrio = "" := not_not.mp hn
      by_cases hl : mapLen (prepare tasks s o).startedTasks > 0
      · change (if mapLen (prepare tasks s o).startedTasks > 0 then _ else _) = _ at h
        rw [if_pos hl] at h
        cases hc : o.choice with
        | peek => rw [hc] at h; exact Option.noConfusion h
        | dflt => rw [hc] at h; exact Option.noConfusion h
        | send => rw [hc] at h; exact Option.noConfusion h
        | recv v =>
          rw [hc] at h
          simp only [Option.some.injEq, Prod.mk.injEq] at h
          obtain ⟨rfl, rfl⟩ := h
          exact Step.bodyRecv s o v (Or.inr hl)
        | closed =>
          rw [hc] at h
          simp only [Option.some.injEq, Prod.mk.injEq] at h
          obtain ⟨rfl, rfl⟩ := h
          exact Step.bodyClosed s o (Or.inr hl)
      · change (if mapLen (prepare tasks s o).startedTasks > 0 then _ else _) = _ at h
        rw [if_neg hl] at h
        simp only [Option.some.injEq, Prod.mk.injEq] at h
        obtain ⟨rfl, rfl⟩ := h
        exact Step.bodyExit s o hn' (Nat.eq_zero_of_not_pos hl)
  | exited => exact Option.noConfusion h
  | stuck => exact Option.noConfusion h

/-- The configurations the goroutine reaches, with the events so far. -/
inductive Reaches (tasks : TaskSet) : Config → List Event → Prop where
  | init : Reaches tasks Config.init []
  | next {c c' : Config} {tr ev : List Event} :
      Reaches tasks c tr → Step tasks c c' ev → Reaches tasks c' (tr ++ ev)

theorem reaches_runFrom {tasks : TaskSet} (os : List Oracle) :
    ∀ {c c' : Config} {tr tr' : List Event}, Reaches tasks c tr →
      runFrom tasks c os = some (c', tr') → Reaches tasks c' (tr ++ tr') := by
  induction os with
  | nil =>
    intro c c' tr tr' hr h
    simp only [runFrom, Option.some.injEq, Prod.mk.injEq] at h
    obtain ⟨rfl, rfl⟩ := h
    simpa using hr
  | cons o rest ih =>
    intro c c' tr tr' hr h
    simp only [runFrom] at h
    cases hs : step tasks c o with
    | none => rw [hs] at h; exact Option.noConfusion h
    | some r =>
      obtain ⟨c1, ev⟩ := r
      rw [hs] at h
      dsimp only at h
      cases hrest : runFrom tasks c1 rest with
      | none => rw [hrest] at h; exact Option.noConfusion h
      | some r2 =>
        obtain ⟨c2, tr2⟩ := r2
        rw [hrest] at h
        simp only [Option.some.injEq, Prod.mk.injEq] at h
        obtain ⟨rfl, rfl⟩ := h
        have := ih (Reaches.next hr (step_sound hs)) hrest
        simpa [List.append_assoc] using this

theorem reaches_of_start {tasks : TaskSet} {os : List Oracle} {c : Config} {tr : List Event}
    (h : Start tasks os = some (c, tr)) : Reaches tasks c tr := by
  have := reaches_runFrom os Reaches.init h
  simpa using this

theorem prepare_inv {tasks : TaskSet} {s : Sched} (o : Oracle) (h : SchedInv tasks s) :
    SchedInv tasks (prepare tasks s o) :=
  selectGroup_inv _ _ (scanReady_inv _ h)

theorem afterReceive_inv {tasks : TaskSet} {s : Sched} (v : String) (h : SchedInv tasks s) :
    SchedInv tasks (afterReceive s v).sched := by
  unfold afterReceive
  split
  · exact h
  · exact markCompleted_inv v h

theorem stash_inv {tasks : TaskSet} {s : Sched} (v : String) (h : SchedInv tasks s) :
    SchedInv tasks (stash s v).sched := by
  unfold stash
  split
  · exact ⟨h.ready_task, h.ready_not_started, h.started_task, h.started_group, h.started_count,
      h.ready_count, h.ready_deps⟩
  · exact h

theorem step_inv {tasks : TaskSet} {c c' : Config} {ev : List Event}
    (hs : Step tasks c c' ev) (h : SchedInv tasks c.sched) : SchedInv tasks c'.sched := by
  cases hs with
  | drainPeek s v hp =>
    apply afterReceive_inv
    exact ⟨h.ready_task, h.ready_not_started, h.started_task, h.started_group, h.started_count,
      h.ready_count, h.ready_deps⟩
  | drainRecv s v => exact afterReceive_inv v h
  | drainClosed s => exact h
  | drainDefault s hp => exact h
  | bodyRecv s o v hc => exact stash_inv v (prepare_inv o h)
  | bodyClosed s o hc => exact prepare_inv o h
  | bodySend s o hn =>
    have := pickNext_ne_empty hn
    exact markStarted_inv (prepare_inv o h) this.1 this.2
  | bodyExit s o h1 h2 => exact prepare_inv o h

theorem reaches_inv {tasks : TaskSet} {c : Config} {tr : List Event}
    (h : Reaches tasks c tr) : SchedInv tasks c.sched := by
  induction h with
  | init => exact schedInv_init tasks
  | next _ hs ih => exact step_inv hs ih

end Taskqueue

namespace Taskqueue

/-! ## Events and the variables -/

theorem starts_append (a b : List Event) : starts (a ++ b) = starts a ++ starts b := by
  induction a with
  | nil => rfl
  | cons e rest ih => cases e <;> simp [starts, ih]

theorem dones_append (a b : List Event) : dones (a ++ b) = dones a ++ dones b := by
  induction a with
  | nil => rfl
  | cons e rest ih => cases e <;> simp [dones, ih]

theorem mem_starts (n : String) (tr : List Event) : n ∈ starts tr ↔ Event.start n ∈ tr := by
  induction tr with
  | nil => simp [starts]
  | cons e rest ih => cases e <;> simp [starts, ih]

theorem mem_dones (n : String) (tr : List Event) : n ∈ dones tr ↔ Event.done n ∈ tr := by
  induction tr with
  | nil => simp [dones]
  | cons e rest ih => cases e <;> simp [dones, ih]

/-- How the variables relate to the names sent (`st`) and received (`dn`) so far. -/
structure HistInv (tasks : TaskSet) (s : Sched) (st dn : List String) : Prop where
  completed_done : ∀ n, mapHas s.completedTasks n = true → n ∈ dn
  peeked_done : ∀ v, s.peeked = some v → v ∈ dn
  start_cases : ∀ n ∈ st, mapHas s.startedTasks n = true ∨ mapHas s.completedTasks n = true
  starts_nodup : st.Nodup
  start_task : ∀ n ∈ st, mapHas tasks.tasks n = true ∧ n ≠ ""
  ready_fresh : ∀ n, mapHas s.readyTasks n = true → n ∉ st
  started_start : ∀ n, mapHas s.startedTasks n = true → n ∈ st

theorem histInv_init (tasks : TaskSet) : HistInv tasks Sched.init [] [] := by
  constructor <;> intros <;> simp_all [Sched.init, mapHas, mapLookup]

theorem HistInv.mono {tasks : TaskSet} {s : Sched} {st dn dn' : List String}
    (h : HistInv tasks s st dn) (hsub : ∀ x ∈ dn, x ∈ dn') : HistInv tasks s st dn' :=
  ⟨fun n hn => hsub n (h.completed_done n hn), fun v hv => hsub v (h.peeked_done v hv),
    h.start_cases, h.starts_nodup, h.start_task, h.ready_fresh, h.started_start⟩

theorem HistInv.clearPeeked {tasks : TaskSet} {s : Sched} {st dn : List String}
    (h : HistInv tasks s st dn) : HistInv tasks { s with peeked := none } st dn :=
  ⟨h.completed_done, fun _ hv => Option.noConfusion hv, h.start_cases, h.starts_nodup,
    h.start_task, h.ready_fresh, h.started_start⟩

theorem HistInv.setPeeked {tasks : TaskSet} {s : Sched} {st dn : List String}
    (h : HistInv tasks s st dn) {v : String} (hv : v ∈ dn) :
    HistInv tasks { s with peeked := some v } st dn :=
  ⟨h.completed_done, fun w hw => by
      have : v = w := Option.some.inj hw
      rw [← this]; exact hv,
    h.start_cases, h.starts_nodup, h.start_task, h.ready_fresh, h.started_start⟩

theorem HistInv.markCompleted {tasks : TaskSet} {s : Sched} {st dn : List String}
    (h : HistInv tasks s st dn) {v : String} (hv : v ∈ dn) :
    HistInv tasks (markCompleted s v) st dn := by
  constructor
  · intro n hn
    rcases (markCompleted_completed s v n).mp hn with e | e
    · rw [← e]; exact hv
    · exact h.completed_done n e
  · intro w hw
    rw [markCompleted_peeked] at hw
    exact h.peeked_done w hw
  · intro n hn
    by_cases e : v = n
    · exact Or.inr ((markCompleted_completed s v n).mpr (Or.inl e))
    · rcases h.start_cases n hn with h1 | h1
      · exact Or.inl ((markCompleted_started s v n).mpr ⟨e, h1⟩)
      · exact Or.inr ((markCompleted_completed s v n).mpr (Or.inr h1))
  · exact h.starts_nodup
  · exact h.start_task
  · intro n hn
    rw [markCompleted_ready] at hn
    exact h.ready_fresh n hn
  · intro n hn
    exact h.started_start n ((markCompleted_started s v n).mp hn).2

/-- A task that the scan makes ready was neither completed nor started. -/
theorem scanReady_new (tasks : TaskSet) (prio : String → Nat) (s : Sched) (n : String)
    (hn : mapHas (scanReady tasks prio s).readyTasks n = true) :
    mapHas s.readyTasks n = true ∨
      (mapHas s.completedTasks n = false ∧ mapHas s.startedTasks n = false) := by
  revert hn
  unfold scanReady
  apply foldl_preserves (scanTask tasks)
    (fun x => (x.completedTasks = s.completedTasks ∧ x.startedTasks = s.startedTasks) ∧
      (mapHas x.readyTasks n = true → mapHas s.readyTasks n = true ∨
        (mapHas s.completedTasks n = false ∧ mapHas s.startedTasks n = false)))
    ?_ _ s ⟨⟨rfl, rfl⟩, Or.inl⟩ |>.2
  intro a b ⟨⟨hc, hs⟩, ha⟩
  have fr := scanTask_frame tasks a b
  refine ⟨⟨fr.completedTasks.trans hc, fr.startedTasks.trans hs⟩, ?_⟩
  unfold scanTask
  dsimp only
  split
  · exact ha
  · rename_i hnot
    simp only [Bool.or_eq_true, not_or, Bool.not_eq_true] at hnot
    split
    · exact ha
    · intro hn
      rcases (mapHas_set _ _ _ _).mp hn with e | e
      · subst e
        rw [← hc, ← hs]
        exact Or.inr ⟨hnot.1.1, hnot.2⟩
      · exact ha e

theorem prepare_started (tasks : TaskSet) (s : Sched) (o : Oracle) :
    (prepare tasks s o).startedTasks = s.startedTasks :=
  (selectGroup_frame _ _ _).2.2.2.1.trans (scanReady_frame tasks _ s).startedTasks

theorem prepare_completed (tasks : TaskSet) (s : Sched) (o : Oracle) :
    (prepare tasks s o).completedTasks = s.completedTasks :=
  (selectGroup_frame _ _ _).2.2.2.2.1.trans (scanReady_frame tasks _ s).completedTasks

theorem prepare_peeked (tasks : TaskSet) (s : Sched) (o : Oracle) :
    (prepare tasks s o).peeked = s.peeked :=
  (selectGroup_frame _ _ _).2.2.2.2.2.trans (scanReady_frame tasks _ s).peeked

theorem prepare_groupTasksStarted (tasks : TaskSet) (s : Sched) (o : Oracle) :
    (prepare tasks s o).groupTasksStarted = s.groupTasksStarted :=
  (selectGroup_frame _ _ _).1.trans (scanReady_frame tasks _ s).groupTasksStarted

theorem prepare_ready (tasks : TaskSet) (s : Sched) (o : Oracle) :
    (prepare tasks s o).readyTasks = (scanReady tasks o.scanPrio s).readyTasks :=
  (selectGroup_frame _ _ _).2.1

theorem HistInv.prepare {tasks : TaskSet} {s : Sched} {st dn : List String}
    (h : HistInv tasks s st dn) (o : Oracle) : HistInv tasks (prepare tasks s o) st dn := by
  constructor
  · intro n hn
    rw [prepare_completed] at hn
    exact h.completed_done n hn
  · intro v hv
    rw [prepare_peeked] at hv
    exact h.peeked_done v hv
  · intro n hn
    rw [prepare_started, prepare_completed]
    exact h.start_cases n hn
  · exact h.starts_nodup
  · exact h.start_task
  · intro n hn hst
    rw [prepare_ready] at hn
    rcases scanReady_new tasks _ s n hn with h1 | ⟨h1, h2⟩
    · exact h.ready_fresh n h1 hst
    · rcases h.start_cases n hst with h3 | h3
      · rw [h2] at h3; exact Bool.noConfusion h3
      · rw [h1] at h3; exact Bool.noConfusion h3
  · intro n hn
    rw [prepare_started] at hn
    exact h.started_start n hn

theorem HistInv.markStarted {tasks : TaskSet} {s : Sched} {st dn : List String}
    (h : HistInv tasks s st dn) {n : String} (hr : mapHas s.readyTasks n = true)
    (ht : mapHas tasks.tasks n = true) (hne : n ≠ "") :
    HistInv tasks (markStarted s n) (st ++ [n]) dn := by
  unfold Taskqueue.markStarted
  constructor
  · exact h.completed_done
  · exact h.peeked_done
  · intro m hm
    rcases List.mem_append.mp hm with e | e
    · rcases h.start_cases m e with h1 | h1
      · exact Or.inl ((mapHas_set _ _ _ _).mpr (Or.inr h1))
      · exact Or.inr h1
    · have : m = n := by simpa using e
      exact Or.inl ((mapHas_set _ _ _ _).mpr (Or.inl this.symm))
  · rw [List.nodup_append]
    refine ⟨h.starts_nodup, List.nodup_singleton n, ?_⟩
    intro a ha hb
    have : a = n := by simpa using hb
    rw [this] at ha
    exact h.ready_fresh n hr ha
  · intro m hm
    rcases List.mem_append.mp hm with e | e
    · exact h.start_task m e
    · have : m = n := by simpa using e
      rw [this]; exact ⟨ht, hne⟩
  · intro m hm hst
    have hm' := (mapHas_delete _ _ _).mp hm
    rcases List.mem_append.mp hst with e | e
    · exact h.ready_fresh m hm'.2 e
    · have : m = n := by simpa using e
      exact hm'.1 this.symm
  · intro m hm
    rcases (mapHas_set _ _ _ _).mp hm with e | e
    · rw [← e]; simp
    · exact List.mem_append_left _ (h.started_start m e)

theorem afterReceive_hist {tasks : TaskSet} {s : Sched} {st dn : List String}
    (h : HistInv tasks s st dn) {v : String} (hv : v ∈ dn) :
    HistInv tasks (afterReceive s v).sched st dn := by
  unfold afterReceive
  split
  · exact h
  · exact h.markCompleted hv

theorem stash_hist {tasks : TaskSet} {s : Sched} {st dn : List String}
    (h : HistInv tasks s st dn) {v : String} (hv : v ∈ dn) :
    HistInv tasks (stash s v).sched st dn := by
  unfold stash
  split
  · exact h.setPeeked hv
  · exact h

theorem step_hist {tasks : TaskSet} {c c' : Config} {tr ev : List Event}
    (hs : Step tasks c c' ev) (hi : SchedInv tasks c.sched)
    (h : HistInv tasks c.sched (starts tr) (dones tr)) :
    HistInv tasks c'.sched (starts (tr ++ ev)) (dones (tr ++ ev)) := by
  rw [starts_append, dones_append]
  cases hs with
  | drainPeek s v hp =>
    simp only [starts, dones, List.append_nil]
    exact afterReceive_hist h.clearPeeked (h.peeked_done v hp)
  | drainRecv s v =>
    simp only [starts, dones, List.append_nil]
    exact afterReceive_hist (h.mono (fun x hx => List.mem_append_left _ hx)) (by simp)
  | drainClosed s =>
    simp only [starts, dones, List.append_nil]
    exact h
  | drainDefault s hp =>
    simp only [starts, dones, List.append_nil]
    exact h
  | bodyRecv s o v hc =>
    simp only [starts, dones, List.append_nil]
    exact stash_hist ((h.prepare o).mono (fun x hx => List.mem_append_left _ hx)) (by simp)
  | bodyClosed s o hc =>
    simp only [starts, dones, List.append_nil]
    exact h.prepare o
  | bodySend s o hn =>
    simp only [starts, dones, List.append_nil]
    have hp := pickNext_ne_empty hn
    exact (h.prepare o).markStarted hp.1 ((prepare_inv o hi).ready_task _ hp.1) hn
  | bodyExit s o h1 h2 =>
    simp only [starts, dones, List.append_nil]
    exact h.prepare o

theorem reaches_hist {tasks : TaskSet} {c : Config} {tr : List Event}
    (h : Reaches tasks c tr) : HistInv tasks c.sched (starts tr) (dones tr) := by
  induction h with
  | init => exact histInv_init tasks
  | next hr hs ih => exact step_hist hs (reaches_inv hr) ih

end Taskqueue

namespace Taskqueue

/-! ## The exit of the loop -/

/-- The loop variables when the loop leaves through its last `return`: nothing
ready, nothing started, every task not completed is blocked. -/
structure Terminal (tasks : TaskSet) (s : Sched) : Prop where
  ready_empty : ∀ n, mapHas s.readyTasks n = false
  started_empty : ∀ n, mapHas s.startedTasks n = false
  rest_blocked : ∀ n, mapHas tasks.tasks n = true → mapHas s.completedTasks n = false →
    ∃ dep ∈ taskDeps tasks n, mapHas tasks.tasks dep = true ∧
      mapHas s.completedTasks dep = false

theorem int_default_zero : (default : Int) = 0 := rfl

/-- With nothing started, a ready task makes the group selection pick a group
that has a ready task, so `pickNext` finds one. -/
theorem ready_empty_of_exit {tasks : TaskSet} {s : Sched} {o : Oracle}
    (hi : SchedInv tasks s) (hne : mapHas tasks.tasks "" = false)
    (h1 : pickNext tasks (prepare tasks s o) o.readyPrio = "")
    (h2 : mapLen (prepare tasks s o).startedTasks = 0) (n : String) :
    mapHas (prepare tasks s o).readyTasks n = false := by
  cases hn : mapHas (prepare tasks s o).readyTasks n with
  | false => rfl
  | true =>
    exfalso
    have hi1 : SchedInv tasks (scanReady tasks o.scanPrio s) := scanReady_inv _ hi
    have hi2 : SchedInv tasks (prepare tasks s o) := prepare_inv o hi
    have hno : ∀ m, mapHas (prepare tasks s o).readyTasks m = true →
        taskGroup tasks m ≠ (prepare tasks s o).currentGroup := by
      rcases pickNext_cases tasks (prepare tasks s o) o.readyPrio with hc | hc
      · rw [h1] at hc
        have := hi2.ready_task _ hc.1
        rw [hne] at this
        exact Bool.noConfusion this
      · exact hc.2
    have hst : (prepare tasks s o).startedTasks = (scanReady tasks o.scanPrio s).startedTasks :=
      (selectGroup_frame _ _ _).2.2.2.1
    have h0 : (scanReady tasks o.scanPrio s).groupTasksStarted = 0 := by
      rw [hi1.started_count, ← hst, h2]
      rfl
    have hcur : (prepare tasks s o).currentGroup =
        (maxByValue (scanReady tasks o.scanPrio s).groupReadyCount o.groupPrio1 o.groupPrio2).1 := by
      unfold prepare
      rw [selectGroup_currentGroup, if_pos h0]
    rw [prepare_ready] at hn
    have hpos : 0 < keysCount (fun m => decide (taskGroup tasks m = taskGroup tasks n))
        (scanReady tasks o.scanPrio s).readyTasks :=
      (keysCount_pos_iff _ _).mpr ⟨n, hn, by simp⟩
    have hcnt := hi1.ready_count (taskGroup tasks n)
    have hge1 : (1 : Int) ≤ mapGet (scanReady tasks o.scanPrio s).groupReadyCount
        (taskGroup tasks n) := by
      rw [hcnt]
      exact_mod_cast hpos
    have hhas : mapHas (scanReady tasks o.scanPrio s).groupReadyCount (taskGroup tasks n)
        = true := by
      cases hh : mapHas (scanReady tasks o.scanPrio s).groupReadyCount (taskGroup tasks n) with
      | true => rfl
      | false =>
        rw [mapGet_of_not_has _ _ hh, int_default_zero] at hge1
        exact absurd hge1 (by decide)
    have hmax := maxByValue_ge (scanReady tasks o.scanPrio s).groupReadyCount o.groupPrio1
      o.groupPrio2 _ hhas
    rw [maxByValue_snd, ← hcur] at hmax
    rw [hi1.ready_count (prepare tasks s o).currentGroup] at hmax
    have hpos2 : 0 < keysCount
        (fun m => decide (taskGroup tasks m = (prepare tasks s o).currentGroup))
        (scanReady tasks o.scanPrio s).readyTasks := by
      have : (1 : Int) ≤ (keysCount
          (fun m => decide (taskGroup tasks m = (prepare tasks s o).currentGroup))
          (scanReady tasks o.scanPrio s).readyTasks : Int) := le_trans hge1 hmax
      exact_mod_cast this
    obtain ⟨m, hm, hg⟩ := (keysCount_pos_iff _ _).mp hpos2
    rw [← prepare_ready] at hm
    exact hno m hm (by simpa using hg)

theorem terminal_of_exit {tasks : TaskSet} {s : Sched} {o : Oracle}
    (hi : SchedInv tasks s) (hne : mapHas tasks.tasks "" = false)
    (h1 : pickNext tasks (prepare tasks s o) o.readyPrio = "")
    (h2 : mapLen (prepare tasks s o).startedTasks = 0) : Terminal tasks (prepare tasks s o) := by
  have hr := ready_empty_of_exit hi hne h1 h2
  have hs := (mapLen_eq_zero_iff _).mp h2
  refine ⟨hr, hs, ?_⟩
  intro n hn hc
  have hsc := scanReady_scanned tasks o.scanPrio s n hn
  unfold Scanned at hsc
  rw [← prepare_ready, (scanReady_frame tasks o.scanPrio s).startedTasks, ← prepare_started tasks s o,
    (scanReady_frame tasks o.scanPrio s).completedTasks, ← prepare_completed tasks s o] at hsc
  rcases hsc with h | h | h | h
  · rw [hc] at h; exact Bool.noConfusion h
  · rw [hr n] at h; exact Bool.noConfusion h
  · rw [hs n] at h; exact Bool.noConfusion h
  · exact (isBlocked_eq_true_iff _ _ _).mp h

/-- How the control point relates to the events so far. -/
structure ExitInv (tasks : TaskSet) (c : Config) (tr : List Event) : Prop where
  running : c.loc ≠ .exited → Event.startClosed ∉ tr ∧ Event.doneClosed ∉ tr
  exited : c.loc = .exited → ∃ tr0, tr = tr0 ++ [Event.startClosed] ∧ Event.startClosed ∉ tr0
  terminal : c.loc = .exited → Event.doneClosed ∉ tr → mapHas tasks.tasks "" = false →
    Terminal tasks c.sched
  body_peeked : c.loc = .body → c.sched.peeked.isSome = true → "" ∈ dones tr
  stuck_done : c.loc = .stuck → "" ∈ dones tr

theorem exitInv_init (tasks : TaskSet) : ExitInv tasks Config.init [] := by
  constructor <;> simp [Config.init]

theorem afterReceive_loc (s : Sched) (v : String) :
    ((afterReceive s v).loc = .body ∧ v = "" ∧ (afterReceive s v).sched = s) ∨
      ((afterReceive s v).loc = .drain ∧ v ≠ "") := by
  unfold afterReceive
  split
  · rename_i h
    exact Or.inl ⟨rfl, h, rfl⟩
  · rename_i h
    exact Or.inr ⟨rfl, h⟩

theorem stash_loc (s : Sched) (v : String) :
    ((stash s v).loc = .drain ∧ s.peeked = none) ∨
      ((stash s v).loc = .stuck ∧ s.peeked.isSome = true) := by
  unfold stash
  split
  · rename_i h
    exact Or.inl ⟨rfl, h⟩
  · rename_i h
    exact Or.inr ⟨rfl, by rw [h]; rfl⟩

theorem step_exitInv {tasks : TaskSet} {c c' : Config} {tr ev : List Event}
    (hs : Step tasks c c' ev) (hi : SchedInv tasks c.sched) (h : ExitInv tasks c tr) :
    ExitInv tasks c' (tr ++ ev) := by
  cases hs with
  | drainPeek s v hp =>
    have hrun := h.running (by simp)
    rcases afterReceive_loc { s with peeked := none } v with ⟨h1, _, h3⟩ | ⟨h1, _⟩
    · constructor <;> simp_all
    · constructor <;> simp_all
  | drainRecv s v =>
    have hrun := h.running (by simp)
    rcases afterReceive_loc s v with ⟨h1, h2, h3⟩ | ⟨h1, _⟩
    · constructor <;> simp_all [dones_append, dones]
    · constructor <;> simp_all
  | drainClosed s =>
    have hrun := h.running (by simp)
    constructor
    · simp
    · intro _
      exact ⟨tr ++ [Event.doneClosed], by simp, by simp [hrun.1]⟩
    · intro _ hd
      simp at hd
    · simp
    · simp
  | drainDefault s hp =>
    have hrun := h.running (by simp)
    constructor <;> simp_all
  | bodyRecv s o v hc =>
    have hrun := h.running (by simp)
    have hb := h.body_peeked rfl
    rcases stash_loc (prepare tasks s o) v with ⟨h1, _⟩ | ⟨h1, h2⟩
    · constructor <;> simp_all
    · rw [prepare_peeked] at h2
      have := hb h2
      constructor <;> simp_all [dones_append]
  | bodyClosed s o hc =>
    have hrun := h.running (by simp)
    constructor
    · simp
    · intro _
      exact ⟨tr ++ [Event.doneClosed], by simp, by simp [hrun.1]⟩
    · intro _ hd
      simp at hd
    · simp
    · simp
  | bodySend s o hn =>
    have hrun := h.running (by simp)
    constructor <;> simp_all
  | bodyExit s o h1 h2 =>
    have hrun := h.running (by simp)
    constructor
    · simp
    · intro _
      exact ⟨tr, rfl, hrun.1⟩
    · intro _ _ hne
      exact terminal_of_exit hi hne h1 h2
    · simp
    · simp

theorem reaches_exitInv {tasks : TaskSet} {c : Config} {tr : List Event}
    (h : Reaches tasks c tr) : ExitInv tasks c tr := by
  induction h with
  | init => exact exitInv_init tasks
  | next hr hs ih => exact step_exitInv hs (reaches_inv hr) ih

/-! ## Start events and dependencies -/

/-- A step that sends a start event sends the picked task alone, and the
dependencies of that task which are tasks of the set are completed. -/
theorem step_start {tasks : TaskSet} {c c' : Config} {ev : List Event} {n : String}
    (hs : Step tasks c c' ev) (hi : SchedInv tasks c.sched) (hn : Event.start n ∈ ev) :
    ev = [Event.start n] ∧ ∀ dep ∈ taskDeps tasks n, mapHas tasks.tasks dep = true →
      mapHas c.sched.completedTasks dep = true := by
  cases hs with
  | drainPeek s v hp => simp at hn
  | drainRecv s v => simp at hn
  | drainClosed s => simp at hn
  | drainDefault s hp => simp at hn
  | bodyRecv s o v hc => simp at hn
  | bodyClosed s o hc => simp at hn
  | bodyExit s o h1 h2 => simp at hn
  | bodySend s o hne =>
    have e : n = pickNext tasks (prepare tasks s o) o.readyPrio := by simpa using hn
    rw [← e]
    refine ⟨rfl, ?_⟩
    intro dep hdep hd
    have hp := pickNext_ne_empty hne
    rw [← e] at hp
    have := (prepare_inv o hi).ready_deps n hp.1 dep hdep hd
    rw [prepare_completed] at this
    exact this

theorem split_append_cons {α : Type} {tr ev pre post : List α} {e : α}
    (h : tr ++ ev = pre ++ e :: post) :
    (∃ post', tr = pre ++ e :: post') ∨ (∃ a, pre = tr ++ a ∧ ev = a ++ e :: post) := by
  rcases List.append_eq_append_iff.mp h with ⟨a, h1, h2⟩ | ⟨b, h1, h2⟩
  · exact Or.inr ⟨a, h1, h2⟩
  · cases b with
    | nil =>
      refine Or.inr ⟨[], ?_, ?_⟩
      · simpa using h1.symm
      · simpa using h2.symm
    | cons x rest =>
      simp only [List.cons_append, List.cons.injEq] at h2
      exact Or.inl ⟨rest, by rw [h1, h2.1]⟩

/-- Every start event in the trace comes after the done events of the
dependencies of its task that are tasks of the set. -/
def DepsBeforeStart (tasks : TaskSet) (tr : List Event) : Prop :=
  ∀ pre n post, tr = pre ++ Event.start n :: post →
    ∀ dep ∈ taskDeps tasks n, mapHas tasks.tasks dep = true → dep ∈ dones pre

theorem reaches_depsBeforeStart {tasks : TaskSet} {c : Config} {tr : List Event}
    (h : Reaches tasks c tr) : DepsBeforeStart tasks tr := by
  induction h with
  | init =>
    intro pre n post hsplit
    simp at hsplit
  | @next c c' tr ev hr hs ih =>
    intro pre n post hsplit dep hdep hd
    rcases split_append_cons hsplit with ⟨post', h1⟩ | ⟨a, h1, h2⟩
    · exact ih pre n post' h1 dep hdep hd
    · have hmem : Event.start n ∈ ev := by rw [h2]; simp
      obtain ⟨hev, hdeps⟩ := step_start hs (reaches_inv hr) hmem
      rw [hev] at h2
      have ha : a = [] := by
        cases a with
        | nil => rfl
        | cons x rest =>
          have := congrArg List.length h2
          simp at this
      rw [ha, List.append_nil] at h1
      rw [h1]
      exact (reaches_hist hr).completed_done dep (hdeps dep hdep hd)

/-! ## The claims about the running loop -/

/-- The run of the two-task set of `TestStartsTaskInOrder` to completion. -/
def demoRun : List Oracle :=
  [.plain .dflt, .plain .send, .plain (.recv "task1"), .plain .dflt,
   .plain .send, .plain (.recv "task2"), .plain .dflt, .plain .dflt]

/-- The variables at the end of `demoRun`. -/
def demoEnd : Config :=
  { loc := .exited,
    sched := { currentGroup := "", groupTasksStarted := 0, readyTasks := [],
               groupReadyCount := [("", 0)], startedTasks := [],
               completedTasks := [("task2", ()), ("task1", ())], peeked := none } }

/-- The events of `demoRun`. -/
def demoTrace : List Event :=
  [.start "task1", .done "task1", .start "task2", .done "task2", .startClosed]

/-- The variables after the first five steps of `demoRun`: `task2` is started. -/
def demoMid : Config :=
  { loc := .drain,
    sched := { currentGroup := "", groupTasksStarted := 1, readyTasks := [],
               groupReadyCount := [("", 0)], startedTasks := [("task2", ())],
               completedTasks := [("task1", ())], peeked := none } }

/-- The events of the first five steps of `demoRun`. -/
def demoMidTrace : List Event :=
  [.start "task1", .done "task1", .start "task2"]

/-- Claim C1: whenever the scheduler emits a task name on the start feed, every
dependency of that task that is itself a task of the graph has already been
received on the completion sink, and is in the completed set at the moment of
the send; this holds for every task graph and every sequence of completion
reports. -/
theorem start_after_dependencies (tasks : TaskSet) (os : List Oracle) (c : Config)
    (tr : List Event) (h : Start tasks os = some (c, tr)) :
    (∀ pre n post, tr = pre ++ Event.start n :: post →
      ∀ dep ∈ taskDeps tasks n, mapHas tasks.tasks dep = true → dep ∈ dones pre) ∧
    (∀ o c' ev n, step tasks c o = some (c', ev) → Event.start n ∈ ev →
      ∀ dep ∈ taskDeps tasks n, mapHas tasks.tasks dep = true →
        mapHas c.sched.completedTasks dep = true ∧ dep ∈ dones tr) := by
  have hr := reaches_of_start h
  refine ⟨reaches_depsBeforeStart hr, ?_⟩
  intro o c' ev n hstep hn dep hdep hd
  have := (step_start (step_sound hstep) (reaches_inv hr) hn).2 dep hdep hd
  exact ⟨this, (reaches_hist hr).completed_done dep this⟩

/-- Witness for C1 on the completed run of the two-task set. -/
theorem start_after_dependencies_witness :
    Start twoTasks demoRun = some (demoEnd, demoTrace) ∧
    ((∀ pre n post, demoTrace = pre ++ Event.start n :: post →
      ∀ dep ∈ taskDeps twoTasks n, mapHas twoTasks.tasks dep = true → dep ∈ dones pre) ∧
    (∀ o c' ev n, step twoTasks demoEnd o = some (c', ev) → Event.start n ∈ ev →
      ∀ dep ∈ taskDeps twoTasks n, mapHas twoTasks.tasks dep = true →
        mapHas demoEnd.sched.completedTasks dep = true ∧ dep ∈ dones demoTrace)) :=
  ⟨by decide, start_after_dependencies twoTasks demoRun demoEnd demoTrace (by decide)⟩

/-- The current group is left unchanged by a step unless nothing is started. -/
theorem step_currentGroup {tasks : TaskSet} {c c' : Config} {ev : List Event}
    (hs : Step tasks c c' ev) (hi : SchedInv tasks c.sched)
    (hne : c'.sched.currentGroup ≠ c.sched.currentGroup) : mapLen c.sched.startedTasks = 0 := by
  have key : ∀ (s : Sched) (o : Oracle), SchedInv tasks s →
      (prepare tasks s o).currentGroup ≠ s.currentGroup → mapLen s.startedTasks = 0 := by
    intro s o hs hcg
    unfold prepare at hcg
    rw [selectGroup_currentGroup] at hcg
    have fr := scanReady_frame tasks o.scanPrio s
    by_cases h0 : (scanReady tasks o.scanPrio s).groupTasksStarted = 0
    · rw [fr.groupTasksStarted, hs.started_count] at h0
      exact_mod_cast h0
    · rw [if_neg h0, fr.currentGroup] at hcg
      exact absurd rfl hcg
  have hstash : ∀ (s : Sched) (v : String), (stash s v).sched.currentGroup = s.currentGroup := by
    intro s v
    unfold stash
    split <;> rfl
  have hrecv : ∀ (s : Sched) (v : String),
      (afterReceive s v).sched.currentGroup = s.currentGroup := by
    intro s v
    unfold afterReceive
    split
    · rfl
    · exact markCompleted_currentGroup s v
  cases hs with
  | drainPeek s v hp => exact absurd (hrecv _ v) hne
  | drainRecv s v => exact absurd (hrecv s v) hne
  | drainClosed s => exact absurd rfl hne
  | drainDefault s hp => exact absurd rfl hne
  | bodyRecv s o v hc =>
    rw [hstash] at hne
    exact key s o hi hne
  | bodyClosed s o hc => exact key s o hi hne
  | bodySend s o hn => exact key s o hi hne
  | bodyExit s o h1 h2 => exact key s o hi hne

/-- Claim C2: in every reachable state of the scheduling loop every task in the
started set has the group label `currentGroup`, a step changes `currentGroup`
only from a state whose started set is empty, and so any two started tasks have
the same group label; the same holds inside the loop body, right after the
readiness scan and the group selection. -/
theorem started_tasks_share_group (tasks : TaskSet) (os : List Oracle) (c : Config)
    (tr : List Event) (h : Start tasks os = some (c, tr)) :
    (∀ n, mapHas c.sched.startedTasks n = true → taskGroup tasks n = c.sched.currentGroup) ∧
    (∀ o c' ev, step tasks c o = some (c', ev) →
      c'.sched.currentGroup ≠ c.sched.currentGroup → mapLen c.sched.startedTasks = 0) ∧
    (∀ a b, mapHas c.sched.startedTasks a = true → mapHas c.sched.startedTasks b = true →
      taskGroup tasks a = taskGroup tasks b) ∧
    (∀ o n, mapHas (prepare tasks c.sched o).startedTasks n = true →
      taskGroup tasks n = (prepare tasks c.sched o).currentGroup) := by
  have hi := reaches_inv (reaches_of_start h)
  refine ⟨hi.started_group, ?_, ?_, fun o => (prepare_inv o hi).started_group⟩
  · intro o c' ev hstep hne
    exact step_currentGroup (step_sound hstep) hi hne
  · intro a b ha hb
    rw [hi.started_group a ha, hi.started_group b hb]

/-- Witness for C2 on the two-task set while `task2` is started. -/
theorem started_tasks_share_group_witness :
    Start twoTasks (demoRun.take 5) = some (demoMid, demoMidTrace) ∧
    ((∀ n, mapHas demoMid.sched.startedTasks n = true →
      taskGroup twoTasks n = demoMid.sched.currentGroup) ∧
    (∀ o c' ev, step twoTasks demoMid o = some (c', ev) →
      c'.sched.currentGroup ≠ demoMid.sched.currentGroup →
      mapLen demoMid.sched.startedTasks = 0) ∧
    (∀ a b, mapHas demoMid.sched.startedTasks a = true →
      mapHas demoMid.sched.startedTasks b = true →
      taskGroup twoTasks a = taskGroup twoTasks b) ∧
    (∀ o n, mapHas (prepare twoTasks demoMid.sched o).startedTasks n = true →
      taskGroup twoTasks n = (prepare twoTasks demoMid.sched o).currentGroup)) :=
  ⟨by decide, started_tasks_share_group twoTasks (demoRun.take 5) demoMid demoMidTrace
    (by decide)⟩

/-- Claim C5: for a task graph whose task names are all non-empty, when the loop
exits through its terminal condition (the done channel was not found closed),
the ready set and the started set are empty and every task that is not
completed has a dependency that is a task of the graph and is not completed. -/
theorem terminal_exit_done_or_blocked (tasks : TaskSet) (os : List Oracle) (c : Config)
    (tr : List Event) (hnames : mapHas tasks.tasks "" = false)
    (h : Start tasks os = some (c, tr)) (hexit : c.loc = .exited)
    (hopen : Event.doneClosed ∉ tr) :
    mapLen c.sched.readyTasks = 0 ∧ mapLen c.sched.startedTasks = 0 ∧
    ∀ n, mapHas tasks.tasks n = true → mapHas c.sched.completedTasks n = false →
      ∃ dep ∈ taskDeps tasks n, mapHas tasks.tasks dep = true ∧
        mapHas c.sched.completedTasks dep = false := by
  have ht := (reaches_exitInv (reaches_of_start h)).terminal hexit hopen hnames
  exact ⟨(mapLen_eq_zero_iff _).mpr ht.ready_empty, (mapLen_eq_zero_iff _).mpr ht.started_empty,
    ht.rest_blocked⟩

/-- Witness for C5 on the completed run of the two-task set. -/
theorem terminal_exit_done_or_blocked_witness :
    mapHas twoTasks.tasks "" = false ∧ Start twoTasks demoRun = some (demoEnd, demoTrace) ∧
    demoEnd.loc = .exited ∧ Event.doneClosed ∉ demoTrace ∧
    (mapLen demoEnd.sched.readyTasks = 0 ∧ mapLen demoEnd.sched.startedTasks = 0 ∧
    ∀ n, mapHas twoTasks.tasks n = true → mapHas demoEnd.sched.completedTasks n = false →
      ∃ dep ∈ taskDeps twoTasks n, mapHas twoTasks.tasks dep = true ∧
        mapHas demoEnd.sched.completedTasks dep = false) :=
  ⟨by decide, by decide, by decide, by decide,
    terminal_exit_done_or_blocked twoTasks demoRun demoEnd demoTrace (by decide) (by decide)
      (by decide) (by decide)⟩

end Taskqueue

namespace Taskqueue

/-! ## Completion reports for tasks that are not started -/

/-- Claim C7: for every scheduler state and every non-empty name that is not in
the started set, handling a completion report for that name adds the name to
the completed set and changes nothing else (started set, ready set,
groupReadyCount, currentGroup and groupTasksStarted are unchanged); the drain
`select` that receives the name performs exactly this and stays in the drain
loop, whether the name comes from the done channel or from the peek buffer. -/
theorem unstarted_completion_only_marks (s : Sched) (name : String) (hne : name ≠ "")
    (hns : mapHas s.startedTasks name = false) :
    markCompleted s name = { s with completedTasks := mapSet s.completedTasks name () } ∧
    (∀ n, mapHas (markCompleted s name).completedTasks n = true ↔
      n = name ∨ mapHas s.completedTasks n = true) ∧
    drainSelect s (.recv name) =
      some ({ loc := .drain,
              sched := { s with completedTasks := mapSet s.completedTasks name () } },
            [.done name]) ∧
    (s.peeked = some name → drainSelect s .peek =
      some ({ loc := .drain,
              sched := { s with completedTasks := mapSet s.completedTasks name (),
                                peeked := none } }, [])) := by
  have hm : ∀ s' : Sched, s'.startedTasks = s.startedTasks →
      markCompleted s' name = { s' with completedTasks := mapSet s'.completedTasks name () } := by
    intro s' hs'
    unfold markCompleted
    simp [hs', hns]
  refine ⟨hm s rfl, ?_, ?_, ?_⟩
  · intro n
    rw [markCompleted_completed]
    constructor
    · rintro (e | e)
      · exact Or.inl e.symm
      · exact Or.inr e
    · rintro (e | e)
      · exact Or.inl e.symm
      · exact Or.inr e
  · simp only [drainSelect, afterReceive, if_neg hne, hm s rfl]
  · intro hp
    simp only [drainSelect, hp, afterReceive, if_neg hne]
    rw [hm { s with peeked := none } rfl]

/-- Witness for C7: `task1` is reported a second time while `task2` is started. -/
theorem unstarted_completion_only_marks_witness :
    "task1" ≠ "" ∧ mapHas demoMid.sched.startedTasks "task1" = false ∧
    (markCompleted demoMid.sched "task1" =
      { demoMid.sched with
        completedTasks := mapSet demoMid.sched.completedTasks "task1" () } ∧
    (∀ n, mapHas (markCompleted demoMid.sched "task1").completedTasks n = true ↔
      n = "task1" ∨ mapHas demoMid.sched.completedTasks n = true) ∧
    drainSelect demoMid.sched (.recv "task1") =
      some ({ loc := .drain,
              sched := { demoMid.sched with
                completedTasks := mapSet demoMid.sched.completedTasks "task1" () } },
            [.done "task1"]) ∧
    (demoMid.sched.peeked = some "task1" → drainSelect demoMid.sched .peek =
      some ({ loc := .drain,
              sched := { demoMid.sched with
                completedTasks := mapSet demoMid.sched.completedTasks "task1" (),
                peeked := none } }, []))) :=
  ⟨by decide, by decide,
    unstarted_completion_only_marks demoMid.sched "task1" (by decide) (by decide)⟩

/-! ## The constructors of tasks.go -/

theorem fromListFill_ok_iff (ts : List Task) (set : GoMap String Task) :
    (∃ set', fromListFill set ts = .ok set') ↔
      (∀ t ∈ ts, t.Name ≠ "") ∧ (ts.map Task.Name).Nodup ∧
        ∀ t ∈ ts, mapHas set t.Name = false := by
  induction ts generalizing set with
  | nil => simp [fromListFill]
  | cons t rest ih =>
    unfold fromListFill
    by_cases h1 : t.Name = ""
    · simp [h1]
    · by_cases h2 : mapHas set t.Name = true
      · simp [h1, h2]
      · have h2' : mapHas set t.Name = false := by simpa using h2
        rw [if_neg h1, if_neg h2, ih]
        constructor
        · rintro ⟨ha, hb, hc⟩
          have hc' : ∀ t' ∈ rest, t.Name ≠ t'.Name ∧ mapHas set t'.Name = false := by
            intro t' ht'
            have := hc t' ht'
            cases hx : mapHas (mapSet set t.Name t) t'.Name with
            | true => rw [hx] at this; exact Bool.noConfusion this
            | false =>
              constructor
              · intro e
                have := (mapHas_set set t.Name t'.Name t).mpr (Or.inl e)
                rw [hx] at this
                exact Bool.noConfusion this
              · cases hy : mapHas set t'.Name with
                | false => rfl
                | true =>
                  have := (mapHas_set set t.Name t'.Name t).mpr (Or.inr hy)
                  rw [hx] at this
                  exact Bool.noConfusion this
          refine ⟨?_, ?_, ?_⟩
          · intro t' ht'
            rcases List.mem_cons.mp ht' with e | e
            · rw [e]; exact h1
            · exact ha t' e
          · rw [List.map_cons, List.nodup_cons]
            refine ⟨?_, hb⟩
            intro hmem
            obtain ⟨t', ht', e⟩ := List.mem_map.mp hmem
            exact (hc' t' ht').1 e.symm
          · intro t' ht'
            rcases List.mem_cons.mp ht' with e | e
            · rw [e]; exact h2'
            · exact (hc' t' e).2
        · rintro ⟨ha, hb, hc⟩
          rw [List.map_cons, List.nodup_cons] at hb
          refine ⟨fun t' ht' => ha t' (List.mem_cons_of_mem _ ht'), hb.2, ?_⟩
          intro t' ht'
          cases hx : mapHas (mapSet set t.Name t) t'.Name with
          | false => rfl
          | true =>
            rcases (mapHas_set set t.Name t'.Name t).mp hx with e | e
            · exact absurd (List.mem_map.mpr ⟨t', ht', e.symm⟩) hb.1
            · rw [hc t' (List.mem_cons_of_mem _ ht')] at e
              exact Bool.noConfusion e

theorem fromListFill_lookup_other (ts : List Task) (set set' : GoMap String Task) (k : String)
    (h : fromListFill set ts = .ok set') (hk : ∀ t ∈ ts, t.Name ≠ k) :
    mapLookup set' k = mapLookup set k := by
  induction ts generalizing set with
  | nil =>
    simp only [fromListFill, Except.ok.injEq] at h
    rw [h]
  | cons t rest ih =>
    unfold fromListFill at h
    by_cases h1 : t.Name = ""
    · simp [h1] at h
    · by_cases h2 : mapHas set t.Name = true
      · simp [h1, h2] at h
      · simp only [h1, h2, if_false] at h
        rw [ih _ h (fun t' ht' => hk t' (List.mem_cons_of_mem _ ht')), mapLookup_set,
          if_neg (hk t (List.mem_cons_self _ _))]

theorem fromListFill_lookup_mem (ts : List Task) (set set' : GoMap String Task)
    (h : fromListFill set ts = .ok set') : ∀ t ∈ ts, mapLookup set' t.Name = some t := by
  induction ts generalizing set with
  | nil => intro t ht; exact absurd ht (List.not_mem_nil _)
  | cons t rest ih =>
    have hok := (fromListFill_ok_iff (t :: rest) set).mp ⟨set', h⟩
    have hnd := hok.2.1
    rw [List.map_cons, List.nodup_cons] at hnd
    unfold fromListFill at h
    by_cases h1 : t.Name = ""
    · simp [h1] at h
    · by_cases h2 : mapHas set t.Name = true
      · simp [h1, h2] at h
      · simp only [h1, h2, if_false] at h
        intro t' ht'
        rcases List.mem_cons.mp ht' with e | e
        · rw [e, fromListFill_lookup_other rest _ set' t.Name h
            (fun x hx e' => hnd.1 (List.mem_map.mpr ⟨x, hx, e'⟩)), mapLookup_set, if_pos rfl]
        · exact ih _ h t' e

theorem depsCheckFails_iff (prio : String → Nat) (set : GoMap String Task) :
    depsCheckFails prio set = true ↔
      ∃ name, mapHas set name = true ∧
        ∃ dep ∈ (mapGet set name).Deps, mapHas set dep = false := by
  unfold depsCheckFails unknownDep
  rw [List.any_eq_true]
  constructor
  · rintro ⟨name, hmem, hsome⟩
    refine ⟨name, (mem_rangeOrder _ _ _).mp hmem, ?_⟩
    obtain ⟨dep, hdep⟩ := Option.isSome_iff_exists.mp hsome
    exact ⟨dep, List.mem_of_find?_eq_some hdep, by simpa using List.find?_some hdep⟩
  · rintro ⟨name, hname, dep, hdep, hno⟩
    refine ⟨name, (mem_rangeOrder _ _ _).mpr hname, ?_⟩
    rw [List.find?_isSome]
    exact ⟨dep, hdep, by simp [hno]⟩

theorem fromListFill_has (ts : List Task) (set' : GoMap String Task)
    (h : fromListFill [] ts = .ok set') (k : String) :
    mapHas set' k = true ↔ ∃ t ∈ ts, t.Name = k := by
  constructor
  · intro hk
    by_contra hno
    push_neg at hno
    have := fromListFill_lookup_other ts [] set' k h hno
    unfold mapHas at hk
    rw [this] at hk
    exact Bool.noConfusion hk
  · rintro ⟨t, ht, rfl⟩
    unfold mapHas
    rw [fromListFill_lookup_mem ts [] set' h t ht]
    rfl

theorem fromList_ok_of_fill (ts : List Task) (prio : String → Nat) (set' : GoMap String Task)
    (h : fromListFill [] ts = .ok set') :
    depsCheckFails prio set' = false ↔
      ∀ t ∈ ts, ∀ dep ∈ t.Deps, ∃ t' ∈ ts, t'.Name = dep := by
  rw [← Bool.not_eq_true, depsCheckFails_iff]
  constructor
  · intro hno t ht dep hdep
    by_contra hc
    apply hno
    refine ⟨t.Name, (fromListFill_has ts set' h _).mpr ⟨t, ht, rfl⟩, dep, ?_, ?_⟩
    · unfold mapGet
      rw [fromListFill_lookup_mem ts [] set' h t ht]
      exact hdep
    · cases hx : mapHas set' dep with
      | false => rfl
      | true => exact absurd ((fromListFill_has ts set' h dep).mp hx) hc
  · rintro hall ⟨name, hname, dep, hdep, hno⟩
    obtain ⟨t, ht, rfl⟩ := (fromListFill_has ts set' h name).mp hname
    unfold mapGet at hdep
    rw [fromListFill_lookup_mem ts [] set' h t ht] at hdep
    have := (fromListFill_has ts set' h dep).mpr (hall t ht dep hdep)
    rw [hno] at this
    exact Bool.noConfusion this

/-- Claim C8: `FromList` succeeds if and only if every task name is non-empty,
no two tasks of the list have the same name and every dependency of every task
is the name of a task of the list; when it succeeds the returned task set holds
exactly the tasks of the list, each stored unchanged under its own name. This
holds for every order in which the dependency check ranges over the map. -/
theorem fromList_succeeds_iff_valid (tasks : List Task) (prio : String → Nat) :
    ((FromList tasks prio).2 = none ↔
      (∀ t ∈ tasks, t.Name ≠ "") ∧ (tasks.map Task.Name).Nodup ∧
        ∀ t ∈ tasks, ∀ dep ∈ t.Deps, ∃ t' ∈ tasks, t'.Name = dep) ∧
    ((FromList tasks prio).2 = none →
      (∀ t ∈ tasks, mapLookup (FromList tasks prio).1.tasks t.Name = some t) ∧
      (∀ k v, mapLookup (FromList tasks prio).1.tasks k = some v → v ∈ tasks ∧ v.Name = k)) := by
  unfold FromList
  cases hfill : fromListFill [] tasks with
  | error e =>
    dsimp only
    refine ⟨?_, fun h => Option.noConfusion h⟩
    constructor
    · intro h
      exact Option.noConfusion h
    · rintro ⟨h1, h2, _⟩
      obtain ⟨set', hs⟩ := (fromListFill_ok_iff tasks []).mpr ⟨h1, h2, fun _ _ => rfl⟩
      rw [hfill] at hs
      exact Except.noConfusion hs
  | ok set' =>
    dsimp only
    have hok := (fromListFill_ok_iff tasks []).mp ⟨set', hfill⟩
    cases hdeps : depsCheckFails prio set' with
    | true =>
      simp only [if_true]
      refine ⟨?_, fun h => Option.noConfusion h⟩
      constructor
      · intro h
        exact Option.noConfusion h
      · rintro ⟨_, _, h3⟩
        have := (fromList_ok_of_fill tasks prio set' hfill).mpr h3
        rw [hdeps] at this
        exact Bool.noConfusion this
    | false =>
      simp only [Bool.false_eq_true, if_false, true_iff, true_implies]
      refine ⟨⟨hok.1, hok.2.1, (fromList_ok_of_fill tasks prio set' hfill).mp hdeps⟩,
        fromListFill_lookup_mem tasks [] set' hfill, ?_⟩
      intro k v hkv
      have hhas : mapHas set' k = true := by unfold mapHas; rw [hkv]; rfl
      obtain ⟨t, ht, rfl⟩ := (fromListFill_has tasks set' hfill k).mp hhas
      rw [fromListFill_lookup_mem tasks [] set' hfill t ht] at hkv
      have : t = v := Option.some.inj hkv
      rw [← this]
      exact ⟨ht, rfl⟩

/-- The task list of the package example. -/
def exampleList : List Task :=
  [{ Name := "init", Deps := [], Group := "" },
   { Name := "partA", Deps := ["init"], Group := "" },
   { Name := "partB", Deps := ["partB"], Group := "" },
   { Name := "finalize", Deps := ["partA", "partB"], Group := "" }]

/-- Witness for C8: the list of the package example is accepted and stored. -/
theorem fromList_succeeds_iff_valid_witness :
    (FromList exampleList (fun _ => 0)).2 = none ∧
    ((∀ t ∈ exampleList, t.Name ≠ "") ∧ (exampleList.map Task.Name).Nodup ∧
        ∀ t ∈ exampleList, ∀ dep ∈ t.Deps, ∃ t' ∈ exampleList, t'.Name = dep) ∧
    (∀ t ∈ exampleList,
      mapLookup (FromList exampleList (fun _ => 0)).1.tasks t.Name = some t) :=
  ⟨by decide,
    (fromList_succeeds_iff_valid exampleList (fun _ => 0)).1.mp (by decide),
    ((fromList_succeeds_iff_valid exampleList (fun _ => 0)).2 (by decide)).1⟩

/-- The first loop of `FromMapper` returns the map it was given: nothing is
ever stored in it. -/
theorem fromMapperFill_ok {T : Type} (namer : T → String) (deps : Option (T → List String))
    (grouper : Option (T → String)) (set set' : GoMap String Task) (items : List T)
    (h : fromMapperFill namer deps grouper set items = .ok set') : set' = set := by
  induction items with
  | nil =>
    simp only [fromMapperFill, Except.ok.injEq] at h
    exact h.symm
  | cons item rest ih =>
    unfold fromMapperFill at h
    dsimp only at h
    by_cases h1 : namer item = ""
    · simp [h1] at h
    · by_cases h2 : mapHas set (namer item) = true
      · simp [h1, h2] at h
      · simp only [h1, h2, if_false] at h
        exact ih h

/-- Claim C9 (code bug): for the one item `a` with the identity as namer and nil
extractors, `FromMapper` succeeds but returns the empty task set: the task
built for the item is never stored. -/
theorem fromMapper_stores_nothing (prio : String → Nat) :
    FromMapper ["a"] (fun x => x) none none prio = ({ tasks := [] }, none) ∧
    mapLookup (FromMapper ["a"] (fun x => x) none none prio).1.tasks "a" = none := by
  constructor <;> rfl

/-- Claim C10 (code bug): for the items `a`, `a` with the identity as namer,
`FromMapper` returns no error, not `ErrDuplicateName`: the membership test
always runs against the empty map. -/
theorem fromMapper_accepts_duplicate (prio : String → Nat) :
    FromMapper ["a", "a"] (fun x => x) none none prio = ({ tasks := [] }, none) ∧
    (FromMapper ["a", "a"] (fun x => x) none none prio).2 ≠ some TaskError.ErrDuplicateName := by
  constructor
  · rfl
  · intro h
    have e : (FromMapper ["a", "a"] (fun x => x) none none prio).2 = none := rfl
    rw [e] at h
    exact Option.noConfusion h

end Taskqueue

namespace Taskqueue

/-! ## Closing the done channel -/

/-- The communications that remain possible once the done channel is closed
and empty: a receive from it is always ready and reports the closure, so the
drain `select` cannot take `default` and no receive delivers a name. -/
def sinkClosedChoice : Choice → Bool
  | .recv _ => false
  | .dflt => false
  | _ => true

/-- Every step of the run happens with the done channel closed and empty. -/
def sinkClosed (os : List Oracle) : Bool :=
  os.all (fun o => sinkClosedChoice o.choice)

/-- The statement of the claim: from `c` on, with the done channel closed, no
start event is sent. -/
def SilentAfterClose (tasks : TaskSet) (c : Config) : Prop :=
  ∀ os c' tr, sinkClosed os = true → runFrom tasks c os = some (c', tr) → starts tr = []

/-- How many start events can still be sent once the done channel is closed. -/
def sendsLeft (c : Config) : Nat :=
  match c.loc with
  | .body => 1 + (if c.sched.peeked = some "" then 1 else 0)
  | .drain => if c.sched.peeked = some "" then 1 else 0
  | _ => 0

/-- How many steps can still be taken once the done channel is closed. -/
def stepsLeft (c : Config) : Nat :=
  match c.loc with
  | .body => 2 + (if c.sched.peeked.isSome then 2 else 0)
  | .drain => 1 + (if c.sched.peeked.isSome then 2 else 0)
  | _ => 0

theorem markStarted_peeked (s : Sched) (n : String) : (markStarted s n).peeked = s.peeked := rfl

/-- The three kinds of step under a closed done channel. -/
theorem step_closed {tasks : TaskSet} {c c' : Config} {o : Oracle} {ev : List Event}
    (hc : sinkClosedChoice o.choice = true) (h : step tasks c o = some (c', ev)) :
    (∃ v, c.loc = .drain ∧ c.sched.peeked = some v ∧
      c' = afterReceive { c.sched with peeked := none } v ∧ ev = []) ∨
    ((c.loc = .drain ∨ c.loc = .body) ∧ c'.loc = .exited ∧ starts ev = [] ∧ dones ev = []) ∨
    (c.loc = .body ∧ c'.loc = .drain ∧ c'.sched.peeked = c.sched.peeked ∧
      ∃ n, ev = [Event.start n]) := by
  have hs := step_sound h
  obtain ⟨loc, s⟩ := c
  cases loc with
  | exited => exact Option.noConfusion h
  | stuck => exact Option.noConfusion h
  | drain =>
    simp only [step, drainSelect] at h
    cases hch : o.choice with
    | recv v => rw [hch] at hc; exact Bool.noConfusion hc
    | dflt => rw [hch] at hc; exact Bool.noConfusion hc
    | send => rw [hch] at h; exact Option.noConfusion h
    | closed =>
      rw [hch] at h
      simp only [Option.some.injEq, Prod.mk.injEq] at h
      obtain ⟨rfl, rfl⟩ := h
      exact Or.inr (Or.inl ⟨Or.inl rfl, rfl, rfl, rfl⟩)
    | peek =>
      rw [hch] at h
      dsimp only at h
      cases hp : s.peeked with
      | none => rw [hp] at h; exact Option.noConfusion h
      | some v =>
        rw [hp] at h
        simp only [Option.some.injEq, Prod.mk.injEq] at h
        obtain ⟨rfl, rfl⟩ := h
        exact Or.inl ⟨v, rfl, rfl, rfl, rfl⟩
  | body =>
    cases hs with
    | bodyRecv s o' v hcond =>
      exfalso
      simp only [step, loopBody] at h
      cases hch : o.choice with
      | recv w => rw [hch] at hc; exact Bool.noConfusion hc
      | dflt => rw [hch] at hc; exact Bool.noConfusion hc
      | send =>
        rw [hch] at h
        split at h
        · simp at h
        · split at h
          · exact Option.noConfusion h
          · simp at h
      | closed =>
        rw [hch] at h
        split at h
        · simp at h
        · split at h
          · simp at h
          · simp at h
      | peek =>
        rw [hch] at h
        split at h
        · exact Option.noConfusion h
        · split at h
          · exact Option.noConfusion h
          · simp at h
    | bodyClosed s o' hcond => exact Or.inr (Or.inl ⟨Or.inr rfl, rfl, rfl, rfl⟩)
    | bodyExit s o' h1 h2 => exact Or.inr (Or.inl ⟨Or.inr rfl, rfl, rfl, rfl⟩)
    | bodySend s o' hn =>
      exact Or.inr (Or.inr ⟨rfl, rfl, by
        rw [markStarted_peeked, prepare_peeked], _, rfl⟩)

theorem afterReceive_cleared (s : Sched) (v : String) :
    ((afterReceive { s with peeked := none } v).loc = .body ∧ v = "" ∧
        (afterReceive { s with peeked := none } v).sched.peeked = none) ∨
      ((afterReceive { s with peeked := none } v).loc = .drain ∧ v ≠ "" ∧
        (afterReceive { s with peeked := none } v).sched.peeked = none) := by
  unfold afterReceive
  split
  · rename_i h
    exact Or.inl ⟨rfl, h, rfl⟩
  · rename_i h
    exact Or.inr ⟨rfl, h, by rw [markCompleted_peeked]⟩

/-- One step under a closed done channel uses up the two budgets. -/
theorem step_closed_budget {tasks : TaskSet} {c c' : Config} {o : Oracle} {ev : List Event}
    (hc : sinkClosedChoice o.choice = true) (h : step tasks c o = some (c', ev)) :
    (starts ev).length + sendsLeft c' ≤ sendsLeft c ∧ 1 + stepsLeft c' ≤ stepsLeft c ∧
      dones ev = [] ∧ c'.loc ≠ .stuck := by
  obtain ⟨loc, s⟩ := c
  obtain ⟨loc', s'⟩ := c'
  rcases step_closed hc h with ⟨v, h1, h2, h3, h4⟩ | ⟨h1, h2, h3, h4⟩ | ⟨h1, h2, h3, n, h4⟩
  · dsimp only at h1 h2
    subst h1
    rcases afterReceive_cleared s v with ⟨ha, hb, hp⟩ | ⟨ha, hb, hp⟩
    · rw [← h3] at ha hp
      dsimp only at ha hp
      subst ha
      subst hb
      simp [h4, sendsLeft, stepsLeft, h2, hp, starts, dones]
    · rw [← h3] at ha hp
      dsimp only at ha hp
      subst ha
      simp [h4, sendsLeft, stepsLeft, h2, hp, starts, dones]
  · dsimp only at h1 h2
    subst h2
    have e1 : sendsLeft ⟨Loc.exited, s'⟩ = 0 := rfl
    have e2 : stepsLeft ⟨Loc.exited, s'⟩ = 0 := rfl
    rw [e1, e2, h3]
    refine ⟨by simp, ?_, h4, by simp⟩
    rcases h1 with h1 | h1
    · subst h1
      unfold stepsLeft
      dsimp only
      omega
    · subst h1
      unfold stepsLeft
      dsimp only
      omega
  · dsimp only at h1 h2 h3
    subst h1
    subst h2
    simp only [h4, starts, dones, sendsLeft, stepsLeft, h3, List.length_cons, List.length_nil]
    refine ⟨by omega, by omega, trivial, by simp⟩

theorem runFrom_closed_budget {tasks : TaskSet} (os : List Oracle) :
    ∀ {c c' : Config} {tr : List Event}, sinkClosed os = true →
      runFrom tasks c os = some (c', tr) →
      (starts tr).length + sendsLeft c' ≤ sendsLeft c ∧ os.length + stepsLeft c' ≤ stepsLeft c ∧
        dones tr = [] ∧ (c.loc ≠ .stuck → c'.loc ≠ .stuck) := by
  induction os with
  | nil =>
    intro c c' tr _ h
    simp only [runFrom, Option.some.injEq, Prod.mk.injEq] at h
    obtain ⟨rfl, rfl⟩ := h
    simp [starts, dones]
  | cons o rest ih =>
    intro c c' tr hcl h
    simp only [sinkClosed, List.all_cons, Bool.and_eq_true] at hcl
    simp only [runFrom] at h
    cases hs : step tasks c o with
    | none => rw [hs] at h; exact Option.noConfusion h
    | some r =>
      obtain ⟨c1, ev⟩ := r
      rw [hs] at h
      dsimp only at h
      cases hrest : runFrom tasks c1 rest with
      | none => rw [hrest] at h; exact Option.noConfusion h
      | some r2 =>
        obtain ⟨c2, tr2⟩ := r2
        rw [hrest] at h
        simp only [Option.some.injEq, Prod.mk.injEq] at h
        obtain ⟨rfl, rfl⟩ := h
        obtain ⟨a1, a2, a3, a4⟩ := step_closed_budget hcl.1 hs
        obtain ⟨b1, b2, b3, b4⟩ := ih (by simpa [sinkClosed] using hcl.2) hrest
        rw [starts_append, dones_append, List.length_append, List.length_cons, a3, b3]
        refine ⟨by omega, by omega, rfl, fun _ => b4 a4⟩

theorem sendsLeft_le (c : Config) : sendsLeft c ≤ 2 := by
  unfold sendsLeft
  split <;> (try split) <;> omega

theorem stepsLeft_le (c : Config) : stepsLeft c ≤ 4 := by
  unfold stepsLeft
  split <;> (try split) <;> omega

/-- From the drain `select` and from the loop body, observing the closure is
possible and makes the goroutine return at once. -/
theorem closed_step_exits (tasks : TaskSet) (c : Config) (o : Oracle)
    (hloc : c.loc = .drain ∨ c.loc = .body) :
    ∃ c' ev, step tasks c { o with choice := .closed } = some (c', ev) ∧ c'.loc = .exited ∧
      starts ev = [] ∧ Event.startClosed ∈ ev := by
  obtain ⟨loc, s⟩ := c
  rcases hloc with h | h
  · dsimp only at h
    subst h
    exact ⟨_, _, rfl, rfl, rfl, by simp⟩
  · dsimp only at h
    subst h
    simp only [step, loopBody]
    split
    · exact ⟨_, _, rfl, rfl, rfl, by simp⟩
    · split
      · exact ⟨_, _, rfl, rfl, rfl, by simp⟩
      · exact ⟨_, _, rfl, rfl, rfl, by simp⟩

/-- Two independent tasks in the default group. -/
def indepTasks : TaskSet :=
  FromMapUnchecked [("a", default), ("b", default)]

/-- The goroutine past the drain loop, with `b` started and `a` ready. -/
def raceConfig : Config :=
  { loc := .body,
    sched := { currentGroup := "", groupTasksStarted := 1, readyTasks := [("a", ())],
               groupReadyCount := [("", 1)], startedTasks := [("b", ())],
               completedTasks := [], peeked := none } }

/-- The goroutine after it won the race and sent `a`. -/
def raceSent : Config :=
  { loc := .drain,
    sched := { currentGroup := "", groupTasksStarted := 2, readyTasks := [],
               groupReadyCount := [("", 0)], startedTasks := [("a", ()), ("b", ())],
               completedTasks := [], peeked := none } }

/-- Counterexample for C6: the goroutine has passed the drain loop with `b`
started and `a` ready; the done channel is then closed; in the dispatch
`select` both cases are ready and the send of `a` may be chosen, so a start
event is sent after the closure. -/
theorem sink_closed_still_sends :
    Start indepTasks [.plain .dflt, .plain .send, .plain .dflt] =
      some (raceConfig, [.start "b"]) ∧
    mapHas raceConfig.sched.readyTasks "a" = true ∧
    mapHas raceConfig.sched.startedTasks "b" = true ∧
    sinkClosed [.plain .send] = true ∧
    runFrom indepTasks raceConfig [.plain .send] = some (raceSent, [.start "a"]) ∧
    ¬ SilentAfterClose indepTasks raceConfig := by
  refine ⟨by decide, by decide, by decide, by decide, by decide, ?_⟩
  intro h
  have := h [.plain .send] raceSent [.start "a"] (by decide) (by decide)
  exact absurd this (by decide)

/-- Claim C6, amended: once the done channel is closed and empty the goroutine
receives nothing more. From every state in which it stands at the drain
`select` or in the loop body, as in every state reached by a run in which the
empty name was never reported, it returns within four steps and closes the
start channel, the closing step being possible at once, so it never waits for
ready or started tasks; from the drain `select` with a peek buffer that does
not hold the empty name it sends no start event, while in the dispatch
`select` the send races the closed channel and may still be chosen: at most
two start events are sent. In the state where the goroutine is blocked on the
full peek buffer, which arises only after a report of the empty name, no step
is possible and the start channel is never closed. -/
theorem sink_closed_terminates (tasks : TaskSet) (c c' : Config) (os : List Oracle)
    (tr : List Event) (hclosed : sinkClosed os = true)
    (h : runFrom tasks c os = some (c', tr)) :
    (c.loc = .drain → c.sched.peeked ≠ some "" → starts tr = []) ∧
    (starts tr).length ≤ 2 ∧ os.length ≤ 4 ∧ dones tr = [] ∧
    (c.loc ≠ .stuck → c'.loc ≠ .stuck) ∧
    (c'.loc = .drain ∨ c'.loc = .body → ∀ o : Oracle, ∃ c'' ev,
      step tasks c' { o with choice := .closed } = some (c'', ev) ∧ c''.loc = .exited ∧
        starts ev = [] ∧ Event.startClosed ∈ ev) ∧
    (c.loc = .drain ∨ c.loc = .body → c'.loc = .drain ∨ c'.loc = .body ∨ c'.loc = .exited) ∧
    (∀ os0 tr0, Start tasks os0 = some (c, tr0) → "" ∉ dones tr0 →
      c.loc = .drain ∨ c.loc = .body ∨ c.loc = .exited) ∧
    (c.loc = .stuck → os = [] ∧ c' = c ∧ tr = [] ∧ ∀ o, step tasks c o = none) := by
  obtain ⟨h1, h2, h3, h4⟩ := runFrom_closed_budget os hclosed h
  have hs := sendsLeft_le c
  have hm := stepsLeft_le c
  have hloc : ∀ d : Config, d.loc ≠ .stuck → d.loc = .drain ∨ d.loc = .body ∨ d.loc = .exited := by
    intro d hd
    cases hl : d.loc with
    | drain => exact Or.inl rfl
    | body => exact Or.inr (Or.inl rfl)
    | exited => exact Or.inr (Or.inr rfl)
    | stuck => exact absurd hl hd
  refine ⟨?_, by omega, by omega, h3, h4, fun hloc o => closed_step_exits tasks c' o hloc,
    ?_, ?_, ?_⟩
  · intro hd hp
    have : sendsLeft c = 0 := by
      unfold sendsLeft
      rw [hd]
      simp [hp]
    rw [this] at h1
    exact List.length_eq_zero.mp (by omega)
  · intro hc
    apply hloc c'
    apply h4
    rcases hc with e | e <;> (rw [e]; exact fun x => Loc.noConfusion x)
  · intro os0 tr0 h0 hne
    exact hloc c (fun hl => hne ((reaches_exitInv (reaches_of_start h0)).stuck_done hl))
  · intro hl
    have hnone : ∀ o, step tasks c o = none := by
      intro o
      unfold step
      rw [hl]
    cases os with
    | nil =>
      simp only [runFrom, Option.some.injEq, Prod.mk.injEq] at h
      exact ⟨rfl, h.1.symm, h.2.symm, hnone⟩
    | cons o rest =>
      simp only [runFrom, hnone o] at h
      exact Option.noConfusion h

/-- Witness for C6 amended: after `b` was sent, with the done channel closed,
the goroutine at the drain `select` can return at once, and when it does it
has sent nothing more. -/
theorem sink_closed_terminates_witness :
    sinkClosed [.plain .closed] = true ∧
    runFrom indepTasks ⟨.drain, raceConfig.sched⟩ [.plain .closed] =
      some (⟨.exited, raceConfig.sched⟩, [.doneClosed, .startClosed]) ∧
    starts [Event.doneClosed, Event.startClosed] = [] ∧
    (∃ c'' ev, step indepTasks ⟨.drain, raceConfig.sched⟩ (.plain .closed) = some (c'', ev) ∧
      c''.loc = .exited ∧ starts ev = [] ∧ Event.startClosed ∈ ev) :=
  have hw := sink_closed_terminates indepTasks ⟨.drain, raceConfig.sched⟩
    ⟨.exited, raceConfig.sched⟩ [.plain .closed] [.doneClosed, .startClosed] (by decide)
    (by decide)
  have hw0 := sink_closed_terminates indepTasks ⟨.drain, raceConfig.sched⟩
    ⟨.drain, raceConfig.sched⟩ [] [] (by decide) (by decide)
  ⟨by decide, by decide, hw.1 rfl (by decide), hw0.2.2.2.2.2.1 (Or.inl rfl) (.plain .closed)⟩

end Taskqueue

namespace Taskqueue

/-! ## Callers that report what was started -/

/-- Whether every name received from the done channel had been sent on the
start channel before, `emitted` being the names sent before the trace. -/
def reportsEmittedFrom (emitted : List String) : List Event → Bool
  | [] => true
  | .start n :: tr => reportsEmittedFrom (n :: emitted) tr
  | .done v :: tr => decide (v ∈ emitted) && reportsEmittedFrom emitted tr
  | _ :: tr => reportsEmittedFrom emitted tr

/-- The caller reports only names previously emitted on the start channel. -/
def reportsEmitted (tr : List Event) : Bool :=
  reportsEmittedFrom [] tr

/-- The caller reports only names previously emitted, each at most once, and
does not close the done channel. -/
def reportsOnce (tr : List Event) : Bool :=
  reportsEmitted tr && decide (dones tr).Nodup && decide (Event.doneClosed ∉ tr)

theorem reportsEmittedFrom_append (em : List String) (a b : List Event) :
    reportsEmittedFrom em (a ++ b) =
      (reportsEmittedFrom em a && reportsEmittedFrom ((starts a).reverse ++ em) b) := by
  induction a generalizing em with
  | nil => simp [reportsEmittedFrom, starts]
  | cons e rest ih =>
    cases e with
    | start n => simp [reportsEmittedFrom, starts, ih]
    | done v => simp [reportsEmittedFrom, starts, ih, Bool.and_assoc]
    | doneClosed => simp [reportsEmittedFrom, starts, ih]
    | startClosed => simp [reportsEmittedFrom, starts, ih]

theorem reportsEmittedFrom_dones (em : List String) (tr : List Event)
    (h : reportsEmittedFrom em tr = true) : ∀ v ∈ dones tr, v ∈ em ∨ v ∈ starts tr := by
  induction tr generalizing em with
  | nil => intro v hv; simp [dones] at hv
  | cons e rest ih =>
    intro v hv
    cases e with
    | start n =>
      simp only [reportsEmittedFrom] at h
      simp only [dones] at hv
      rcases ih _ h v hv with h1 | h1
      · rcases List.mem_cons.mp h1 with e | e
        · right; simp [starts, e]
        · exact Or.inl e
      · right; simp [starts, h1]
    | done w =>
      simp only [reportsEmittedFrom, Bool.and_eq_true, decide_eq_true_eq] at h
      simp only [dones, List.mem_cons] at hv
      rcases hv with e | e
      · rw [e]; exact Or.inl h.1
      · rcases ih _ h.2 v e with h1 | h1
        · exact Or.inl h1
        · right; simpa [starts] using h1
    | doneClosed =>
      simp only [reportsEmittedFrom] at h
      simp only [dones] at hv
      simpa [starts] using ih _ h v hv
    | startClosed =>
      simp only [reportsEmittedFrom] at h
      simp only [dones] at hv
      simpa [starts] using ih _ h v hv

theorem reportsEmitted_dones {tr : List Event} (h : reportsEmitted tr = true) :
    ∀ v ∈ dones tr, v ∈ starts tr := by
  intro v hv
  rcases reportsEmittedFrom_dones [] tr h v hv with h1 | h1
  · exact absurd h1 (List.not_mem_nil _)
  · exact h1

theorem reportsEmitted_left {a b : List Event} (h : reportsEmitted (a ++ b) = true) :
    reportsEmitted a = true := by
  unfold reportsEmitted at *
  rw [reportsEmittedFrom_append, Bool.and_eq_true] at h
  exact h.1

theorem reportsEmitted_snoc_done {tr : List Event} {v : String}
    (h : reportsEmitted (tr ++ [Event.done v]) = true) : v ∈ starts tr := by
  unfold reportsEmitted at h
  rw [reportsEmittedFrom_append, Bool.and_eq_true] at h
  have := h.2
  simp only [reportsEmittedFrom, List.append_nil, Bool.and_true, decide_eq_true_eq] at this
  simpa using this

theorem reportsEmitted_split {tr pre post : List Event} {v : String}
    (h : reportsEmitted tr = true) (hs : tr = pre ++ Event.done v :: post) :
    v ∈ starts pre := by
  have e : tr = (pre ++ [Event.done v]) ++ post := by rw [hs]; simp
  rw [e] at h
  exact reportsEmitted_snoc_done (reportsEmitted_left h)

theorem reportsOnce_iff (tr : List Event) :
    reportsOnce tr = true ↔
      reportsEmitted tr = true ∧ (dones tr).Nodup ∧ Event.doneClosed ∉ tr := by
  unfold reportsOnce
  simp only [Bool.and_eq_true, decide_eq_true_eq, and_assoc]

theorem reportsOnce_left {a b : List Event} (h : reportsOnce (a ++ b) = true) :
    reportsOnce a = true := by
  rw [reportsOnce_iff] at *
  obtain ⟨h1, h2, h3⟩ := h
  refine ⟨reportsEmitted_left h1, ?_, fun hm => h3 (List.mem_append_left _ hm)⟩
  rw [dones_append] at h2
  exact h2.of_append_left

theorem reportsEmitted_snoc_start {tr : List Event} (n : String)
    (h : reportsEmitted tr = true) : reportsEmitted (tr ++ [Event.start n]) = true := by
  unfold reportsEmitted at *
  rw [reportsEmittedFrom_append, h]
  rfl

theorem reportsEmitted_snoc_closed {tr : List Event}
    (h : reportsEmitted tr = true) : reportsEmitted (tr ++ [Event.startClosed]) = true := by
  unfold reportsEmitted at *
  rw [reportsEmittedFrom_append, h]
  rfl

theorem reportsEmitted_snoc_done_of {tr : List Event} {v : String}
    (h : reportsEmitted tr = true) (hv : v ∈ starts tr) :
    reportsEmitted (tr ++ [Event.done v]) = true := by
  unfold reportsEmitted at *
  rw [reportsEmittedFrom_append, h]
  simp [reportsEmittedFrom, hv]

/-! ## What a disciplined caller preserves -/

theorem afterReceive_of_ne (s : Sched) {v : String} (hv : v ≠ "") :
    afterReceive s v = { loc := .drain, sched := markCompleted s v } := by
  unfold afterReceive
  rw [if_neg hv]

/-- What holds in addition when the caller reports only emitted names. -/
structure DiscInv (c : Config) (tr : List Event) : Prop where
  done_cases : ∀ v ∈ dones tr, mapHas c.sched.completedTasks v = true ∨ c.sched.peeked = some v
  started_open : ∀ n, mapHas c.sched.startedTasks n = true →
    mapHas c.sched.completedTasks n = false
  body_clear : c.loc = .body → c.sched.peeked = none
  not_stuck : c.loc ≠ .stuck

theorem step_disc {tasks : TaskSet} {c c' : Config} {tr ev : List Event}
    (hr : Reaches tasks c tr) (hs : Step tasks c c' ev)
    (hd : reportsEmitted (tr ++ ev) = true) (h : DiscInv c tr) : DiscInv c' (tr ++ ev) := by
  have hd0 : reportsEmitted tr = true := reportsEmitted_left hd
  have hhist := reaches_hist hr
  have hinv := reaches_inv hr
  have hsub : ∀ v ∈ dones tr, v ∈ starts tr := reportsEmitted_dones hd0
  have hne : ∀ v ∈ dones tr, v ≠ "" := fun v hv => (hhist.start_task v (hsub v hv)).2
  have hcompl : ∀ (s' : Sched) (v n : String), (∀ m, mapHas s'.startedTasks m = true →
      mapHas s'.completedTasks m = false) → mapHas (markCompleted s' v).startedTasks n = true →
      mapHas (markCompleted s' v).completedTasks n = false := by
    intro s' v n hopen hn
    have hn' := (markCompleted_started s' v n).mp hn
    cases hx : mapHas (markCompleted s' v).completedTasks n with
    | false => rfl
    | true =>
      rcases (markCompleted_completed s' v n).mp hx with e | e
      · exact absurd e hn'.1
      · rw [hopen n hn'.2] at e
        exact Bool.noConfusion e
  cases hs with
  | drainPeek s v hp =>
    have hv : v ≠ "" := hne v (hhist.peeked_done v hp)
    rw [afterReceive_of_ne _ hv, List.append_nil]
    constructor
    · intro w hw
      left
      rw [markCompleted_completed]
      rcases h.done_cases w hw with h1 | h1
      · exact Or.inr h1
      · left
        have : some v = some w := hp.symm.trans h1
        exact Option.some.inj this
    · intro n hn
      exact hcompl _ v n h.started_open hn
    · intro hl; exact Loc.noConfusion hl
    · intro hl; exact Loc.noConfusion hl
  | drainRecv s v =>
    have hv1 : v ∈ starts tr := reportsEmitted_snoc_done hd
    have hv : v ≠ "" := (hhist.start_task v hv1).2
    rw [afterReceive_of_ne _ hv]
    constructor
    · intro w hw
      rw [dones_append] at hw
      rcases List.mem_append.mp hw with h1 | h1
      · rcases h.done_cases w h1 with h2 | h2
        · exact Or.inl ((markCompleted_completed s v w).mpr (Or.inr h2))
        · right
          dsimp only
          rw [markCompleted_peeked]
          exact h2
      · have : w = v := by simpa [dones] using h1
        exact Or.inl ((markCompleted_completed s v w).mpr (Or.inl this.symm))
    · intro n hn
      exact hcompl _ v n h.started_open hn
    · intro hl; exact Loc.noConfusion hl
    · intro hl; exact Loc.noConfusion hl
  | drainClosed s =>
    constructor
    · intro w hw
      rw [dones_append] at hw
      simp only [dones, List.append_nil] at hw
      exact h.done_cases w hw
    · exact h.started_open
    · intro hl; exact Loc.noConfusion hl
    · intro hl; exact Loc.noConfusion hl
  | drainDefault s hp =>
    rw [List.append_nil]
    exact ⟨h.done_cases, h.started_open, fun _ => hp, fun hl => Loc.noConfusion hl⟩
  | bodyRecv s o v hc =>
    have hclear : s.peeked = none := h.body_clear rfl
    have hst : stash (prepare tasks s o) v =
        { loc := .drain, sched := { prepare tasks s o with peeked := some v } } := by
      unfold stash
      rw [prepare_peeked, hclear]
    rw [hst]
    constructor
    · intro w hw
      rw [dones_append] at hw
      rcases List.mem_append.mp hw with h1 | h1
      · rcases h.done_cases w h1 with h2 | h2
        · left
          dsimp only
          rw [prepare_completed]
          exact h2
        · rw [hclear] at h2
          exact Option.noConfusion h2
      · have : w = v := by simpa [dones] using h1
        right
        rw [this]
    · intro n hn
      dsimp only at hn ⊢
      rw [prepare_started] at hn
      rw [prepare_completed]
      exact h.started_open n hn
    · intro hl; exact Loc.noConfusion hl
    · intro hl; exact Loc.noConfusion hl
  | bodyClosed s o hc =>
    constructor
    · intro w hw
      rw [dones_append] at hw
      simp only [dones, List.append_nil] at hw
      dsimp only
      rw [prepare_completed, prepare_peeked]
      exact h.done_cases w hw
    · intro n hn
      dsimp only at hn ⊢
      rw [prepare_started] at hn
      rw [prepare_completed]
      exact h.started_open n hn
    · intro hl; exact Loc.noConfusion hl
    · intro hl; exact Loc.noConfusion hl
  | bodyExit s o h1 h2 =>
    constructor
    · intro w hw
      rw [dones_append] at hw
      simp only [dones, List.append_nil] at hw
      dsimp only
      rw [prepare_completed, prepare_peeked]
      exact h.done_cases w hw
    · intro n hn
      dsimp only at hn ⊢
      rw [prepare_started] at hn
      rw [prepare_completed]
      exact h.started_open n hn
    · intro hl; exact Loc.noConfusion hl
    · intro hl; exact Loc.noConfusion hl
  | bodySend s o hn =>
    have hp := pickNext_ne_empty hn
    have hfresh := (hhist.prepare o).ready_fresh _ hp.1
    constructor
    · intro w hw
      rw [dones_append] at hw
      simp only [dones, List.append_nil] at hw
      show mapHas (prepare tasks s o).completedTasks w = true ∨ (prepare tasks s o).peeked = some w
      rw [prepare_completed, prepare_peeked]
      exact h.done_cases w hw
    · intro n hns
      show mapHas (prepare tasks s o).completedTasks n = false
      rw [prepare_completed]
      have hns' : mapHas (mapSet (prepare tasks s o).startedTasks
          (pickNext tasks (prepare tasks s o) o.readyPrio) ()) n = true := hns
      rcases (mapHas_set _ _ _ _).mp hns' with e | e
      · cases hx : mapHas s.completedTasks n with
        | false => rfl
        | true =>
          exfalso
          apply hfresh
          rw [e]
          exact hsub n (hhist.completed_done n hx)
      · rw [prepare_started] at e
        exact h.started_open n e
    · intro hl; exact Loc.noConfusion hl
    · intro hl; exact Loc.noConfusion hl

theorem reaches_disc {tasks : TaskSet} {c : Config} {tr : List Event}
    (h : Reaches tasks c tr) : reportsEmitted tr = true → DiscInv c tr := by
  induction h with
  | init =>
    intro _
    constructor
    · intro v hv; simp [dones] at hv
    · intro n hn
      simp [Config.init, Sched.init, mapHas, mapLookup] at hn
    · intro hl; exact Loc.noConfusion hl
    · intro hl; exact Loc.noConfusion hl
  | next hr hs ih =>
    intro hd
    exact step_disc hr hs hd (ih (reportsEmitted_left hd))

end Taskqueue

namespace Taskqueue

/-! ## The loop cannot run for ever -/

/-- The steps the goroutine can take before its next start or done event. -/
def slack (c : Config) : Nat :=
  match c.loc with
  | .drain => if c.sched.peeked.isSome then 3 else 2
  | .body => 1
  | _ => 0

theorem slack_le (c : Config) : slack c ≤ 3 := by
  unfold slack
  split <;> (try split) <;> omega

theorem step_slack {tasks : TaskSet} {c c' : Config} {ev : List Event}
    (hs : Step tasks c c' ev) :
    1 + slack c' ≤ slack c + 3 * ((starts ev).length + (dones ev).length) := by
  have hle := slack_le c'
  cases hs with
  | drainPeek s v hp =>
    have hc : slack ⟨.drain, s⟩ = 3 := by simp [slack, hp]
    rw [hc]
    rcases afterReceive_cleared s v with ⟨ha, _, hb⟩ | ⟨ha, _, hb⟩
    · have : slack (afterReceive { s with peeked := none } v) = 1 := by
        unfold slack
        rw [ha]
      omega
    · have : slack (afterReceive { s with peeked := none } v) = 2 := by
        unfold slack
        rw [ha]
        simp [hb]
      omega
  | drainRecv s v =>
    have h2 : 2 ≤ slack ⟨.drain, s⟩ := by
      unfold slack
      dsimp only
      split <;> omega
    simp only [starts, dones, List.length_cons, List.length_nil]
    omega
  | drainClosed s =>
    have h1 : slack ⟨.exited, s⟩ = 0 := rfl
    have h2 : 2 ≤ slack ⟨.drain, s⟩ := by
      unfold slack
      dsimp only
      split <;> omega
    omega
  | drainDefault s hp =>
    have h1 : slack ⟨.body, s⟩ = 1 := rfl
    have h2 : slack ⟨.drain, s⟩ = 2 := by simp [slack, hp]
    omega
  | bodyRecv s o v hc =>
    have h2 : slack ⟨.body, s⟩ = 1 := rfl
    simp only [starts, dones, List.length_cons, List.length_nil]
    omega
  | bodyClosed s o hc =>
    have h1 : slack ⟨.exited, prepare tasks s o⟩ = 0 := rfl
    have h2 : slack ⟨.body, s⟩ = 1 := rfl
    omega
  | bodySend s o hn =>
    have h2 : slack ⟨.body, s⟩ = 1 := rfl
    simp only [starts, dones, List.length_cons, List.length_nil]
    omega
  | bodyExit s o h1 h2 =>
    have h1 : slack ⟨.exited, prepare tasks s o⟩ = 0 := rfl
    have h2 : slack ⟨.body, s⟩ = 1 := rfl
    omega

theorem runFrom_slack {tasks : TaskSet} (os : List Oracle) :
    ∀ {c c' : Config} {tr : List Event}, runFrom tasks c os = some (c', tr) →
      os.length + slack c' ≤ slack c + 3 * ((starts tr).length + (dones tr).length) := by
  induction os with
  | nil =>
    intro c c' tr h
    simp only [runFrom, Option.some.injEq, Prod.mk.injEq] at h
    obtain ⟨rfl, rfl⟩ := h
    simp
  | cons o rest ih =>
    intro c c' tr h
    simp only [runFrom] at h
    cases hs : step tasks c o with
    | none => rw [hs] at h; exact Option.noConfusion h
    | some r =>
      obtain ⟨c1, ev⟩ := r
      rw [hs] at h
      dsimp only at h
      cases hrest : runFrom tasks c1 rest with
      | none => rw [hrest] at h; exact Option.noConfusion h
      | some r2 =>
        obtain ⟨c2, tr2⟩ := r2
        rw [hrest] at h
        simp only [Option.some.injEq, Prod.mk.injEq] at h
        obtain ⟨rfl, rfl⟩ := h
        have a := step_slack (step_sound hs)
        have b := ih hrest
        rw [starts_append, dones_append, List.length_append, List.length_append,
          List.length_cons]
        omega

theorem starts_length_le {tasks : TaskSet} {c : Config} {tr : List Event}
    (hr : Reaches tasks c tr) : (starts tr).length ≤ mapLen tasks.tasks := by
  have hh := reaches_hist hr
  unfold mapLen
  apply List.Subperm.length_le
  apply List.subperm_of_subset hh.starts_nodup
  intro n hn
  exact (mem_mapKeys _ _).mpr (hh.start_task n hn).1

/-- A run with a caller that reports each started name at most once has at most
`6 * len(tasks) + 2` steps. -/
theorem run_length_le {tasks : TaskSet} {os : List Oracle} {c : Config} {tr : List Event}
    (h : Start tasks os = some (c, tr)) (hd : reportsOnce tr = true) :
    os.length ≤ 6 * mapLen tasks.tasks + 2 := by
  have hr := reaches_of_start h
  have h1 := runFrom_slack os h
  have h2 : slack Config.init = 2 := rfl
  have h3 := starts_length_le hr
  obtain ⟨d1, d2, _⟩ := (reportsOnce_iff tr).mp hd
  have h4 : (dones tr).length ≤ (starts tr).length :=
    List.Subperm.length_le (List.subperm_of_subset d2 (reportsEmitted_dones d1))
  omega

/-! ## The loop can always go on -/

theorem prepare_choice (tasks : TaskSet) (s : Sched) (o : Oracle) (ch : Choice) :
    prepare tasks s { o with choice := ch } = prepare tasks s o := rfl

theorem step_body_send {tasks : TaskSet} {s : Sched} {o : Oracle} (hc : o.choice = .send)
    (hp : pickNext tasks (prepare tasks s o) o.readyPrio ≠ "") :
    step tasks ⟨.body, s⟩ o =
      some (⟨.drain, markStarted (prepare tasks s o)
        (pickNext tasks (prepare tasks s o) o.readyPrio)⟩,
        [.start (pickNext tasks (prepare tasks s o) o.readyPrio)]) := by
  simp only [step, loopBody]
  change (if pickNext tasks (prepare tasks s o) o.readyPrio ≠ "" then _ else _) = _
  rw [if_pos hp, hc]
  rfl

theorem step_body_recv {tasks : TaskSet} {s : Sched} {o : Oracle} {v : String}
    (hc : o.choice = .recv v)
    (hp : pickNext tasks (prepare tasks s o) o.readyPrio = "")
    (hl : mapLen (prepare tasks s o).startedTasks > 0) :
    step tasks ⟨.body, s⟩ o = some (stash (prepare tasks s o) v, [.done v]) := by
  simp only [step, loopBody]
  change (if pickNext tasks (prepare tasks s o) o.readyPrio ≠ "" then _ else _) = _
  rw [if_neg (not_not.mpr hp)]
  change (if mapLen (prepare tasks s o).startedTasks > 0 then _ else _) = _
  rw [if_pos hl, hc]
  rfl

theorem step_body_exit {tasks : TaskSet} {s : Sched} {o : Oracle}
    (hp : pickNext tasks (prepare tasks s o) o.readyPrio = "")
    (hl : ¬ mapLen (prepare tasks s o).startedTasks > 0) :
    step tasks ⟨.body, s⟩ o = some (⟨.exited, prepare tasks s o⟩, [.startClosed]) := by
  simp only [step, loopBody]
  change (if pickNext tasks (prepare tasks s o) o.readyPrio ≠ "" then _ else _) = _
  rw [if_neg (not_not.mpr hp)]
  change (if mapLen (prepare tasks s o).startedTasks > 0 then _ else _) = _
  rw [if_neg hl]
  rfl

theorem exists_has_of_len_pos {K V : Type} [DecidableEq K] (m : GoMap K V)
    (h : mapLen m > 0) : ∃ k, mapHas m k = true := by
  unfold mapLen at h
  obtain ⟨k, hk⟩ := List.exists_mem_of_length_pos h
  exact ⟨k, (mem_mapKeys m k).mp hk⟩

/-- While the goroutine has not returned, a next step is possible with a caller
that reports started names once: when it waits for a completion some started
task has not been reported yet. -/
theorem disciplined_progress {tasks : TaskSet} {c : Config} {tr : List Event}
    (hr : Reaches tasks c tr) (hd : reportsOnce tr = true) (hne : c.loc ≠ .exited) :
    ∃ o c' ev, step tasks c o = some (c', ev) ∧ reportsOnce (tr ++ ev) = true := by
  obtain ⟨d1, d2, d3⟩ := (reportsOnce_iff tr).mp hd
  have hdisc := reaches_disc hr d1
  have hhist := reaches_hist hr
  obtain ⟨loc, s⟩ := c
  cases loc with
  | exited => exact absurd rfl hne
  | stuck => exact absurd rfl hdisc.not_stuck
  | drain =>
    cases hp : s.peeked with
    | none =>
      refine ⟨Oracle.plain .dflt, ⟨.body, s⟩, [], ?_, by simpa using hd⟩
      simp [step, drainSelect, Oracle.plain, hp]
    | some v =>
      refine ⟨Oracle.plain .peek, afterReceive { s with peeked := none } v, [], ?_,
        by simpa using hd⟩
      simp [step, drainSelect, Oracle.plain, hp]
  | body =>
    by_cases hp : pickNext tasks (prepare tasks s (Oracle.plain .send))
        (Oracle.plain .send).readyPrio ≠ ""
    · refine ⟨Oracle.plain .send, _, _, step_body_send rfl hp, ?_⟩
      rw [reportsOnce_iff]
      refine ⟨reportsEmitted_snoc_start _ d1, ?_, ?_⟩
      · rw [dones_append]
        simpa [dones] using d2
      · simpa using d3
    · have hp' := not_not.mp hp
      by_cases hl : mapLen (prepare tasks s (Oracle.plain .send)).startedTasks > 0
      · obtain ⟨v, hv⟩ := exists_has_of_len_pos _ hl
        rw [prepare_started] at hv
        have hv1 : v ∈ starts tr := hhist.started_start v hv
        have hv2 : v ∉ dones tr := by
          intro hmem
          rcases hdisc.done_cases v hmem with h1 | h1
          · rw [hdisc.started_open v hv] at h1
            exact Bool.noConfusion h1
          · rw [hdisc.body_clear rfl] at h1
            exact Option.noConfusion h1
        refine ⟨Oracle.plain (.recv v), _, _,
          step_body_recv (o := Oracle.plain (.recv v)) rfl hp' hl, ?_⟩
        rw [reportsOnce_iff]
        refine ⟨reportsEmitted_snoc_done_of d1 hv1, ?_, ?_⟩
        · rw [dones_append, List.nodup_append]
          refine ⟨d2, by simp [dones], ?_⟩
          intro a ha hb
          have : a = v := by simpa [dones] using hb
          rw [this] at ha
          exact hv2 ha
        · simpa using d3
      · refine ⟨Oracle.plain .send, _, _, step_body_exit hp' hl, ?_⟩
        rw [reportsOnce_iff]
        refine ⟨reportsEmitted_snoc_closed d1, ?_, ?_⟩
        · rw [dones_append]
          simpa [dones] using d2
        · simpa using d3

/-! ## Cycles in the dependency relation -/

/-- Whether `b` is a declared dependency of the task `a`, both being tasks of the set. -/
def depEdge (tasks : TaskSet) (a b : String) : Prop :=
  mapHas tasks.tasks a = true ∧ b ∈ taskDeps tasks a ∧ mapHas tasks.tasks b = true

/-- The dependency relation has no cycle. -/
def Acyclic (tasks : TaskSet) : Prop :=
  ∀ t, ¬ Relation.TransGen (depEdge tasks) t t

/-- In a set without dependency cycle, if every task that is not completed has
an uncompleted dependency in the set, then every task is completed. -/
theorem acyclic_all_completed {tasks : TaskSet} (hac : Acyclic tasks)
    (completed : GoMap String Unit)
    (hblocked : ∀ n, mapHas tasks.tasks n = true → mapHas completed n = false →
      ∃ dep ∈ taskDeps tasks n, mapHas tasks.tasks dep = true ∧ mapHas completed dep = false) :
    ∀ n, mapHas tasks.tasks n = true → mapHas completed n = true := by
  let S := { x // x ∈ mapKeys tasks.tasks }
  let r : S → S → Prop := fun a b => depEdge tasks b.1 a.1
  haveI : IsIrrefl S (Relation.TransGen r) := ⟨by
    intro a h
    have h1 : Relation.TransGen (Function.swap (depEdge tasks)) a.1 a.1 :=
      Relation.TransGen.lift Subtype.val (fun x y hxy => hxy) h
    exact hac a.1 (Relation.transGen_swap.mp h1)⟩
  have wf' : WellFounded (Relation.TransGen r) := Finite.wellFounded_of_trans_of_irrefl _
  have wf : WellFounded r := Subrelation.wf (fun h => Relation.TransGen.single h) wf'
  intro n hn
  have key : ∀ a : S, mapHas completed a.1 = true := by
    intro a
    refine wf.induction (C := fun a => mapHas completed a.1 = true) a ?_
    intro x ih
    cases hx : mapHas completed x.1 with
    | true => rfl
    | false =>
      exfalso
      have hxk := (mem_mapKeys _ _).mp x.2
      obtain ⟨dep, hdep, hd1, hd2⟩ := hblocked x.1 hxk hx
      have hdone : mapHas completed dep = true :=
        ih ⟨dep, (mem_mapKeys _ _).mpr hd1⟩ ⟨hxk, hdep, hd1⟩
      rw [hd2] at hdone
      exact Bool.noConfusion hdone
  exact key ⟨n, (mem_mapKeys _ _).mpr hn⟩

/-- A task from which a dependency cycle can be reached. -/
def Doomed (tasks : TaskSet) (n : String) : Prop :=
  ∃ cyc, Relation.ReflTransGen (depEdge tasks) n cyc ∧
    Relation.TransGen (depEdge tasks) cyc cyc

theorem doomed_dep {tasks : TaskSet} {n : String} (h : Doomed tasks n) :
    ∃ d, depEdge tasks n d ∧ Doomed tasks d := by
  obtain ⟨cyc, h1, h2⟩ := h
  rcases Relation.ReflTransGen.cases_head h1 with e | ⟨d, hd, hrest⟩
  · subst e
    obtain ⟨d, hd, hrest⟩ := Relation.TransGen.head'_iff.mp h2
    exact ⟨d, hd, n, hrest, h2⟩
  · exact ⟨d, hd, cyc, hrest, h2⟩

theorem mem_starts_append {n : String} {tr ev : List Event}
    (h : n ∈ starts (tr ++ ev)) : n ∈ starts tr ∨ Event.start n ∈ ev := by
  rw [starts_append] at h
  rcases List.mem_append.mp h with h1 | h1
  · exact Or.inl h1
  · exact Or.inr ((mem_starts n ev).mp h1)

/-- With a caller that reports only started names, a task from which a
dependency cycle can be reached is never started. -/
theorem doomed_not_started {tasks : TaskSet} {c : Config} {tr : List Event}
    (h : Reaches tasks c tr) :
    reportsEmitted tr = true → ∀ n, Doomed tasks n → n ∉ starts tr := by
  induction h with
  | init =>
    intro _ n _ hn
    simp [starts] at hn
  | @next c c' tr ev hr hs ih =>
    intro hd n hdoom hn
    have hd0 := reportsEmitted_left hd
    rcases mem_starts_append hn with h1 | h1
    · exact ih hd0 n hdoom h1
    · obtain ⟨d, ⟨_, hdep, hdt⟩, hdd⟩ := doomed_dep hdoom
      have hcomp := (step_start hs (reaches_inv hr) h1).2 d hdep hdt
      have := reportsEmitted_dones hd0 d ((reaches_hist hr).completed_done d hcomp)
      exact ih hd0 d hdd this

/-! ## The order of two start events -/

theorem starts_split {tr : List Event} {p q : List String} {b : String}
    (h : starts tr = p ++ b :: q) :
    ∃ pre post, tr = pre ++ Event.start b :: post ∧ starts pre = p := by
  induction tr generalizing p with
  | nil =>
    simp [starts] at h
  | cons e rest ih =>
    cases e with
    | start n =>
      simp only [starts] at h
      cases p with
      | nil =>
        simp only [List.nil_append, List.cons.injEq] at h
        exact ⟨[], rest, by rw [h.1]; rfl, rfl⟩
      | cons x p' =>
        simp only [List.cons_append, List.cons.injEq] at h
        obtain ⟨pre, post, h1, h2⟩ := ih h.2
        exact ⟨Event.start n :: pre, post, by rw [h1]; rfl, by simp [starts, h2, h.1]⟩
    | done v =>
      simp only [starts] at h
      obtain ⟨pre, post, h1, h2⟩ := ih h
      exact ⟨Event.done v :: pre, post, by rw [h1]; rfl, by simp [starts, h2]⟩
    | doneClosed =>
      simp only [starts] at h
      obtain ⟨pre, post, h1, h2⟩ := ih h
      exact ⟨Event.doneClosed :: pre, post, by rw [h1]; rfl, by simp [starts, h2]⟩
    | startClosed =>
      simp only [starts] at h
      obtain ⟨pre, post, h1, h2⟩ := ih h
      exact ⟨Event.startClosed :: pre, post, by rw [h1]; rfl, by simp [starts, h2]⟩

/-- With a caller that reports only started names, a dependency is started
before the task that depends on it. -/
theorem dep_started_before {tasks : TaskSet} {c : Config} {tr : List Event}
    (hr : Reaches tasks c tr) (hd : reportsEmitted tr = true) {a b : String}
    (hdep : a ∈ taskDeps tasks b) (ha : mapHas tasks.tasks a = true)
    {p q : List String} (h : starts tr = p ++ b :: q) : a ∈ p := by
  obtain ⟨pre, post, h1, h2⟩ := starts_split h
  have h3 := reaches_depsBeforeStart hr pre b post h1 a hdep ha
  rw [h1] at hd
  rw [← h2]
  exact reportsEmitted_dones (reportsEmitted_left hd) a h3

theorem eq_pair_of_order {l : List String} {a b : String} (hnd : l.Nodup)
    (hsub : ∀ n ∈ l, n = a ∨ n = b) (ha : a ∈ l) (hb : b ∈ l)
    (hord : ∀ p q, l = p ++ b :: q → a ∈ p) : l = [a, b] := by
  have hab : a ≠ b := by
    intro e
    obtain ⟨p, q, hpq⟩ := List.append_of_mem hb
    have h1 := hord p q hpq
    have h1' : b ∈ p := by rw [← e]; exact h1
    rw [hpq] at hnd
    exact (List.nodup_append.mp hnd).2.2 h1' (List.mem_cons_self _ _)
  cases l with
  | nil => exact absurd ha (List.not_mem_nil _)
  | cons x rest =>
    have hx : x = a := by
      rcases hsub x (List.mem_cons_self _ _) with e | e
      · exact e
      · have := hord [] rest (by rw [e]; rfl)
        exact absurd this (List.not_mem_nil _)
    subst hx
    have hnd' := List.nodup_cons.mp hnd
    have hb' : b ∈ rest := by
      rcases List.mem_cons.mp hb with e | e
      · exact absurd e.symm hab
      · exact e
    cases rest with
    | nil => exact absurd hb' (List.not_mem_nil _)
    | cons y rest' =>
      have hy : y = b := by
        rcases hsub y (by simp) with e | e
        · exact absurd (by rw [e]; simp) hnd'.1
        · exact e
      subst hy
      cases rest' with
      | nil => rfl
      | cons z rest'' =>
        exfalso
        have hnd2 := List.nodup_cons.mp hnd'.2
        rcases hsub z (by simp) with e | e
        · exact hnd'.1 (by rw [e]; simp)
        · exact hnd2.1 (by rw [e]; simp)

end Taskqueue

namespace Taskqueue

/-! ## Runs with a caller that reports each started task once -/

theorem fromList_fill {ts : List Task} {prio : String → Nat} {tasks : TaskSet}
    (h : FromList ts prio = (tasks, none)) : fromListFill [] ts = .ok tasks.tasks := by
  unfold FromList at h
  cases hfill : fromListFill [] ts with
  | error e =>
    rw [hfill] at h
    simp at h
  | ok set' =>
    rw [hfill] at h
    dsimp only at h
    cases hdeps : depsCheckFails prio set' with
    | true =>
      rw [hdeps] at h
      simp at h
    | false =>
      rw [hdeps] at h
      simp only [Bool.false_eq_true, if_false, Prod.mk.injEq, and_true] at h
      rw [← h]

theorem fromList_names {ts : List Task} {prio : String → Nat} {tasks : TaskSet}
    (h : FromList ts prio = (tasks, none)) :
    mapHas tasks.tasks "" = false ∧ (∀ k, mapHas tasks.tasks k = true ↔ k ∈ ts.map Task.Name) ∧
      (ts.map Task.Name).Nodup := by
  have hfill := fromList_fill h
  have hok := (fromListFill_ok_iff ts []).mp ⟨_, hfill⟩
  have hhas : ∀ k, mapHas tasks.tasks k = true ↔ k ∈ ts.map Task.Name := by
    intro k
    rw [fromListFill_has ts _ hfill k, List.mem_map]
  refine ⟨?_, hhas, hok.2.1⟩
  cases hx : mapHas tasks.tasks "" with
  | false => rfl
  | true =>
    obtain ⟨t, ht, e⟩ := List.mem_map.mp ((hhas "").mp hx)
    exact absurd e (hok.1 t ht)

theorem fromList_deps {ts : List Task} {prio : String → Nat} {tasks : TaskSet}
    (h : FromList ts prio = (tasks, none)) {t : Task} (ht : t ∈ ts) :
    taskDeps tasks t.Name = t.Deps := by
  unfold taskDeps mapGet
  rw [fromListFill_lookup_mem ts [] _ (fromList_fill h) t ht]
  rfl

/-- With a caller that reports started names once and nothing else, a run that
has returned on a set without empty name and without dependency cycle has
started exactly the tasks of the set. -/
theorem exited_started_all {tasks : TaskSet} {c : Config} {tr : List Event}
    (hr : Reaches tasks c tr) (hd : reportsOnce tr = true)
    (hnames : mapHas tasks.tasks "" = false) (hac : Acyclic tasks) (hexit : c.loc = .exited) :
    (starts tr).Nodup ∧ ∀ n, n ∈ starts tr ↔ mapHas tasks.tasks n = true := by
  obtain ⟨d1, d2, d3⟩ := (reportsOnce_iff tr).mp hd
  have hh := reaches_hist hr
  have ht := (reaches_exitInv hr).terminal hexit d3 hnames
  have hall := acyclic_all_completed hac c.sched.completedTasks ht.rest_blocked
  refine ⟨hh.starts_nodup, fun n => ⟨fun hn => (hh.start_task n hn).1, fun hn => ?_⟩⟩
  exact reportsEmitted_dones d1 n (hh.completed_done n (hall n hn))

/-- The list form of the task set of `TestStartsTaskInOrder`. -/
def orderedPair : List Task :=
  [{ Name := "task1", Deps := [], Group := "" },
   { Name := "task2", Deps := ["task1"], Group := "" }]

/-- The task set that `FromList` builds from `orderedPair`. -/
def orderedTasks : TaskSet :=
  { tasks := [("task2", { Name := "task2", Deps := ["task1"], Group := "" }),
              ("task1", { Name := "task1", Deps := [], Group := "" })] }

/-- Claim C3: for every task graph accepted by `FromList` whose dependency
relation has no cycle, with a caller that reports each emitted name once and
nothing else (and does not close the done channel), the scheduler never blocks
for ever and takes at most `6 * len(tasks) + 2` steps, can always take a next
step until it returns, and when it has returned it has emitted every task of
the list exactly once and then closed the start feed; for the list
task1, task2 depending on task1, the emitted sequence is task1, task2. -/
theorem disciplined_run_emits_all (ts : List Task) (prio : String → Nat) (tasks : TaskSet)
    (hok : FromList ts prio = (tasks, none)) (hacyc : Acyclic tasks)
    (os : List Oracle) (c : Config) (tr : List Event)
    (h : Start tasks os = some (c, tr)) (hd : reportsOnce tr = true) :
    os.length ≤ 6 * mapLen tasks.tasks + 2 ∧
    c.loc ≠ .stuck ∧
    (c.loc ≠ .exited →
      ∃ o c' ev, step tasks c o = some (c', ev) ∧ reportsOnce (tr ++ ev) = true) ∧
    (c.loc = .exited →
      (starts tr).Perm (ts.map Task.Name) ∧
      ∃ tr0, tr = tr0 ++ [Event.startClosed] ∧ Event.startClosed ∉ tr0) ∧
    (ts = orderedPair → c.loc = .exited → starts tr = ["task1", "task2"]) := by
  have hr := reaches_of_start h
  obtain ⟨d1, d2, d3⟩ := (reportsOnce_iff tr).mp hd
  obtain ⟨n1, n2, n3⟩ := fromList_names hok
  have hperm : c.loc = .exited → (starts tr).Perm (ts.map Task.Name) := by
    intro hexit
    obtain ⟨e1, e2⟩ := exited_started_all hr hd n1 hacyc hexit
    rw [List.perm_ext_iff_of_nodup e1 n3]
    intro a
    rw [e2 a, n2 a]
  refine ⟨run_length_le h hd, (reaches_disc hr d1).not_stuck,
    fun hne => disciplined_progress hr hd hne,
    fun hexit => ⟨hperm hexit, (reaches_exitInv hr).exited hexit⟩, ?_⟩
  intro hts hexit
  subst hts
  have hp := hperm hexit
  have hmem : ∀ n, n ∈ starts tr ↔ n ∈ orderedPair.map Task.Name := fun n => hp.mem_iff
  apply eq_pair_of_order (reaches_hist hr).starts_nodup
  · intro n hn
    have := (hmem n).mp hn
    simpa [orderedPair] using this
  · exact (hmem _).mpr (by simp [orderedPair])
  · exact (hmem _).mpr (by simp [orderedPair])
  · intro p q hpq
    have hdeps : taskDeps tasks "task2" = ["task1"] :=
      fromList_deps hok (t := { Name := "task2", Deps := ["task1"], Group := "" })
        (by simp [orderedPair])
    exact dep_started_before hr d1 (by rw [hdeps]; simp)
      ((n2 "task1").mpr (by simp [orderedPair])) hpq

theorem acyclic_of_rank {tasks : TaskSet} (rank : String → Nat)
    (h : ∀ a b, depEdge tasks a b → rank b < rank a) : Acyclic tasks := by
  have key : ∀ a b, Relation.TransGen (depEdge tasks) a b → rank b < rank a := by
    intro a b hab
    induction hab with
    | single hxy => exact h _ _ hxy
    | tail _ hyz ih => exact lt_trans (h _ _ hyz) ih
  intro t ht
  exact absurd (key t t ht) (lt_irrefl _)

theorem acyclic_orderedTasks : Acyclic orderedTasks := by
  apply acyclic_of_rank (fun n => if n = "task2" then 1 else 0)
  rintro a b ⟨ha, hb, _⟩
  have hmem := (mapHas_iff_mem _ _).mp ha
  simp only [orderedTasks, List.map_cons, List.map_nil, List.mem_cons, List.mem_singleton,
    List.not_mem_nil, or_false] at hmem
  rcases hmem with e | e
  · subst e
    have : b = "task1" := by
      simpa [taskDeps, mapGet, mapLookup, orderedTasks] using hb
    subst this
    decide
  · subst e
    simp [taskDeps, mapGet, mapLookup, orderedTasks] at hb

/-- Witness for C3: the completed run of the list task1, task2. -/
theorem disciplined_run_emits_all_witness :
    FromList orderedPair (fun _ => 0) = (orderedTasks, none) ∧
    Start orderedTasks demoRun = some (demoEnd, demoTrace) ∧
    reportsOnce demoTrace = true ∧
    (demoRun.length ≤ 6 * mapLen orderedTasks.tasks + 2 ∧
    demoEnd.loc ≠ .stuck ∧
    (demoEnd.loc ≠ .exited →
      ∃ o c' ev, step orderedTasks demoEnd o = some (c', ev) ∧
        reportsOnce (demoTrace ++ ev) = true) ∧
    (demoEnd.loc = .exited →
      (starts demoTrace).Perm (orderedPair.map Task.Name) ∧
      ∃ tr0, demoTrace = tr0 ++ [Event.startClosed] ∧ Event.startClosed ∉ tr0) ∧
    (orderedPair = orderedPair → demoEnd.loc = .exited →
      starts demoTrace = ["task1", "task2"])) :=
  ⟨by decide, by decide, by decide,
    disciplined_run_emits_all orderedPair (fun _ => 0) orderedTasks (by decide)
      acyclic_orderedTasks demoRun demoEnd demoTrace (by decide) (by decide)⟩

/-! ## The package example: a self-dependency -/

/-- The task set of the package example, as built by `FromList`. -/
def exampleTasks : TaskSet :=
  (FromList exampleList (fun _ => 0)).1

/-- The run of the package example in which every started task is reported. -/
def exampleRun : List Oracle :=
  [.plain .dflt, .plain .send, .plain (.recv "init"), .plain .dflt,
   .plain .send, .plain (.recv "partA"), .plain .dflt, .plain .dflt]

/-- The variables at the end of `exampleRun`. -/
def exampleEnd : Config :=
  { loc := .exited,
    sched := { currentGroup := "", groupTasksStarted := 0, readyTasks := [],
               groupReadyCount := [("", 0)], startedTasks := [],
               completedTasks := [("partA", ()), ("init", ())], peeked := none } }

/-- The events of `exampleRun`. -/
def exampleTrace : List Event :=
  [.start "init", .done "init", .start "partA", .done "partA", .startClosed]

theorem exampleTasks_has (n : String) :
    mapHas exampleTasks.tasks n = true ↔
      n = "finalize" ∨ n = "partB" ∨ n = "partA" ∨ n = "init" := by
  rw [mapHas_iff_mem]
  have : exampleTasks.tasks.map Prod.fst = ["finalize", "partB", "partA", "init"] := by decide
  rw [this]
  simp

theorem doomed_partB : Doomed exampleTasks "partB" :=
  ⟨"partB", Relation.ReflTransGen.refl,
    Relation.TransGen.single ⟨by decide, by decide, by decide⟩⟩

theorem doomed_finalize : Doomed exampleTasks "finalize" :=
  ⟨"partB", Relation.ReflTransGen.single ⟨by decide, by decide, by decide⟩,
    Relation.TransGen.single ⟨by decide, by decide, by decide⟩⟩

/-- Claim C4: with a caller that reports only names previously emitted on the
start feed, a task that depends on itself, and a task from which a dependency
cycle is reached through declared dependencies, is never emitted; for the
graph of the package example only init and partA are ever emitted, and with a
caller that reports each of them once the loop takes at most 26 steps, can
always go on until it returns, and has then emitted init, partA. -/
theorem cyclic_tasks_never_start (tasks : TaskSet) (os : List Oracle) (c : Config)
    (tr : List Event) (h : Start tasks os = some (c, tr)) (hd : reportsEmitted tr = true) :
    (∀ n, mapHas tasks.tasks n = true → n ∈ taskDeps tasks n → n ∉ starts tr) ∧
    (∀ n cyc, Relation.ReflTransGen (depEdge tasks) n cyc →
      Relation.TransGen (depEdge tasks) cyc cyc → n ∉ starts tr) ∧
    (tasks = exampleTasks →
      (∀ n ∈ starts tr, n = "init" ∨ n = "partA") ∧
      (reportsOnce tr = true →
        os.length ≤ 26 ∧ c.loc ≠ .stuck ∧
        (c.loc ≠ .exited →
          ∃ o c' ev, step tasks c o = some (c', ev) ∧ reportsOnce (tr ++ ev) = true) ∧
        (c.loc = .exited → starts tr = ["init", "partA"]))) := by
  have hr := reaches_of_start h
  have hdoom := doomed_not_started hr hd
  refine ⟨?_, fun n cyc h1 h2 => hdoom n ⟨cyc, h1, h2⟩, ?_⟩
  · intro n hn hself
    exact hdoom n ⟨n, Relation.ReflTransGen.refl, Relation.TransGen.single ⟨hn, hself, hn⟩⟩
  · intro htasks
    subst htasks
    have hh := reaches_hist hr
    have hsub : ∀ n ∈ starts tr, n = "init" ∨ n = "partA" := by
      intro n hn
      rcases (exampleTasks_has n).mp (hh.start_task n hn).1 with e | e | e | e
      · rw [e] at hn
        exact absurd hn (hdoom _ doomed_finalize)
      · rw [e] at hn
        exact absurd hn (hdoom _ doomed_partB)
      · exact Or.inr e
      · exact Or.inl e
    refine ⟨hsub, ?_⟩
    intro hd1
    have hlen := run_length_le h hd1
    have h4 : mapLen exampleTasks.tasks = 4 := by decide
    rw [h4] at hlen
    refine ⟨hlen, (reaches_disc hr hd).not_stuck, fun hne => disciplined_progress hr hd1 hne, ?_⟩
    intro hexit
    obtain ⟨_, _, d3⟩ := (reportsOnce_iff tr).mp hd1
    have ht := (reaches_exitInv hr).terminal hexit d3 (by decide)
    have hinit : mapHas c.sched.completedTasks "init" = true := by
      cases hx : mapHas c.sched.completedTasks "init" with
      | true => rfl
      | false =>
        obtain ⟨dep, hdep, _⟩ := ht.rest_blocked "init" (by decide) hx
        have e : taskDeps exampleTasks "init" = [] := by decide
        rw [e] at hdep
        exact absurd hdep (List.not_mem_nil _)
    have hpartA : mapHas c.sched.completedTasks "partA" = true := by
      cases hx : mapHas c.sched.completedTasks "partA" with
      | true => rfl
      | false =>
        obtain ⟨dep, hdep, _, hno⟩ := ht.rest_blocked "partA" (by decide) hx
        have e : taskDeps exampleTasks "partA" = ["init"] := by decide
        rw [e] at hdep
        have : dep = "init" := by simpa using hdep
        rw [this, hinit] at hno
        exact Bool.noConfusion hno
    apply eq_pair_of_order hh.starts_nodup hsub
    · exact reportsEmitted_dones hd _ (hh.completed_done _ hinit)
    · exact reportsEmitted_dones hd _ (hh.completed_done _ hpartA)
    · intro p q hpq
      exact dep_started_before hr hd (by decide) (by decide) hpq

/-- Witness for C4: the run of the package example to its return. -/
theorem cyclic_tasks_never_start_witness :
    Start exampleTasks exampleRun = some (exampleEnd, exampleTrace) ∧
    reportsEmitted exampleTrace = true ∧ reportsOnce exampleTrace = true ∧
    "partB" ∉ starts exampleTrace ∧ "finalize" ∉ starts exampleTrace ∧
    starts exampleTrace = ["init", "partA"] :=
  have hw := cyclic_tasks_never_start exampleTasks exampleRun exampleEnd exampleTrace
    (by decide) (by decide)
  ⟨by decide, by decide, by decide,
    hw.1 "partB" (by decide) (by decide),
    hw.2.1 "finalize" "partB" (Relation.ReflTransGen.single ⟨by decide, by decide, by decide⟩)
      (Relation.TransGen.single ⟨by decide, by decide, by decide⟩),
    (hw.2.2 rfl).2 (by decide) |>.2.2.2 rfl⟩

end Taskqueue

namespace Taskqueue

/-! ## FromMap -/

/-- The first loop of `FromMap`, over the keys in range order: an empty key is
rejected, and so is a non-empty `Name` field that differs from the key. -/
def fromMapNames (tasks : GoMap String Task) : List String → Option TaskError
  | [] => none
  | name :: rest =>
    if name = "" then some .ErrEmptyName
    else if (mapGet tasks name).Name ≠ "" ∧ (mapGet tasks name).Name ≠ name then
      some .ErrNameMismatch
    else fromMapNames tasks rest

/-- Source: `FromMap`. The two `range` loops each have their own order. -/
def FromMap (tasks : GoMap String Task) (prio1 prio2 : String → Nat) :
    TaskSet × Option TaskError :=
  match fromMapNames tasks (rangeOrder prio1 tasks) with
  | some e => (default, some e)
  | none =>
    if depsCheckFails prio2 tasks then (default, some .ErrUnknownDep)
    else ({ tasks := tasks }, none)

theorem fromMapNames_cases (tasks : GoMap String Task) (l : List String) :
    fromMapNames tasks l = none ∨ fromMapNames tasks l = some .ErrEmptyName ∨
      fromMapNames tasks l = some .ErrNameMismatch := by
  induction l with
  | nil => exact Or.inl rfl
  | cons name rest ih =>
    unfold fromMapNames
    split
    · exact Or.inr (Or.inl rfl)
    · split
      · exact Or.inr (Or.inr rfl)
      · exact ih

theorem fromMapNames_none (tasks : GoMap String Task) (l : List String) :
    fromMapNames tasks l = none ↔
      ∀ name ∈ l, name ≠ "" ∧
        ¬ ((mapGet tasks name).Name ≠ "" ∧ (mapGet tasks name).Name ≠ name) := by
  induction l with
  | nil => simp [fromMapNames]
  | cons name rest ih =>
    unfold fromMapNames
    by_cases h1 : name = ""
    · simp [h1]
    · by_cases h2 : (mapGet tasks name).Name ≠ "" ∧ (mapGet tasks name).Name ≠ name
      · rw [if_neg h1, if_pos h2]
        constructor
        · intro h; exact Option.noConfusion h
        · intro h
          exact absurd h2 (h name (List.mem_cons_self _ _)).2
      · rw [if_neg h1, if_neg h2, ih]
        constructor
        · intro h n hn
          rcases List.mem_cons.mp hn with e | e
          · rw [e]; exact ⟨h1, h2⟩
          · exact h n e
        · intro h n hn
          exact h n (List.mem_cons_of_mem _ hn)

theorem fromMapNames_no_empty (tasks : GoMap String Task) (l : List String)
    (h : ∀ name ∈ l, name ≠ "") : fromMapNames tasks l ≠ some .ErrEmptyName := by
  induction l with
  | nil => simp [fromMapNames]
  | cons name rest ih =>
    unfold fromMapNames
    rw [if_neg (h name (List.mem_cons_self _ _))]
    split
    · simp
    · exact ih (fun n hn => h n (List.mem_cons_of_mem _ hn))

/-- Counterexample for C11: the task stored under `a` has the empty `Name`
field, which disagrees with its key, and `FromMap` accepts the map. -/
theorem fromMap_accepts_empty_name :
    mapHas ([("a", (default : Task))] : GoMap String Task) "" = false ∧
    (mapGet ([("a", (default : Task))] : GoMap String Task) "a").Name ≠ "a" ∧
    FromMap [("a", default)] (fun _ => 0) (fun _ => 0) =
      ({ tasks := [("a", default)] }, none) := by
  decide

/-- Claim C11, amended: for every map of tasks that has no empty key,
`FromMap` fails with `ErrNameMismatch`, returning the empty task set, if and
only if some task has a non-empty `Name` field that differs from the key it is
stored under, whatever the iteration order; an empty `Name` field is accepted
under any key: when every `Name` field is empty or equal to its key and every
dependency is a key of the map, `FromMap` succeeds and returns the input
map. -/
theorem fromMap_name_mismatch (tasks : GoMap String Task) (prio1 prio2 : String → Nat)
    (hkeys : mapHas tasks "" = false) :
    ((∃ k, mapHas tasks k = true ∧ (mapGet tasks k).Name ≠ "" ∧ (mapGet tasks k).Name ≠ k) →
      FromMap tasks prio1 prio2 = (default, some .ErrNameMismatch)) ∧
    ((FromMap tasks prio1 prio2).2 = some .ErrNameMismatch →
      ∃ k, mapHas tasks k = true ∧ (mapGet tasks k).Name ≠ "" ∧ (mapGet tasks k).Name ≠ k) ∧
    ((∀ k, mapHas tasks k = true → (mapGet tasks k).Name = "" ∨ (mapGet tasks k).Name = k) →
      (∀ k, mapHas tasks k = true → ∀ dep ∈ (mapGet tasks k).Deps, mapHas tasks dep = true) →
      FromMap tasks prio1 prio2 = ({ tasks := tasks }, none)) := by
  have hno : fromMapNames tasks (rangeOrder prio1 tasks) ≠ some .ErrEmptyName := by
    apply fromMapNames_no_empty
    intro name hname e
    rw [e, mem_rangeOrder, hkeys] at hname
    exact Bool.noConfusion hname
  have hiff : fromMapNames tasks (rangeOrder prio1 tasks) = none ↔
      ∀ k, mapHas tasks k = true → (mapGet tasks k).Name = "" ∨ (mapGet tasks k).Name = k := by
    rw [fromMapNames_none]
    constructor
    · intro h k hk
      have := (h k ((mem_rangeOrder _ _ _).mpr hk)).2
      by_cases e : (mapGet tasks k).Name = ""
      · exact Or.inl e
      · by_cases e2 : (mapGet tasks k).Name = k
        · exact Or.inr e2
        · exact absurd ⟨e, e2⟩ this
    · intro h k hk
      have hk2 := (mem_rangeOrder _ _ _).mp hk
      refine ⟨?_, ?_⟩
      · intro e
        rw [e, hkeys] at hk2
        exact Bool.noConfusion hk2
      · rintro ⟨a, b⟩
        rcases h k hk2 with e | e
        · exact a e
        · exact b e
  refine ⟨?_, ?_, ?_⟩
  · rintro ⟨k, hk, hne, hdiff⟩
    unfold FromMap
    rcases fromMapNames_cases tasks (rangeOrder prio1 tasks) with h | h | h
    · rcases hiff.mp h k hk with e | e
      · exact absurd e hne
      · exact absurd e hdiff
    · exact absurd h hno
    · rw [h]
  · intro herr
    by_contra hall
    have hnone : fromMapNames tasks (rangeOrder prio1 tasks) = none := by
      rw [hiff]
      intro k hk
      by_cases e : (mapGet tasks k).Name = ""
      · exact Or.inl e
      · by_cases e2 : (mapGet tasks k).Name = k
        · exact Or.inr e2
        · exact absurd ⟨k, hk, e, e2⟩ hall
    unfold FromMap at herr
    rw [hnone] at herr
    dsimp only at herr
    by_cases hd : depsCheckFails prio2 tasks = true
    · rw [if_pos hd] at herr
      exact TaskError.noConfusion (Option.some.inj herr)
    · rw [if_neg hd] at herr
      exact Option.noConfusion herr
  · intro hnames hdeps
    unfold FromMap
    rw [hiff.mpr hnames]
    dsimp only
    have hd : ¬ depsCheckFails prio2 tasks = true := by
      rw [depsCheckFails_iff]
      rintro ⟨name, hname, dep, hdep, hx⟩
      rw [hdeps name hname dep hdep] at hx
      exact Bool.noConfusion hx
    rw [if_neg hd]

/-- A map whose one task names itself differently from its key. -/
def mismatchMap : GoMap String Task :=
  [("a", { Name := "b", Deps := [], Group := "" })]

/-- A map whose task `a` has the empty `Name` field and whose task `b` names
itself. -/
def unnamedMap : GoMap String Task :=
  [("a", { Name := "", Deps := ["b"], Group := "" }),
   ("b", { Name := "b", Deps := [], Group := "" })]

/-- Witness for C11 amended: a rejected map and an accepted one with an empty
`Name` field. -/
theorem fromMap_name_mismatch_witness :
    mapHas mismatchMap "" = false ∧ mapHas mismatchMap "a" = true ∧
    (mapGet mismatchMap "a").Name ≠ "" ∧ (mapGet mismatchMap "a").Name ≠ "a" ∧
    FromMap mismatchMap (fun _ => 0) (fun _ => 0) = (default, some .ErrNameMismatch) ∧
    mapHas unnamedMap "" = false ∧ (mapGet unnamedMap "a").Name = "" ∧
    FromMap unnamedMap (fun _ => 0) (fun _ => 0) = ({ tasks := unnamedMap }, none) :=
  ⟨by decide, by decide, by decide, by decide,
    (fromMap_name_mismatch mismatchMap (fun _ => 0) (fun _ => 0) (by decide)).1
      ⟨"a", by decide, by decide, by decide⟩,
    by decide, by decide,
    (fromMap_name_mismatch unnamedMap (fun _ => 0) (fun _ => 0) (by decide)).2.2
      (fun k hk => (by decide : ∀ k ∈ mapKeys unnamedMap,
        (mapGet unnamedMap k).Name = "" ∨ (mapGet unnamedMap k).Name = k) k
        ((mem_mapKeys _ _).mpr hk))
      (fun k hk => (by decide : ∀ k ∈ mapKeys unnamedMap,
        ∀ dep ∈ (mapGet unnamedMap k).Deps, mapHas unnamedMap dep = true) k
        ((mem_mapKeys _ _).mpr hk))⟩

/-- Claim C12: whenever `FromMap` succeeds the returned task set is exactly the
input map, no key of it is empty and every dependency of every task is a key
of the map; whenever it fails it returns the empty task set together with one
of `ErrEmptyName`, `ErrNameMismatch`, `ErrUnknownDep`. -/
theorem fromMap_all_or_nothing (tasks : GoMap String Task) (prio1 prio2 : String → Nat) :
    ((FromMap tasks prio1 prio2).2 = none →
      (FromMap tasks prio1 prio2).1 = { tasks := tasks } ∧ mapHas tasks "" = false ∧
      ∀ k, mapHas tasks k = true → ∀ dep ∈ (mapGet tasks k).Deps, mapHas tasks dep = true) ∧
    ((FromMap tasks prio1 prio2).2 ≠ none →
      (FromMap tasks prio1 prio2).1 = { tasks := [] } ∧
      ((FromMap tasks prio1 prio2).2 = some .ErrEmptyName ∨
        (FromMap tasks prio1 prio2).2 = some .ErrNameMismatch ∨
        (FromMap tasks prio1 prio2).2 = some .ErrUnknownDep)) := by
  unfold FromMap
  rcases fromMapNames_cases tasks (rangeOrder prio1 tasks) with h | h | h
  · rw [h]
    dsimp only
    by_cases hd : depsCheckFails prio2 tasks = true
    · rw [if_pos hd]
      exact ⟨fun e => Option.noConfusion e, fun _ => ⟨rfl, Or.inr (Or.inr rfl)⟩⟩
    · rw [if_neg hd]
      refine ⟨fun _ => ⟨rfl, ?_, ?_⟩, fun e => absurd rfl e⟩
      · cases hx : mapHas tasks "" with
        | false => rfl
        | true =>
          exact absurd rfl ((fromMapNames_none tasks _).mp h "" ((mem_rangeOrder _ _ _).mpr hx)).1
      · intro k hk dep hdep
        cases hx : mapHas tasks dep with
        | true => rfl
        | false =>
          exact absurd ((depsCheckFails_iff prio2 tasks).mpr ⟨k, hk, dep, hdep, hx⟩) hd
  · rw [h]
    exact ⟨fun e => Option.noConfusion e, fun _ => ⟨rfl, Or.inl rfl⟩⟩
  · rw [h]
    exact ⟨fun e => Option.noConfusion e, fun _ => ⟨rfl, Or.inr (Or.inl rfl)⟩⟩

/-- The map form of the task set of the package example. -/
def exampleMap : GoMap String Task :=
  [("finalize", { Name := "finalize", Deps := ["partA", "partB"], Group := "" }),
   ("partB", { Name := "", Deps := ["partB"], Group := "" }),
   ("partA", { Name := "partA", Deps := ["init"], Group := "" }),
   ("init", { Name := "", Deps := [], Group := "" })]

/-- Witness for C12: an accepted map and a rejected one. -/
theorem fromMap_all_or_nothing_witness :
    (FromMap exampleMap (fun _ => 0) (fun _ => 0)).2 = none ∧
    (FromMap exampleMap (fun _ => 0) (fun _ => 0)).1 = { tasks := exampleMap } ∧
    (FromMap mismatchMap (fun _ => 0) (fun _ => 0)).2 ≠ none ∧
    (FromMap mismatchMap (fun _ => 0) (fun _ => 0)).1 = { tasks := [] } :=
  ⟨by decide,
    ((fromMap_all_or_nothing exampleMap (fun _ => 0) (fun _ => 0)).1 (by decide)).1,
    by decide,
    ((fromMap_all_or_nothing mismatchMap (fun _ => 0) (fun _ => 0)).2 (by decide)).1⟩

end Taskqueue

namespace Taskqueue

/-! ## The readiness scan, exactly -/

/-- The test of the scan for one task: in none of the three sets, and every
dependency that is a task of the set is completed. -/
def NewlyReady (tasks : TaskSet) (s : Sched) (n : String) : Prop :=
  mapHas s.completedTasks n = false ∧ mapHas s.readyTasks n = false ∧
    mapHas s.startedTasks n = false ∧
    ∀ dep ∈ taskDeps tasks n, mapHas tasks.tasks dep = true →
      mapHas s.completedTasks dep = true

theorem scanTask_ready_iff (tasks : TaskSet) (s : Sched) (m n : String) :
    mapHas (scanTask tasks s m).readyTasks n = true ↔
      mapHas s.readyTasks n = true ∨ (n = m ∧ NewlyReady tasks s n) := by
  unfold scanTask NewlyReady
  dsimp only
  split
  · rename_i h
    simp only [Bool.or_eq_true] at h
    constructor
    · exact Or.inl
    · rintro (h1 | ⟨e, h1, h2, h3, _⟩)
      · exact h1
      · subst e
        rcases h with (h | h) | h
        · rw [h1] at h; exact Bool.noConfusion h
        · rw [h2] at h; exact Bool.noConfusion h
        · rw [h3] at h; exact Bool.noConfusion h
  · rename_i h
    simp only [Bool.or_eq_true, not_or, Bool.not_eq_true] at h
    split
    · rename_i hb
      constructor
      · exact Or.inl
      · rintro (h1 | ⟨e, _, _, _, h4⟩)
        · exact h1
        · subst e
          have := (isBlocked_eq_false_iff tasks s.completedTasks _).mpr h4
          unfold taskDeps at this
          rw [this] at hb
          exact Bool.noConfusion hb
    · rename_i hb
      rw [mapHas_set]
      constructor
      · rintro (e | e)
        · subst e
          right
          refine ⟨rfl, h.1.1, h.1.2, h.2, ?_⟩
          exact (isBlocked_eq_false_iff tasks s.completedTasks _).mp (by simpa using hb)
        · exact Or.inl e
      · rintro (h1 | ⟨e, _⟩)
        · exact Or.inr h1
        · exact Or.inl e.symm

theorem foldl_scanTask_ready_iff (tasks : TaskSet) (l : List String) (s : Sched) (n : String) :
    mapHas (l.foldl (scanTask tasks) s).readyTasks n = true ↔
      mapHas s.readyTasks n = true ∨ (n ∈ l ∧ NewlyReady tasks s n) := by
  induction l generalizing s with
  | nil => simp
  | cons m rest ih =>
    rw [List.foldl_cons, ih, scanTask_ready_iff]
    have fr := scanTask_frame tasks s m
    have hnew : NewlyReady tasks (scanTask tasks s m) n ↔
        NewlyReady tasks s n ∧ mapHas (scanTask tasks s m).readyTasks n = false := by
      unfold NewlyReady
      rw [fr.completedTasks, fr.startedTasks]
      constructor
      · rintro ⟨h1, h2, h3, h4⟩
        refine ⟨⟨h1, ?_, h3, h4⟩, h2⟩
        cases hx : mapHas s.readyTasks n with
        | false => rfl
        | true => rw [fr.ready_mono n hx] at h2; exact Bool.noConfusion h2
      · rintro ⟨⟨h1, _, h3, h4⟩, h2⟩
        exact ⟨h1, h2, h3, h4⟩
    rw [hnew]
    constructor
    · rintro ((h | ⟨e, h⟩) | ⟨hm, h, _⟩)
      · exact Or.inl h
      · exact Or.inr ⟨by rw [e]; exact List.mem_cons_self _ _, h⟩
      · exact Or.inr ⟨List.mem_cons_of_mem _ hm, h⟩
    · rintro (h | ⟨hm, h⟩)
      · exact Or.inl (Or.inl h)
      · rcases List.mem_cons.mp hm with e | e
        · exact Or.inl (Or.inr ⟨e, h⟩)
        · cases hx : mapHas (scanTask tasks s m).readyTasks n with
          | false => exact Or.inr ⟨e, h, rfl⟩
          | true => exact Or.inl ((scanTask_ready_iff tasks s m n).mp hx)

theorem scanReady_ready_iff (tasks : TaskSet) (prio : String → Nat) (s : Sched) (n : String) :
    mapHas (scanReady tasks prio s).readyTasks n = true ↔
      mapHas s.readyTasks n = true ∨ (mapHas tasks.tasks n = true ∧ NewlyReady tasks s n) := by
  unfold scanReady
  rw [foldl_scanTask_ready_iff, mem_rangeOrder]

/-- Claim C13: the readiness scan adds to the ready set exactly the tasks of
the graph that are in none of completed, ready and started and all of whose
dependencies that are tasks of the graph are completed; a task whose
dependencies all name no task of the graph becomes ready in the first scan;
and the scan leaves currentGroup, groupTasksStarted, the started set, the
completed set and the peek buffer unchanged. This holds for every iteration
order of the scan. -/
theorem scan_adds_exactly_unblocked (tasks : TaskSet) (prio : String → Nat) (s : Sched) :
    (∀ n, mapHas (scanReady tasks prio s).readyTasks n = true ↔
      mapHas s.readyTasks n = true ∨
        (mapHas tasks.tasks n = true ∧ mapHas s.completedTasks n = false ∧
          mapHas s.readyTasks n = false ∧ mapHas s.startedTasks n = false ∧
          ∀ dep ∈ taskDeps tasks n, mapHas tasks.tasks dep = true →
            mapHas s.completedTasks dep = true)) ∧
    (∀ n, mapHas tasks.tasks n = true →
      (∀ dep ∈ taskDeps tasks n, mapHas tasks.tasks dep = false) →
      mapHas (scanReady tasks prio Sched.init).readyTasks n = true) ∧
    ((scanReady tasks prio s).currentGroup = s.currentGroup ∧
      (scanReady tasks prio s).groupTasksStarted = s.groupTasksStarted ∧
      (scanReady tasks prio s).startedTasks = s.startedTasks ∧
      (scanReady tasks prio s).completedTasks = s.completedTasks ∧
      (scanReady tasks prio s).peeked = s.peeked) := by
  have fr := scanReady_frame tasks prio s
  refine ⟨fun n => scanReady_ready_iff tasks prio s n, ?_,
    fr.currentGroup, fr.groupTasksStarted, fr.startedTasks, fr.completedTasks, fr.peeked⟩
  intro n hn hdeps
  rw [scanReady_ready_iff]
  right
  refine ⟨hn, rfl, rfl, rfl, ?_⟩
  intro dep hdep hd
  rw [hdeps dep hdep] at hd
  exact Bool.noConfusion hd

/-- A task set whose one task depends on a name that is no task of the set. -/
def danglingTasks : TaskSet :=
  FromMapUnchecked [("a", { Name := "", Deps := ["ghost"], Group := "" })]

/-- Witness for C13: the dangling dependency does not block `a`. -/
theorem scan_adds_exactly_unblocked_witness :
    mapHas danglingTasks.tasks "a" = true ∧
    (∀ dep ∈ taskDeps danglingTasks "a", mapHas danglingTasks.tasks dep = false) ∧
    mapHas (scanReady danglingTasks (fun _ => 0) Sched.init).readyTasks "a" = true :=
  ⟨by decide, by decide,
    (scan_adds_exactly_unblocked danglingTasks (fun _ => 0) Sched.init).2.1 "a" (by decide)
      (by decide)⟩

/-! ## maxByValue and the group selection -/

theorem maxByValue_has {K V : Type} [DecidableEq K] [Inhabited K] [Inhabited V]
    [LinearOrder V] (m : GoMap K V) (prio1 prio2 : K → Nat) (k : K)
    (hk : mapHas m k = true) : mapHas m (maxByValue m prio1 prio2).1 = true := by
  rw [maxByValue_eq]
  apply foldl_preserves_mem (maxStep m) (fun acc => mapHas m acc.1 = true)
  · intro acc b hb hacc
    unfold maxStep
    split
    · exact (mem_rangeOrder prio2 m b).mp hb
    · exact hacc
  · cases hl : rangeOrder prio1 m with
    | nil =>
      have := (mem_rangeOrder prio1 m k).mpr hk
      rw [hl] at this
      exact absurd this (List.not_mem_nil _)
    | cons k0 rest =>
      dsimp only
      apply (mem_rangeOrder prio1 m k0).mp
      rw [hl]
      exact List.mem_cons_self _ _

theorem maxByValue_empty {K V : Type} [DecidableEq K] [Inhabited K] [Inhabited V]
    [LinearOrder V] (m : GoMap K V) (prio1 prio2 : K → Nat)
    (h : ∀ k, mapHas m k = false) : maxByValue m prio1 prio2 = (default, default) := by
  have hnil : ∀ prio : K → Nat, rangeOrder prio m = [] := by
    intro prio
    apply List.eq_nil_iff_forall_not_mem.mpr
    intro a ha
    rw [mem_rangeOrder, h a] at ha
    exact Bool.noConfusion ha
  rw [maxByValue_eq, hnil prio1, hnil prio2]
  rfl

theorem mapLookup_of_has_get {K V : Type} [DecidableEq K] [Inhabited V] (m : GoMap K V)
    (k : K) (h : mapHas m k = true) : mapLookup m k = some (mapGet m k) := by
  obtain ⟨v, hv⟩ := mapLookup_isSome_of_has h
  unfold mapGet
  rw [hv]
  rfl

/-- Claim C14: for a non-empty map `maxByValue` returns a key of the map with
its value, and no value of the map exceeds it, whatever the orders of the two
`range` loops; for the empty map it returns the zero key and the zero value;
so when groupTasksStarted is 0 the loop sets currentGroup to a group whose
ready count is the highest (values are compared in a linear order, as for the
`int` counts of the scheduler). -/
theorem maxByValue_returns_max {K V : Type} [DecidableEq K] [Inhabited K] [Inhabited V]
    [LinearOrder V] (m : GoMap K V) (prio1 prio2 : K → Nat) :
    ((∃ k, mapHas m k = true) →
      mapLookup m (maxByValue m prio1 prio2).1 = some (maxByValue m prio1 prio2).2 ∧
      ∀ k, mapHas m k = true → mapGet m k ≤ (maxByValue m prio1 prio2).2) ∧
    ((∀ k, mapHas m k = false) → maxByValue m prio1 prio2 = (default, default)) ∧
    (∀ (tasks : TaskSet) (os : List Oracle) (c : Config) (tr : List Event) (o : Oracle),
      Start tasks os = some (c, tr) → c.sched.groupTasksStarted = 0 →
      (prepare tasks c.sched o).currentGroup =
        (maxByValue (scanReady tasks o.scanPrio c.sched).groupReadyCount
          o.groupPrio1 o.groupPrio2).1 ∧
      ∀ g, mapGet (prepare tasks c.sched o).groupReadyCount g ≤
        mapGet (prepare tasks c.sched o).groupReadyCount
          (prepare tasks c.sched o).currentGroup) := by
  refine ⟨?_, maxByValue_empty m prio1 prio2, ?_⟩
  · rintro ⟨k, hk⟩
    constructor
    · rw [mapLookup_of_has_get m _ (maxByValue_has m prio1 prio2 k hk), maxByValue_snd]
    · intro k' hk'
      exact maxByValue_ge m prio1 prio2 k' hk'
  · intro tasks os c tr o h h0
    have hi := reaches_inv (reaches_of_start h)
    have hi1 : SchedInv tasks (scanReady tasks o.scanPrio c.sched) := scanReady_inv _ hi
    have h0' : (scanReady tasks o.scanPrio c.sched).groupTasksStarted = 0 := by
      rw [(scanReady_frame tasks o.scanPrio c.sched).groupTasksStarted]
      exact h0
    have hcur : (prepare tasks c.sched o).currentGroup =
        (maxByValue (scanReady tasks o.scanPrio c.sched).groupReadyCount
          o.groupPrio1 o.groupPrio2).1 := by
      unfold prepare
      rw [selectGroup_currentGroup, if_pos h0']
    have hcnt : (prepare tasks c.sched o).groupReadyCount =
        (scanReady tasks o.scanPrio c.sched).groupReadyCount := (selectGroup_frame _ _ _).2.2.1
    refine ⟨hcur, ?_⟩
    intro g
    rw [hcnt]
    cases hg : mapHas (scanReady tasks o.scanPrio c.sched).groupReadyCount g with
    | true =>
      have := maxByValue_ge (scanReady tasks o.scanPrio c.sched).groupReadyCount o.groupPrio1
        o.groupPrio2 g hg
      rw [maxByValue_snd, ← hcur] at this
      exact this
    | false =>
      rw [mapGet_of_not_has _ _ hg, hi1.ready_count, int_default_zero]
      exact Int.ofNat_nonneg _

/-- A count map with a tie for the highest value. -/
def tieCounts : GoMap String Int :=
  [("x", 2), ("y", 2), ("z", 1)]

/-- The variables after the first three steps of `demoRun`: `task1` is
completed and nothing is started. -/
def demoMidStart : Sched :=
  { currentGroup := "", groupTasksStarted := 0, readyTasks := [],
    groupReadyCount := [("", 0)], startedTasks := [],
    completedTasks := [("task1", ())], peeked := none }

/-- The events of the first three steps of `demoRun`. -/
def demoMidStartTrace : List Event :=
  [.start "task1", .done "task1"]

/-- Witness for C14 on a map with a tie and on a run of the two-task set. -/
theorem maxByValue_returns_max_witness :
    (∃ k, mapHas tieCounts k = true) ∧
    (mapLookup tieCounts (maxByValue tieCounts (fun _ => 0) (fun _ => 0)).1 =
        some (maxByValue tieCounts (fun _ => 0) (fun _ => 0)).2 ∧
      ∀ k, mapHas tieCounts k = true →
        mapGet tieCounts k ≤ (maxByValue tieCounts (fun _ => 0) (fun _ => 0)).2) ∧
    Start twoTasks (demoRun.take 3) = some (⟨.drain, demoMidStart⟩, demoMidStartTrace) ∧
    (prepare twoTasks demoMidStart (Oracle.plain .send)).currentGroup = "" :=
  have hw := maxByValue_returns_max tieCounts (fun _ => 0) (fun _ => 0)
  ⟨⟨"x", by decide⟩, hw.1 ⟨"x", by decide⟩, by decide,
    ((hw.2.2 twoTasks (demoRun.take 3) ⟨.drain, demoMidStart⟩ demoMidStartTrace
      (Oracle.plain .send) (by decide) (by decide)).1).trans (by decide)⟩

end Taskqueue

namespace Taskqueue

/-! ## The counters and the start channel in every reachable state -/

/-- A run of the two-task set in which `task1` is reported twice and a name
that was never started is reported once. -/
def noisyRun : List Oracle :=
  [.plain .dflt, .plain .send, .plain (.recv "task1"), .plain (.recv "task1"),
   .plain (.recv "ghost"), .plain .dflt]

/-- The variables at the end of `noisyRun`. -/
def noisyEnd : Config :=
  { loc := .body,
    sched := { currentGroup := "", groupTasksStarted := 0, readyTasks := [],
               groupReadyCount := [("", 0)], startedTasks := [],
               completedTasks := [("ghost", ()), ("task1", ())], peeked := none } }

/-- The events of `noisyRun`. -/
def noisyTrace : List Event :=
  [.start "task1", .done "task1", .done "task1", .done "ghost"]

/-- Claim C15: in every reachable state, for every task graph and every
sequence of completion reports (duplicates and never-emitted names included),
groupTasksStarted equals the number of tasks in the started set; it is never
negative and is 0 exactly when the started set is empty; the same holds after
the scan and the group selection inside the loop body. -/
theorem started_counter_exact (tasks : TaskSet) (os : List Oracle) (c : Config)
    (tr : List Event) (h : Start tasks os = some (c, tr)) :
    c.sched.groupTasksStarted = (mapLen c.sched.startedTasks : Int) ∧
    0 ≤ c.sched.groupTasksStarted ∧
    (c.sched.groupTasksStarted = 0 ↔ ∀ n, mapHas c.sched.startedTasks n = false) ∧
    (∀ o, (prepare tasks c.sched o).groupTasksStarted =
      (mapLen (prepare tasks c.sched o).startedTasks : Int)) := by
  have hi := reaches_inv (reaches_of_start h)
  refine ⟨hi.started_count, ?_, ?_, fun o => (prepare_inv o hi).started_count⟩
  · rw [hi.started_count]
    exact Int.ofNat_nonneg _
  · rw [hi.started_count, ← mapLen_eq_zero_iff]
    exact Int.natCast_eq_zero

/-- Witness for C15 on the run with a duplicate and a never-emitted report. -/
theorem started_counter_exact_witness :
    Start twoTasks noisyRun = some (noisyEnd, noisyTrace) ∧
    (noisyEnd.sched.groupTasksStarted = (mapLen noisyEnd.sched.startedTasks : Int) ∧
    0 ≤ noisyEnd.sched.groupTasksStarted ∧
    (noisyEnd.sched.groupTasksStarted = 0 ↔
      ∀ n, mapHas noisyEnd.sched.startedTasks n = false) ∧
    (∀ o, (prepare twoTasks noisyEnd.sched o).groupTasksStarted =
      (mapLen (prepare twoTasks noisyEnd.sched o).startedTasks : Int))) :=
  ⟨by decide, started_counter_exact twoTasks noisyRun noisyEnd noisyTrace (by decide)⟩

/-- Claim C16: in every reachable state, for every group label `g`,
groupReadyCount[g] equals the number of tasks in the ready set whose group is
`g` (so no ready task has a group without entry), and the ready set and the
started set are disjoint; the same holds after the scan and the group
selection inside the loop body. -/
theorem ready_counter_exact (tasks : TaskSet) (os : List Oracle) (c : Config)
    (tr : List Event) (h : Start tasks os = some (c, tr)) :
    (∀ g, mapGet c.sched.groupReadyCount g =
      (keysCount (fun n => decide (taskGroup tasks n = g)) c.sched.readyTasks : Int)) ∧
    (∀ g, mapHas c.sched.groupReadyCount g = false →
      keysCount (fun n => decide (taskGroup tasks n = g)) c.sched.readyTasks = 0) ∧
    (∀ n, mapHas c.sched.readyTasks n = true → mapHas c.sched.startedTasks n = false) ∧
    (∀ o g, mapGet (prepare tasks c.sched o).groupReadyCount g =
      (keysCount (fun n => decide (taskGroup tasks n = g))
        (prepare tasks c.sched o).readyTasks : Int)) ∧
    (∀ o n, mapHas (prepare tasks c.sched o).readyTasks n = true →
      mapHas (prepare tasks c.sched o).startedTasks n = false) := by
  have hi := reaches_inv (reaches_of_start h)
  refine ⟨hi.ready_count, ?_, hi.ready_not_started, fun o => (prepare_inv o hi).ready_count,
    fun o => (prepare_inv o hi).ready_not_started⟩
  intro g hg
  have := hi.ready_count g
  rw [mapGet_of_not_has _ _ hg, int_default_zero] at this
  exact_mod_cast this.symm

/-- Witness for C16 in the state of the two independent tasks where `b` is
started and `a` is ready. -/
theorem ready_counter_exact_witness :
    Start indepTasks [.plain .dflt, .plain .send, .plain .dflt] =
      some (raceConfig, [.start "b"]) ∧
    mapGet raceConfig.sched.groupReadyCount "" =
      (keysCount (fun n => decide (taskGroup indepTasks n = "")) raceConfig.sched.readyTasks
        : Int) ∧
    mapHas raceConfig.sched.startedTasks "a" = false :=
  have hw := ready_counter_exact indepTasks [.plain .dflt, .plain .send, .plain .dflt]
    raceConfig [.start "b"] (by decide)
  ⟨by decide, hw.1 "", hw.2.2.1 "a" (by decide)⟩

/-- Claim C18: every name emitted on the start feed is the name of a task of
the graph, no name is emitted more than once, and so the number of start
events never exceeds the number of tasks, the capacity of the start channel. -/
theorem start_events_bounded (tasks : TaskSet) (os : List Oracle) (c : Config)
    (tr : List Event) (h : Start tasks os = some (c, tr)) :
    (∀ n ∈ starts tr, mapHas tasks.tasks n = true) ∧ (starts tr).Nodup ∧
    (starts tr).length ≤ mapLen tasks.tasks := by
  have hr := reaches_of_start h
  have hh := reaches_hist hr
  exact ⟨fun n hn => (hh.start_task n hn).1, hh.starts_nodup, starts_length_le hr⟩

/-- Witness for C18 on the run with a duplicate and a never-emitted report. -/
theorem start_events_bounded_witness :
    Start twoTasks noisyRun = some (noisyEnd, noisyTrace) ∧
    ((∀ n ∈ starts noisyTrace, mapHas twoTasks.tasks n = true) ∧ (starts noisyTrace).Nodup ∧
    (starts noisyTrace).length ≤ mapLen twoTasks.tasks) :=
  ⟨by decide, start_events_bounded twoTasks noisyRun noisyEnd noisyTrace (by decide)⟩

/-! ## A task stored under the empty name -/

/-- A task set with a task stored under the empty name, as `FromMapUnchecked`
allows. -/
def emptyNamed : TaskSet :=
  FromMapUnchecked [("", default), ("a", default)]

/-- The run of `emptyNamed` in which `a` is started and reported. -/
def emptyNamedRun : List Oracle :=
  [.plain .dflt, .plain .send, .plain (.recv "a"), .plain .dflt, .plain .dflt]

/-- The variables at the end of `emptyNamedRun`: the empty name is still ready. -/
def emptyNamedEnd : Config :=
  { loc := .exited,
    sched := { currentGroup := "", groupTasksStarted := 0, readyTasks := [("", ())],
               groupReadyCount := [("", 1)], startedTasks := [],
               completedTasks := [("a", ())], peeked := none } }

/-- The events of `emptyNamedRun`. -/
def emptyNamedTrace : List Event :=
  [.start "a", .done "a", .startClosed]

/-- Claim C20: for every task graph, also one with a task stored under the
empty name, the empty string is never emitted on the start feed and never
enters the started set; yet such a task, when none of its dependencies is a
task of the graph, is put in the ready set by the first scan, and whenever it
is in the ready set it is counted in groupReadyCount under its group. -/
theorem empty_name_never_started (tasks : TaskSet) (os : List Oracle) (c : Config)
    (tr : List Event) (h : Start tasks os = some (c, tr)) :
    "" ∉ starts tr ∧ mapHas c.sched.startedTasks "" = false ∧
    (∀ prio, mapHas tasks.tasks "" = true →
      (∀ dep ∈ taskDeps tasks "", mapHas tasks.tasks dep = false) →
      mapHas (scanReady tasks prio Sched.init).readyTasks "" = true ∧
      1 ≤ mapGet (scanReady tasks prio Sched.init).groupReadyCount (taskGroup tasks "")) ∧
    (mapHas c.sched.readyTasks "" = true →
      1 ≤ mapGet c.sched.groupReadyCount (taskGroup tasks "")) := by
  have hr := reaches_of_start h
  have hh := reaches_hist hr
  have hi := reaches_inv hr
  have hcount : ∀ s : Sched, SchedInv tasks s → mapHas s.readyTasks "" = true →
      1 ≤ mapGet s.groupReadyCount (taskGroup tasks "") := by
    intro s hs hready
    rw [hs.ready_count]
    have : 0 < keysCount (fun n => decide (taskGroup tasks n = taskGroup tasks "")) s.readyTasks :=
      (keysCount_pos_iff _ _).mpr ⟨"", hready, by simp⟩
    exact_mod_cast this
  have hns : "" ∉ starts tr := fun hm => (hh.start_task "" hm).2 rfl
  refine ⟨hns, ?_, ?_, hcount c.sched hi⟩
  · cases hx : mapHas c.sched.startedTasks "" with
    | false => rfl
    | true => exact absurd (hh.started_start "" hx) hns
  · intro prio hn hdeps
    have hready : mapHas (scanReady tasks prio Sched.init).readyTasks "" = true := by
      rw [scanReady_ready_iff]
      right
      refine ⟨hn, rfl, rfl, rfl, ?_⟩
      intro dep hdep hd
      rw [hdeps dep hdep] at hd
      exact Bool.noConfusion hd
    exact ⟨hready, hcount _ (scanReady_inv prio (schedInv_init tasks)) hready⟩

/-- Witness for C20: the run of `emptyNamed` returns with the empty name ready
and counted, and never started. -/
theorem empty_name_never_started_witness :
    Start emptyNamed emptyNamedRun = some (emptyNamedEnd, emptyNamedTrace) ∧
    mapHas emptyNamedEnd.sched.readyTasks "" = true ∧
    "" ∉ starts emptyNamedTrace ∧ mapHas emptyNamedEnd.sched.startedTasks "" = false ∧
    1 ≤ mapGet emptyNamedEnd.sched.groupReadyCount (taskGroup emptyNamed "") :=
  have hw := empty_name_never_started emptyNamed emptyNamedRun emptyNamedEnd emptyNamedTrace
    (by decide)
  ⟨by decide, by decide, hw.1, hw.2.1, hw.2.2.2 (by decide)⟩

end Taskqueue

namespace Taskqueue

/-! ## The peek buffer -/

/-- The goroutine of the two independent tasks past a drain loop that ended on
a received empty name, the peek buffer still holding `b`. -/
def fullBufferConfig : Config :=
  { loc := .body,
    sched := { currentGroup := "", groupTasksStarted := 1, readyTasks := [("a", ())],
               groupReadyCount := [("", 1)], startedTasks := [("b", ())],
               completedTasks := [], peeked := some "b" } }

/-- Counterexample for C17: `b` is started and its report is stashed during
the dispatch of `a`; the drain `select` then receives the empty name from the
done channel, which ends the drain loop with the buffer still full; the next
stash blocks for ever and the report of `b` is never handled. -/
theorem drain_leaves_buffer_full :
    Start indepTasks [.plain .dflt, .plain .send, .plain .dflt, .plain (.recv "b"),
        .plain (.recv "")] =
      some (fullBufferConfig, [.start "b", .done "b", .done ""]) ∧
    fullBufferConfig.loc = .body ∧ fullBufferConfig.sched.peeked = some "b" ∧
    Start indepTasks [.plain .dflt, .plain .send, .plain .dflt, .plain (.recv "b"),
        .plain (.recv ""), .plain (.recv "")] =
      some ({ fullBufferConfig with loc := .stuck },
        [.start "b", .done "b", .done "", .done ""]) ∧
    mapHas fullBufferConfig.sched.completedTasks "b" = false := by
  decide

/-- Claim C17, amended: for every task graph and every sequence of non-empty
names reported on the completion sink, the peek buffer is empty whenever the
drain step has finished, so each stash (after the dispatch race or the
blocking wait) finds it empty and never blocks, and a stashed name stays in
the buffer until the drain step handles it, marks it completed, or the loop
returns on a closed sink. -/
theorem peek_buffer_never_blocks (tasks : TaskSet) (os : List Oracle) (c : Config)
    (tr : List Event) (h : Start tasks os = some (c, tr)) (hne : "" ∉ dones tr) :
    c.loc ≠ .stuck ∧ (c.loc = .body → c.sched.peeked = none) ∧
    (∀ o c' ev v, c.loc = .body → step tasks c o = some (c', ev) → Event.done v ∈ ev →
      c'.loc = .drain ∧ c'.sched.peeked = some v) ∧
    (∀ o c' ev v, c.loc = .drain → c.sched.peeked = some v →
      step tasks c o = some (c', ev) → "" ∉ dones ev →
      (c'.loc = .drain ∧ c'.sched.peeked = some v) ∨
      (c'.loc = .drain ∧ c'.sched.peeked = none ∧
        mapHas c'.sched.completedTasks v = true) ∨
      c'.loc = .exited) := by
  have hr := reaches_of_start h
  have hex := reaches_exitInv hr
  have hh := reaches_hist hr
  have hclear : c.loc = .body → c.sched.peeked = none := by
    intro hl
    cases hp : c.sched.peeked with
    | none => rfl
    | some v => exact absurd (hex.body_peeked hl (by rw [hp]; rfl)) hne
  refine ⟨fun hl => hne (hex.stuck_done hl), hclear, ?_, ?_⟩
  · intro o c' ev v hl hstep hv
    have hs := step_sound hstep
    have hp := hclear hl
    cases hs with
    | drainPeek s w hp' => exact Loc.noConfusion hl
    | drainRecv s w => exact Loc.noConfusion hl
    | drainClosed s => exact Loc.noConfusion hl
    | drainDefault s hp' => exact Loc.noConfusion hl
    | bodyClosed s o' hc => simp at hv
    | bodySend s o' hn => simp at hv
    | bodyExit s o' h1 h2 => simp at hv
    | bodyRecv s o' w hc =>
      have e : v = w := by simpa using hv
      subst e
      dsimp only at hp
      unfold stash
      rw [prepare_peeked, hp]
      exact ⟨rfl, rfl⟩
  · intro o c' ev v hl hp hstep hev
    have hv : v ≠ "" := by
      intro e
      rw [e] at hp
      exact hne (hh.peeked_done "" hp)
    have hs := step_sound hstep
    cases hs with
    | bodyRecv s o' w hc => exact Loc.noConfusion hl
    | bodyClosed s o' hc => exact Loc.noConfusion hl
    | bodySend s o' hn => exact Loc.noConfusion hl
    | bodyExit s o' h1 h2 => exact Loc.noConfusion hl
    | drainClosed s => exact Or.inr (Or.inr rfl)
    | drainDefault s hp' =>
      dsimp only at hp
      rw [hp'] at hp
      exact Option.noConfusion hp
    | drainRecv s w =>
      have hw : w ≠ "" := by
        intro e
        apply hev
        simp [dones, e]
      rw [afterReceive_of_ne _ hw]
      left
      exact ⟨rfl, by dsimp only; rw [markCompleted_peeked]; exact hp⟩
    | drainPeek s w hp' =>
      dsimp only at hp
      have e : w = v := Option.some.inj (hp'.symm.trans hp)
      subst e
      rw [afterReceive_of_ne _ hv]
      right; left
      refine ⟨rfl, ?_, ?_⟩
      · dsimp only
        rw [markCompleted_peeked]
      · exact (markCompleted_completed _ w w).mpr (Or.inl rfl)

/-- The goroutine of the two independent tasks with `b` started and its report
in the peek buffer. -/
def stashedConfig : Config :=
  { loc := .drain,
    sched := { currentGroup := "", groupTasksStarted := 1, readyTasks := [("a", ())],
               groupReadyCount := [("", 1)], startedTasks := [("b", ())],
               completedTasks := [], peeked := some "b" } }

/-- Witness for C17 amended: the report of `b` arrives during the dispatch of
`a` and is stashed in the empty buffer. -/
theorem peek_buffer_never_blocks_witness :
    Start indepTasks [.plain .dflt, .plain .send, .plain .dflt] =
      some (raceConfig, [.start "b"]) ∧
    "" ∉ dones [Event.start "b"] ∧
    step indepTasks raceConfig (.plain (.recv "b")) = some (stashedConfig, [.done "b"]) ∧
    raceConfig.sched.peeked = none ∧
    stashedConfig.loc = .drain ∧ stashedConfig.sched.peeked = some "b" :=
  have hw := peek_buffer_never_blocks indepTasks [.plain .dflt, .plain .send, .plain .dflt]
    raceConfig [.start "b"] (by decide) (by decide)
  have hs := hw.2.2.1 (.plain (.recv "b")) stashedConfig [.done "b"] "b" (by decide)
    (by decide) (by decide)
  ⟨by decide, by decide, by decide, hw.2.1 (by decide), hs.1, hs.2⟩

/-! ## A report that arrives before its task is ready -/

/-- The report of `t` has been received and `t` is not ready: it is completed,
or it waits in the peek buffer while the goroutine is in the drain loop (or
has returned). -/
def Handled (t : String) (c : Config) : Prop :=
  mapHas c.sched.readyTasks t = false ∧
    (mapHas c.sched.completedTasks t = true ∨ (c.sched.peeked = some t ∧ c.loc ≠ .body))

theorem prepare_not_ready {tasks : TaskSet} {s : Sched} {t : String} (o : Oracle)
    (hr : mapHas s.readyTasks t = false) (hc : mapHas s.completedTasks t = true) :
    mapHas (prepare tasks s o).readyTasks t = false := by
  cases hx : mapHas (prepare tasks s o).readyTasks t with
  | false => rfl
  | true =>
    rw [prepare_ready] at hx
    rcases scanReady_new tasks _ s t hx with h1 | ⟨h1, _⟩
    · rw [hr] at h1; exact Bool.noConfusion h1
    · rw [hc] at h1; exact Bool.noConfusion h1

theorem afterReceive_ready (s : Sched) (v : String) :
    (afterReceive s v).sched.readyTasks = s.readyTasks := by
  unfold afterReceive
  split
  · rfl
  · exact markCompleted_ready s v

theorem step_handled {tasks : TaskSet} {c c' : Config} {ev : List Event} {t : String}
    (hs : Step tasks c c' ev) (ht : t ≠ "") (hne : "" ∉ dones ev) (h : Handled t c) :
    Handled t c' ∧ t ∉ starts ev := by
  obtain ⟨hr, hcases⟩ := h
  cases hs with
  | drainPeek s v hp =>
    refine ⟨⟨by rw [afterReceive_ready]; exact hr, Or.inl ?_⟩, by simp [starts]⟩
    rcases hcases with h1 | ⟨h1, _⟩
    · unfold afterReceive
      split
      · exact h1
      · exact (markCompleted_completed _ v t).mpr (Or.inr h1)
    · have e : v = t := Option.some.inj (hp.symm.trans h1)
      subst e
      rw [afterReceive_of_ne _ ht]
      exact (markCompleted_completed _ v v).mpr (Or.inl rfl)
  | drainRecv s v =>
    have hv : v ≠ "" := by
      intro e
      apply hne
      simp [dones, e]
    rw [afterReceive_of_ne _ hv]
    refine ⟨⟨by dsimp only; rw [markCompleted_ready]; exact hr, ?_⟩, by simp [starts]⟩
    rcases hcases with h1 | ⟨h1, _⟩
    · exact Or.inl ((markCompleted_completed _ v t).mpr (Or.inr h1))
    · right
      refine ⟨?_, fun hl => Loc.noConfusion hl⟩
      dsimp only
      rw [markCompleted_peeked]
      exact h1
  | drainClosed s =>
    refine ⟨⟨hr, ?_⟩, by simp [starts]⟩
    rcases hcases with h1 | ⟨h1, _⟩
    · exact Or.inl h1
    · exact Or.inr ⟨h1, fun hl => Loc.noConfusion hl⟩
  | drainDefault s hp =>
    refine ⟨⟨hr, ?_⟩, by simp [starts]⟩
    rcases hcases with h1 | ⟨h1, _⟩
    · exact Or.inl h1
    · dsimp only at h1
      rw [hp] at h1
      exact Option.noConfusion h1
  | bodyRecv s o v hc =>
    have hcomp : mapHas s.completedTasks t = true := by
      rcases hcases with h1 | ⟨_, h1⟩
      · exact h1
      · exact absurd rfl h1
    have hnr : mapHas (prepare tasks s o).readyTasks t = false := prepare_not_ready o hr hcomp
    refine ⟨⟨?_, Or.inl ?_⟩, by simp [starts]⟩
    · unfold stash
      split <;> exact hnr
    · unfold stash
      split <;> (dsimp only; rw [prepare_completed]; exact hcomp)
  | bodyClosed s o hc =>
    have hcomp : mapHas s.completedTasks t = true := by
      rcases hcases with h1 | ⟨_, h1⟩
      · exact h1
      · exact absurd rfl h1
    refine ⟨⟨prepare_not_ready o hr hcomp, Or.inl ?_⟩, by simp [starts]⟩
    dsimp only
    rw [prepare_completed]
    exact hcomp
  | bodyExit s o h1 h2 =>
    have hcomp : mapHas s.completedTasks t = true := by
      rcases hcases with h1 | ⟨_, h1⟩
      · exact h1
      · exact absurd rfl h1
    refine ⟨⟨prepare_not_ready o hr hcomp, Or.inl ?_⟩, by simp [starts]⟩
    dsimp only
    rw [prepare_completed]
    exact hcomp
  | bodySend s o hn =>
    have hcomp : mapHas s.completedTasks t = true := by
      rcases hcases with h1 | ⟨_, h1⟩
      · exact h1
      · exact absurd rfl h1
    have hnr : mapHas (prepare tasks s o).readyTasks t = false := prepare_not_ready o hr hcomp
    have hp := pickNext_ne_empty hn
    refine ⟨⟨?_, Or.inl ?_⟩, ?_⟩
    · show mapHas (mapDelete (prepare tasks s o).readyTasks _) t = false
      cases hx : mapHas (mapDelete (prepare tasks s o).readyTasks
          (pickNext tasks (prepare tasks s o) o.readyPrio)) t with
      | false => rfl
      | true =>
        rw [((mapHas_delete _ _ _).mp hx).2] at hnr
        exact Bool.noConfusion hnr
    · show mapHas (prepare tasks s o).completedTasks t = true
      rw [prepare_completed]
      exact hcomp
    · intro hm
      have e : t = pickNext tasks (prepare tasks s o) o.readyPrio := by
        simpa [starts] using hm
      rw [← e, hnr] at hp
      exact Bool.noConfusion hp.1

theorem runFrom_handled {tasks : TaskSet} {t : String} (ht : t ≠ "") (os : List Oracle) :
    ∀ {c c' : Config} {tr : List Event}, runFrom tasks c os = some (c', tr) →
      "" ∉ dones tr → Handled t c → Handled t c' ∧ t ∉ starts tr := by
  induction os with
  | nil =>
    intro c c' tr h _ hc
    simp only [runFrom, Option.some.injEq, Prod.mk.injEq] at h
    obtain ⟨rfl, rfl⟩ := h
    exact ⟨hc, by simp [starts]⟩
  | cons o rest ih =>
    intro c c' tr h hne hc
    simp only [runFrom] at h
    cases hs : step tasks c o with
    | none => rw [hs] at h; exact Option.noConfusion h
    | some r =>
      obtain ⟨c1, ev⟩ := r
      rw [hs] at h
      dsimp only at h
      cases hrest : runFrom tasks c1 rest with
      | none => rw [hrest] at h; exact Option.noConfusion h
      | some r2 =>
        obtain ⟨c2, tr2⟩ := r2
        rw [hrest] at h
        simp only [Option.some.injEq, Prod.mk.injEq] at h
        obtain ⟨rfl, rfl⟩ := h
        rw [dones_append, List.mem_append, not_or] at hne
        obtain ⟨a1, a2⟩ := step_handled (step_sound hs) ht hne.1 hc
        obtain ⟨b1, b2⟩ := ih hrest hne.2 a1
        refine ⟨b1, ?_⟩
        rw [starts_append, List.mem_append, not_or]
        exact ⟨a2, b2⟩

/-- The goroutine of the two-task set after the report of `task2` arrived,
before `task2` was ready, during the dispatch of `task1`. -/
def earlyConfig : Config :=
  { loc := .drain,
    sched := { currentGroup := "", groupTasksStarted := 0, readyTasks := [("task1", ())],
               groupReadyCount := [("", 1)], startedTasks := [],
               completedTasks := [], peeked := some "task2" } }

/-- The goroutine of the two-task set after `task2` was sent although its
report had arrived first. -/
def earlyStarted : Config :=
  { loc := .drain,
    sched := { currentGroup := "", groupTasksStarted := 1, readyTasks := [],
               groupReadyCount := [("", 0)], startedTasks := [("task2", ())],
               completedTasks := [("task1", ())], peeked := some "task2" } }

/-- A task set whose only task is stored under the empty name. -/
def emptyOnly : TaskSet :=
  FromMapUnchecked [("", default)]

/-- Counterexample for C19: the report of `task2` arrives before `task2` is
ready and is stashed; two reports of the empty name then end the drain loop
with the buffer still full, so the scan makes `task2` ready and it is sent.
Likewise a task stored under the empty name is made ready after its name was
received, because the drain loop takes the empty name for no event. -/
theorem early_report_still_started :
    Start twoTasks [.plain .dflt, .plain (.recv "task2")] =
      some (earlyConfig, [.done "task2"]) ∧
    mapHas earlyConfig.sched.readyTasks "task2" = false ∧
    Start twoTasks [.plain .dflt, .plain (.recv "task2"), .plain (.recv ""), .plain .send,
        .plain (.recv "task1"), .plain (.recv ""), .plain .send] =
      some (earlyStarted, [.done "task2", .done "", .start "task1", .done "task1", .done "",
        .start "task2"]) ∧
    Start emptyOnly [.plain (.recv "")] = some (⟨.body, Sched.init⟩, [.done ""]) ∧
    Start emptyOnly [.plain (.recv ""), .plain .dflt] =
      some (⟨.exited, { Sched.init with readyTasks := [("", ())],
                                        groupReadyCount := [("", 1)] }⟩,
        [.done "", .startClosed]) := by
  decide

/-- Claim C19, amended: for every task graph and every run in which no empty
name is reported, a task whose name is received on the completion sink while
the task is not in the ready set is never added to the ready set and is never
emitted on the start feed afterwards; at every later readiness scan it is in
the completed set, so that a task whose other dependencies are completed is
made ready as if it had run. -/
theorem early_report_never_ready (tasks : TaskSet) (os1 : List Oracle) (c1 : Config)
    (tr1 : List Event) (o : Oracle) (c2 : Config) (ev : List Event) (t : String)
    (os2 : List Oracle) (c3 : Config) (tr3 : List Event)
    (h1 : Start tasks os1 = some (c1, tr1)) (h2 : step tasks c1 o = some (c2, ev))
    (hrecv : Event.done t ∈ ev) (hnr : mapHas c2.sched.readyTasks t = false)
    (h3 : runFrom tasks c2 os2 = some (c3, tr3))
    (hne : "" ∉ dones (tr1 ++ ev ++ tr3)) :
    mapHas c3.sched.readyTasks t = false ∧ t ∉ starts tr3 ∧
    (c3.loc = .body → mapHas c3.sched.completedTasks t = true) ∧
    (∀ prio n, c3.loc = .body → mapHas tasks.tasks n = true →
      mapHas c3.sched.completedTasks n = false → mapHas c3.sched.readyTasks n = false →
      mapHas c3.sched.startedTasks n = false →
      (∀ dep ∈ taskDeps tasks n, mapHas tasks.tasks dep = true →
        dep = t ∨ mapHas c3.sched.completedTasks dep = true) →
      mapHas (scanReady tasks prio c3.sched).readyTasks n = true) := by
  rw [dones_append, dones_append, List.mem_append, List.mem_append, not_or, not_or] at hne
  obtain ⟨⟨ne1, ne2⟩, ne3⟩ := hne
  have ht : t ≠ "" := by
    intro e
    apply ne2
    rw [mem_dones, ← e]
    exact hrecv
  have hr1 := reaches_of_start h1
  have hex := reaches_exitInv hr1
  have hstart : Handled t c2 := by
    refine ⟨hnr, ?_⟩
    have hs := step_sound h2
    cases hs with
    | drainPeek s v hp => simp at hrecv
    | drainClosed s => simp at hrecv
    | drainDefault s hp => simp at hrecv
    | bodyClosed s o' hc => simp at hrecv
    | bodySend s o' hn => simp at hrecv
    | bodyExit s o' a b => simp at hrecv
    | drainRecv s v =>
      have e : t = v := by simpa using hrecv
      subst e
      rw [afterReceive_of_ne _ ht]
      exact Or.inl ((markCompleted_completed _ t t).mpr (Or.inl rfl))
    | bodyRecv s o' v hc =>
      have e : t = v := by simpa using hrecv
      subst e
      have hp : s.peeked = none := by
        cases hp : s.peeked with
        | none => rfl
        | some w => exact absurd (hex.body_peeked rfl (by dsimp only; rw [hp]; rfl)) ne1
      right
      unfold stash
      rw [prepare_peeked, hp]
      exact ⟨rfl, fun hl => Loc.noConfusion hl⟩
  obtain ⟨⟨hready, hcases⟩, hstarts⟩ := runFrom_handled ht os2 h3 ne3 hstart
  have hbody : c3.loc = .body → mapHas c3.sched.completedTasks t = true := by
    intro hl
    rcases hcases with h | ⟨_, h⟩
    · exact h
    · exact absurd hl h
  refine ⟨hready, hstarts, hbody, ?_⟩
  intro prio n hl hn hc hr hs hdeps
  rw [scanReady_ready_iff]
  right
  refine ⟨hn, hc, hr, hs, ?_⟩
  intro dep hdep hd
  rcases hdeps dep hdep hd with e | e
  · rw [e]; exact hbody hl
  · exact e

/-- The rest of the run after the early report of `task2`. -/
def earlyRest : List Oracle :=
  [.plain .peek, .plain .dflt, .plain .send, .plain (.recv "task1"), .plain .dflt, .plain .dflt]

/-- The variables at the end of `earlyRest`: `task2` was never sent. -/
def earlyEnd : Config :=
  { loc := .exited,
    sched := { currentGroup := "", groupTasksStarted := 0, readyTasks := [],
               groupReadyCount := [("", 0)], startedTasks := [],
               completedTasks := [("task1", ()), ("task2", ())], peeked := none } }

/-- Witness for C19 amended: `task2` is reported during the dispatch of
`task1`, before it is ready, and is never sent. -/
theorem early_report_never_ready_witness :
    Start twoTasks [.plain .dflt] = some (⟨.body, Sched.init⟩, []) ∧
    step twoTasks ⟨.body, Sched.init⟩ (.plain (.recv "task2")) =
      some (earlyConfig, [.done "task2"]) ∧
    mapHas earlyConfig.sched.readyTasks "task2" = false ∧
    runFrom twoTasks earlyConfig earlyRest =
      some (earlyEnd, [.start "task1", .done "task1", .startClosed]) ∧
    "task2" ∉ starts [Event.start "task1", Event.done "task1", Event.startClosed] ∧
    mapHas earlyEnd.sched.readyTasks "task2" = false :=
  have hw := early_report_never_ready twoTasks [.plain .dflt] ⟨.body, Sched.init⟩ []
    (.plain (.recv "task2")) earlyConfig [.done "task2"] "task2" earlyRest earlyEnd
    [.start "task1", .done "task1", .startClosed]
    (by decide) (by decide) (by decide) (by decide) (by decide) (by decide)
  ⟨by decide, by decide, by decide, by decide, hw.2.1, hw.1⟩

end Taskqueue
